import Mathlib

/-!
# Raycaster: the per-frame renderer of `src/main.c` and `src/textured.c`

Shallow embedding of `render_frame` (flat-colour variant of `main.c`, textured
variant of `textured.c`) and of the camera rotation of `main`.

Two embeddings of the arithmetic are used.

The exact embedding (namespace `Raycast`) serves the statements that do not depend on
rounding:
* a C `double` is an exact rational (`ℚ`, or a real for `cos` and `sin`); rounding,
  infinities and NaN are not modelled, and a quotient by zero has Lean's value `0`;
* a C `int` is an `Int`; values are taken to stay in range, overflow is not modelled;
* `(int)d` is truncation toward zero (`c_int`), `/` and `%` on `int` are
  `Int.tdiv` and `Int.tmod`;
* the pixel buffer is a map from the flat index to `Option Nat`, `none` being a
  cell that was never written;
* a bounded `for` loop is a fold over its index range, the `while` loop of the
  DDA is iteration of its body.

The binary64 embedding (namespace `Raycast.Binary64`) serves the statements that depend on
rounding, on the sign of a zero or on a quotient by zero: a `double` is a `Dbl`, and every
operation rounds its exact result to the nearest binary64 number, ties to even.
-/

namespace Raycast

/-! ## Constants and the map -/

def SCREEN_WIDTH : Int := 800
def SCREEN_HEIGHT : Int := 600
def MAP_WIDTH : Int := 10
def MAP_HEIGHT : Int := 10

/-- The rows of the initialiser of `g_map`. -/
def g_map_rows : List (List Int) :=
  [[1, 1, 1, 1, 1, 1, 1, 1, 1, 1],
   [1, 0, 0, 0, 0, 0, 0, 0, 0, 1],
   [1, 0, 0, 0, 0, 0, 0, 0, 0, 1],
   [1, 0, 0, 2, 2, 2, 0, 0, 0, 1],
   [1, 0, 0, 2, 0, 2, 0, 0, 0, 1],
   [1, 0, 0, 2, 2, 2, 0, 0, 0, 1],
   [1, 0, 0, 0, 0, 0, 0, 3, 0, 1],
   [1, 0, 0, 0, 0, 0, 0, 3, 0, 1],
   [1, 0, 0, 0, 0, 0, 0, 3, 0, 1],
   [1, 1, 1, 1, 1, 1, 1, 1, 1, 1]]

/-- The read `g_map[mapY][mapX]`; only meaningful for an index pair inside the array. -/
def g_map (mapY mapX : Int) : Int :=
  (g_map_rows.getD mapY.toNat []).getD mapX.toNat 0

/-- The cast `(int)d` of a double: truncation toward zero. -/
def c_int (d : ℚ) : Int := if 0 ≤ d then ⌊d⌋ else ⌈d⌉

/-- The six `double` parameters of `render_frame` that describe the camera. -/
structure Camera where
  posX : ℚ
  posY : ℚ
  dirX : ℚ
  dirY : ℚ
  planeX : ℚ
  planeY : ℚ

/-! ## Ray set-up (lines 115-148 of `textured.c`, 63-96 of `main.c`) -/

/-- Local `cameraX = 2.0 * x / (double)SCREEN_WIDTH - 1.0`. -/
def cameraX (x : Int) : ℚ := 2 * (x : ℚ) / (SCREEN_WIDTH : ℚ) - 1

/-- Local `rayDirX = dirX + planeX * cameraX`. -/
def rayDirX (c : Camera) (x : Int) : ℚ := c.dirX + c.planeX * cameraX x

/-- Local `rayDirY = dirY + planeY * cameraX`. -/
def rayDirY (c : Camera) (x : Int) : ℚ := c.dirY + c.planeY * cameraX x

/-- Locals `deltaDistX`, `deltaDistY`: `(rayDir == 0) ? 1e30 : fabs(1.0 / rayDir)`. -/
def deltaDist (rayDir : ℚ) : ℚ := if rayDir = 0 then 10 ^ 30 else |1 / rayDir|

/-- Locals `stepX`, `stepY`: `-1` when the ray component is negative, else `1`. -/
def stepDir (rayDir : ℚ) : Int := if rayDir < 0 then -1 else 1

/-- Initial `sideDistX`, `sideDistY` from the position, its cell and the ray component. -/
def sideDistInit (pos : ℚ) (map : Int) (rayDir : ℚ) : ℚ :=
  if rayDir < 0 then (pos - (map : ℚ)) * deltaDist rayDir
  else ((map : ℚ) + 1 - pos) * deltaDist rayDir

/-! ## The DDA loop (lines 150-174 of `textured.c`, 98-122 of `main.c`) -/

/-- The variables the `while (!hit)` loop reads and writes. -/
structure Dda where
  sideDistX : ℚ
  sideDistY : ℚ
  mapX : Int
  mapY : Int
  side : Int
  hit : Int

/-- The test `mapX < 0 || mapX >= MAP_WIDTH || mapY < 0 || mapY >= MAP_HEIGHT`. -/
def outOfGrid (mapX mapY : Int) : Bool :=
  decide (mapX < 0) || decide (mapX ≥ MAP_WIDTH) || decide (mapY < 0) || decide (mapY ≥ MAP_HEIGHT)

/-- One execution of the loop body, the outcome of the test `sideDistX < sideDistY`
being given by `xFirst`. -/
def dda_advance (deltaDistX deltaDistY : ℚ) (stepX stepY : Int) (xFirst : Bool) (s : Dda) : Dda :=
  let s1 : Dda :=
    if xFirst then
      { s with sideDistX := s.sideDistX + deltaDistX, mapX := s.mapX + stepX, side := 0 }
    else
      { s with sideDistY := s.sideDistY + deltaDistY, mapY := s.mapY + stepY, side := 1 }
  if outOfGrid s1.mapX s1.mapY then { s1 with hit := 1 }
  else if g_map s1.mapY s1.mapX > 0 then { s1 with hit := 1 }
  else s1

/-- One execution of the loop body as the code runs it: the axis is chosen by
`sideDistX < sideDistY`. -/
def dda_body (deltaDistX deltaDistY : ℚ) (stepX stepY : Int) (s : Dda) : Dda :=
  dda_advance deltaDistX deltaDistY stepX stepY (decide (s.sideDistX < s.sideDistY)) s

/-- The body run `n` times with an arbitrary sequence of axis choices. -/
def dda_trace (deltaDistX deltaDistY : ℚ) (stepX stepY : Int) (choice : Nat → Bool) :
    Nat → Dda → Dda
  | 0, s => s
  | n + 1, s =>
    dda_advance deltaDistX deltaDistY stepX stepY (choice n)
      (dda_trace deltaDistX deltaDistY stepX stepY choice n s)

/-- The loop `while (!hit) { body }`, cut off after `fuel` iterations. -/
def dda_while (deltaDistX deltaDistY : ℚ) (stepX stepY : Int) : Nat → Dda → Dda
  | 0, s => s
  | fuel + 1, s =>
    if s.hit = 0 then
      dda_while deltaDistX deltaDistY stepX stepY fuel (dda_body deltaDistX deltaDistY stepX stepY s)
    else s

/-- The loop variables on entry of the loop for column `x`. -/
def dda_init (c : Camera) (x : Int) : Dda :=
  { sideDistX := sideDistInit c.posX (c_int c.posX) (rayDirX c x)
    sideDistY := sideDistInit c.posY (c_int c.posY) (rayDirY c x)
    mapX := c_int c.posX
    mapY := c_int c.posY
    side := 0
    hit := 0 }

/-- The loop body of column `x`, with the column's `deltaDist` and `step` values. -/
def dda_col_body (c : Camera) (x : Int) (s : Dda) : Dda :=
  dda_body (deltaDist (rayDirX c x)) (deltaDist (rayDirY c x))
    (stepDir (rayDirX c x)) (stepDir (rayDirY c x)) s

/-- The loop variables when the loop of column `x` is left; `MAP_WIDTH + MAP_HEIGHT`
iterations are provided, which `dda_cast_eq_iterate` shows to be enough: any larger
number gives the same state. -/
def dda_cast (c : Camera) (x : Int) : Dda :=
  dda_while (deltaDist (rayDirX c x)) (deltaDist (rayDirY c x))
    (stepDir (rayDirX c x)) (stepDir (rayDirY c x)) 20 (dda_init c x)

/-! ## Projection of the wall slice (lines 176-196 of `textured.c`, 124-144 of `main.c`) -/

/-- Local `perpWallDist` from the hit cell, the step and the ray component of the hit axis. -/
def perpWallDistOf (pos : ℚ) (map step : Int) (rayDir : ℚ) : ℚ :=
  ((map : ℚ) - pos + (((1 - step : Int) : ℚ)) / 2) / rayDir

/-- Local `perpWallDist` of column `x`: the X formula for `side == 0`, else the Y formula. -/
def perpWallDist (c : Camera) (x : Int) : ℚ :=
  if (dda_cast c x).side = 0 then
    perpWallDistOf c.posX (dda_cast c x).mapX (stepDir (rayDirX c x)) (rayDirX c x)
  else
    perpWallDistOf c.posY (dda_cast c x).mapY (stepDir (rayDirY c x)) (rayDirY c x)

/-- Local `lineHeight = (int)(SCREEN_HEIGHT / fmax(perpWallDist, 1e-6))`. -/
def lineHeightOf (perp : ℚ) : Int := c_int ((SCREEN_HEIGHT : ℚ) / max perp (1 / 1000000))

/-- Local `drawStart = -lineHeight / 2 + SCREEN_HEIGHT / 2`, clamped below at `0`. -/
def drawStartOf (lineHeight : Int) : Int :=
  if Int.tdiv (-lineHeight) 2 + Int.tdiv SCREEN_HEIGHT 2 < 0 then 0
  else Int.tdiv (-lineHeight) 2 + Int.tdiv SCREEN_HEIGHT 2

/-- Local `drawEnd = lineHeight / 2 + SCREEN_HEIGHT / 2`, clamped above at `SCREEN_HEIGHT - 1`. -/
def drawEndOf (lineHeight : Int) : Int :=
  if Int.tdiv lineHeight 2 + Int.tdiv SCREEN_HEIGHT 2 ≥ SCREEN_HEIGHT then SCREEN_HEIGHT - 1
  else Int.tdiv lineHeight 2 + Int.tdiv SCREEN_HEIGHT 2

def lineHeight (c : Camera) (x : Int) : Int := lineHeightOf (perpWallDist c x)
def drawStart (c : Camera) (x : Int) : Int := drawStartOf (lineHeight c x)
def drawEnd (c : Camera) (x : Int) : Int := drawEndOf (lineHeight c x)

/-- Local `tile`: the map entry of the cell where the walk stopped, `0` outside the grid. -/
def tileOf (mapX mapY : Int) : Int :=
  if mapY ≥ 0 ∧ mapY < MAP_HEIGHT ∧ mapX ≥ 0 ∧ mapX < MAP_WIDTH then g_map mapY mapX else 0

def tile (c : Camera) (x : Int) : Int := tileOf (dda_cast c x).mapX (dda_cast c x).mapY

/-! ## Pixel buffer and loops -/

/-- The pixel buffer, by flat index; `none` is a cell never written. -/
abbrev Pixels := Int → Option Nat

/-- The store `pixels[i] = color`. -/
def Pixels.set (pixels : Pixels) (i : Int) (color : Nat) : Pixels :=
  fun j => if j = i then some color else pixels j

/-- The loop `for (i = lo; ...; ++i) body`, run for `n` iterations. -/
def forLoopN {σ : Type} (body : Int → σ → σ) : Int → Nat → σ → σ
  | _, 0, s => s
  | lo, n + 1, s => forLoopN body (lo + 1) n (body lo s)

/-- The loop `for (i = lo; i < hi; ++i) body`. -/
def forLoop {σ : Type} (lo hi : Int) (body : Int → σ → σ) (s : σ) : σ :=
  forLoopN body lo (hi - lo).toNat s

/-- Function `fill_background`. -/
def fill_background (pixels : Pixels) (sky floor : Nat) : Pixels :=
  forLoop 0 SCREEN_HEIGHT (fun y pixels =>
    forLoop 0 SCREEN_WIDTH (fun x pixels =>
      pixels.set (y * SCREEN_WIDTH + x) (if y < Int.tdiv SCREEN_HEIGHT 2 then sky else floor))
      pixels) pixels

/-! ## Textured wall slice (lines 198-246 of `textured.c`) -/

/-- The struct `Texture`; `pixels i` is the read `pixels[i]`. -/
structure Texture where
  width : Int
  height : Int
  pixels : Int → Nat

/-- Local `tex = (tile > 0 && tile <= texture_count) ? &textures[tile - 1] : NULL`. -/
def texOf (textures : Int → Texture) (texture_count tile : Int) : Option Texture :=
  if tile > 0 ∧ tile ≤ texture_count then some (textures (tile - 1)) else none

/-- Local `floorTex = (texture_count > 1) ? &textures[1] : NULL`. -/
def floorTexOf (textures : Int → Texture) (texture_count : Int) : Option Texture :=
  if texture_count > 1 then some (textures 1) else none

/-- Local `ceilTex = (texture_count > 2) ? &textures[2] : floorTex`. -/
def ceilTexOf (textures : Int → Texture) (texture_count : Int) : Option Texture :=
  if texture_count > 2 then some (textures 2) else floorTexOf textures texture_count

/-- Local `wallX` after `wallX -= floor(wallX)`. -/
def wallXOf (side : Int) (posX posY perp rayDirX rayDirY : ℚ) : ℚ :=
  (if side = 0 then posY + perp * rayDirY else posX + perp * rayDirX) -
    ((⌊if side = 0 then posY + perp * rayDirY else posX + perp * rayDirX⌋ : Int) : ℚ)

def wallX (c : Camera) (x : Int) : ℚ :=
  wallXOf (dda_cast c x).side c.posX c.posY (perpWallDist c x) (rayDirX c x) (rayDirY c x)

/-- The two mirroring statements applied to the wall `texX`. -/
def mirrorTexX (width side : Int) (rayDirX rayDirY : ℚ) (texX : Int) : Int :=
  let texX := if side = 0 ∧ rayDirX > 0 then width - texX - 1 else texX
  if side = 1 ∧ rayDirY < 0 then width - texX - 1 else texX

/-- Local `texX` of the wall slice: `(int)(wallX * tex->width)`, then mirrored; `0` without
texture. -/
def wallTexX (tex : Option Texture) (side : Int) (rayDirX rayDirY wallX : ℚ) : Int :=
  match tex with
  | none => 0
  | some t => mirrorTexX t.width side rayDirX rayDirY (c_int (wallX * (t.width : ℚ)))

/-- Local `step = tex ? ((double)tex->height / lineHeight) : 0.0`. -/
def texStep (tex : Option Texture) (lineHeight : Int) : ℚ :=
  match tex with
  | none => 0
  | some t => (t.height : ℚ) / (lineHeight : ℚ)

/-- Initial `texPos = (drawStart - SCREEN_HEIGHT / 2.0 + lineHeight / 2.0) * step`. -/
def texPosInit (drawStart lineHeight : Int) (step : ℚ) : ℚ :=
  ((drawStart : ℚ) - (SCREEN_HEIGHT : ℚ) / 2 + (lineHeight : ℚ) / 2) * step

/-- Local `texY` of a wall row: `(int)texPos` clamped into `[0, tex->height - 1]`. -/
def wallTexY (height : Int) (texPos : ℚ) : Int :=
  let texY := c_int texPos
  let texY := if texY < 0 then 0 else texY
  if texY ≥ height then height - 1 else texY

/-- The shading `((color & 0xFEFEFE) >> 1) | 0xFF000000` applied when `side == 1`. -/
def shade (side : Int) (color : Nat) : Nat :=
  if side = 1 then ((color &&& 0xFEFEFE) >>> 1) ||| 0xFF000000 else color

/-- Body of the wall loop for row `y`; the state is the buffer and `texPos`. -/
def wall_row (x : Int) (tex : Option Texture) (texX side : Int) (step : ℚ) (y : Int)
    (st : Pixels × ℚ) : Pixels × ℚ :=
  match tex with
  | none => (st.1.set (y * SCREEN_WIDTH + x) (shade side 0xFFFFFFFF), st.2)
  | some t =>
    (st.1.set (y * SCREEN_WIDTH + x)
        (shade side (t.pixels (wallTexY t.height st.2 * t.width + texX))),
      st.2 + step)

/-- The wall loop `for (int y = drawStart; y <= drawEnd; ++y)`. -/
def wall_loop (x drawStart drawEnd : Int) (tex : Option Texture) (texX side : Int)
    (step texPos : ℚ) (pixels : Pixels) : Pixels :=
  (forLoop drawStart (drawEnd + 1) (wall_row x tex texX side step) (pixels, texPos)).1

/-! ## Floor and ceiling (lines 248-314 of `textured.c`) -/

/-- Local `floorXWall`. -/
def floorXWallOf (side mapX : Int) (rayDirX rayDirY wallX : ℚ) : ℚ :=
  if side = 0 ∧ rayDirX > 0 then (mapX : ℚ)
  else if side = 0 ∧ rayDirX < 0 then (mapX : ℚ) + 1
  else if side = 1 ∧ rayDirY > 0 then (mapX : ℚ) + wallX
  else (mapX : ℚ) + wallX

/-- Local `floorYWall`. -/
def floorYWallOf (side mapY : Int) (rayDirX rayDirY wallX : ℚ) : ℚ :=
  if side = 0 ∧ rayDirX > 0 then (mapY : ℚ) + wallX
  else if side = 0 ∧ rayDirX < 0 then (mapY : ℚ) + wallX
  else if side = 1 ∧ rayDirY > 0 then (mapY : ℚ)
  else (mapY : ℚ) + 1

/-- Local `currentDist = SCREEN_HEIGHT / fmax(2.0 * y - SCREEN_HEIGHT, 1e-6)` of row `y`. -/
def currentDist (y : Int) : ℚ :=
  (SCREEN_HEIGHT : ℚ) / max (2 * (y : ℚ) - (SCREEN_HEIGHT : ℚ)) (1 / 1000000)

/-- Local `weight = (currentDist - distPlayer) / (distWall - distPlayer)`, `distPlayer = 0.0`. -/
def floorWeight (distWall : ℚ) (y : Int) : ℚ := (currentDist y - 0) / (distWall - 0)

/-- Locals `currentFloorX`, `currentFloorY`: `weight * wall + (1.0 - weight) * pos`. -/
def currentFloor (weight floorWall pos : ℚ) : ℚ := weight * floorWall + (1 - weight) * pos

/-- A floor or ceiling texel coordinate: `(int)(coord * dim) % dim`, plus `dim` when negative. -/
def floorTexCoord (coord : ℚ) (dim : Int) : Int :=
  if Int.tmod (c_int (coord * (dim : ℚ))) dim < 0 then Int.tmod (c_int (coord * (dim : ℚ))) dim + dim
  else Int.tmod (c_int (coord * (dim : ℚ))) dim

/-- The colour sampled for a floor or ceiling row, `flat` when the texture is absent. -/
def floorSample (tex : Option Texture) (flat : Nat) (currentFloorX currentFloorY : ℚ) : Nat :=
  match tex with
  | none => flat
  | some t =>
    t.pixels (floorTexCoord currentFloorY t.height * t.width + floorTexCoord currentFloorX t.width)

/-- Body of the floor loop for row `y`. -/
def floor_row (x : Int) (floorTex ceilTex : Option Texture) (posX posY distWall floorXWall
    floorYWall : ℚ) (y : Int) (pixels : Pixels) : Pixels :=
  let currentFloorX := currentFloor (floorWeight distWall y) floorXWall posX
  let currentFloorY := currentFloor (floorWeight distWall y) floorYWall posY
  let floorColor := floorSample floorTex 0xFF444444 currentFloorX currentFloorY
  let ceilColor := floorSample ceilTex 0xFF222222 currentFloorX currentFloorY
  let pixels := pixels.set (y * SCREEN_WIDTH + x) floorColor
  if SCREEN_HEIGHT - y - 1 ≥ 0 then pixels.set ((SCREEN_HEIGHT - y - 1) * SCREEN_WIDTH + x) ceilColor
  else pixels

/-- Local `floorStart = drawEnd + 1`, raised to `0` when negative. -/
def floorStartOf (drawEnd : Int) : Int := if drawEnd + 1 < 0 then 0 else drawEnd + 1

/-- The floor loop `for (int y = floorStart; y < SCREEN_HEIGHT; ++y)`. -/
def floor_loop (x floorStart : Int) (floorTex ceilTex : Option Texture) (posX posY distWall
    floorXWall floorYWall : ℚ) (pixels : Pixels) : Pixels :=
  forLoop floorStart SCREEN_HEIGHT
    (floor_row x floorTex ceilTex posX posY distWall floorXWall floorYWall) pixels

/-! ## The textured `render_frame` -/

/-- Body of the column loop of the textured `render_frame`. -/
def render_column (c : Camera) (textures : Int → Texture) (texture_count : Int) (x : Int)
    (pixels : Pixels) : Pixels :=
  let side := (dda_cast c x).side
  let tex := texOf textures texture_count (tile c x)
  let texX := wallTexX tex side (rayDirX c x) (rayDirY c x) (wallX c x)
  let step := texStep tex (lineHeight c x)
  let texPos := texPosInit (drawStart c x) (lineHeight c x) step
  let pixels := wall_loop x (drawStart c x) (drawEnd c x) tex texX side step texPos pixels
  floor_loop x (floorStartOf (drawEnd c x)) (floorTexOf textures texture_count)
    (ceilTexOf textures texture_count) c.posX c.posY (perpWallDist c x)
    (floorXWallOf side (dda_cast c x).mapX (rayDirX c x) (rayDirY c x) (wallX c x))
    (floorYWallOf side (dda_cast c x).mapY (rayDirX c x) (rayDirY c x) (wallX c x)) pixels

/-- Function `render_frame` of `textured.c`. -/
def render_frame (pixels : Pixels) (c : Camera) (textures : Int → Texture)
    (texture_count : Int) : Pixels :=
  forLoop 0 SCREEN_WIDTH (render_column c textures texture_count)
    (fill_background pixels 0xFF1C1F2B 0xFF252D2A)

/-! ## The flat-colour `render_frame` of `main.c` (lines 146-160) -/

namespace Flat

/-- The table `wall_colors`. -/
def wall_colors : List Nat := [0xFF9B1B30, 0xFF2F80ED, 0xFF00B894, 0xFFF2C94C]

/-- The index `(tile - 1) % 4` used on `wall_colors`. -/
def colorIndex (tile : Int) : Int := Int.tmod (tile - 1) 4

/-- The read `wall_colors[i]`, `none` when `i` is outside the table. -/
def wallColorAt (i : Int) : Option Nat := if 0 ≤ i then wall_colors.get? i.toNat else none

/-- Body of the column loop of the flat-colour `render_frame`; `none` when the read of
`wall_colors` is out of range. -/
def render_column (c : Camera) (x : Int) (pixels : Pixels) : Option Pixels :=
  match wallColorAt (colorIndex (tile c x)) with
  | none => none
  | some color =>
    some (forLoop (drawStart c x) (drawEnd c x + 1)
      (fun y pixels => pixels.set (y * SCREEN_WIDTH + x) (shade (dda_cast c x).side color)) pixels)

/-- Function `render_frame` of `main.c`; `none` when some column reads `wall_colors` out of
range. -/
def render_frame (pixels : Pixels) (c : Camera) : Option Pixels :=
  forLoop 0 SCREEN_WIDTH (fun x st => st.bind (render_column c x))
    (some (fill_background pixels 0xFF1C1F2B 0xFF252D2A))

end Flat

/-! ## Camera rotation in `main` (lines 450-467 of `textured.c`, 259-276 of `main.c`) -/

/-- The update of one vector by an arrow key, `cs` and `sn` being the values of `cos` and
`sin` at the angle passed: `(vX * cs - vY * sn, oldVX * sn + vY * cs)`. -/
def rotateVec {K : Type} [Field K] (cs sn : K) (v : K × K) : K × K :=
  (v.1 * cs - v.2 * sn, v.1 * sn + v.2 * cs)

/-- The update of `(dir, plane)` by an arrow key. -/
def rotateCamera {K : Type} [Field K] (cs sn : K) (dp : (K × K) × (K × K)) : (K × K) × (K × K) :=
  (rotateVec cs sn dp.1, rotateVec cs sn dp.2)

/-! ## Binary64 arithmetic

The definitions below model the `double` operations of the code with their rounding, signed
zeros, infinities and NaN, for the claims that depend on them. Each operation rounds its exact
result to the nearest binary64 number, ties to even; expressions are evaluated in binary64
without contraction. -/

namespace Binary64

/-- Floor of the base-2 logarithm of `n`, by halving; `fuel ≥ n` is enough. -/
def log2Fuel : Nat → Nat → Nat
  | 0, _ => 0
  | fuel + 1, n => if n < 2 then 0 else log2Fuel fuel (n / 2) + 1

/-- The power `2 ^ e` as a rational. -/
def pow2 (e : Int) : ℚ :=
  if 0 ≤ e then ((2 ^ e.toNat : Nat) : ℚ) else 1 / ((2 ^ (-e).toNat : Nat) : ℚ)

/-- The exponent `e` with `2 ^ e ≤ |q| < 2 ^ (e + 1)`, for `q ≠ 0`. -/
def binade (q : ℚ) : Int :=
  if pow2 ((log2Fuel q.num.natAbs q.num.natAbs : Int) - (log2Fuel q.den q.den : Int)) ≤ |q| then
    (log2Fuel q.num.natAbs q.num.natAbs : Int) - (log2Fuel q.den q.den : Int)
  else (log2Fuel q.num.natAbs q.num.natAbs : Int) - (log2Fuel q.den q.den : Int) - 1

/-- Rounding to the nearest integer, ties to even. -/
def roundEven (x : ℚ) : Int :=
  if x - (⌊x⌋ : ℚ) < 1 / 2 then ⌊x⌋
  else if 1 / 2 < x - (⌊x⌋ : ℚ) then ⌊x⌋ + 1
  else if ⌊x⌋ % 2 = 0 then ⌊x⌋ else ⌊x⌋ + 1

/-- Exponent of the unit in the last place of the binary64 numbers around `q`: 52 below the
binade, the binade being held at `-1022` in the subnormal range. -/
def ulpExp (q : ℚ) : Int := max (binade q) (-1022) - 52

/-- Rounding of a rational to the nearest binary64 number, ties to even, the exponent range
being unbounded above. -/
def fl (q : ℚ) : ℚ := (roundEven (q / pow2 (ulpExp q)) : ℚ) * pow2 (ulpExp q)

/-- A `double`: a finite value (`fin 0` is `+0.0`), `-0.0`, an infinity or a NaN. -/
inductive Dbl where
  | fin (q : ℚ)
  | negZero
  | posInf
  | negInf
  | nan
  deriving DecidableEq

namespace Dbl

/-- The sign bit. -/
def isNeg : Dbl → Bool
  | fin q => decide (q < 0)
  | negZero => true
  | negInf => true
  | _ => false

/-- The finite or zero values. -/
def isFinite : Dbl → Bool
  | fin _ => true
  | negZero => true
  | _ => false

def isNan : Dbl → Bool
  | nan => true
  | _ => false

def isInf : Dbl → Bool
  | posInf => true
  | negInf => true
  | _ => false

/-- The value of a finite double as a rational (`0` for the other ones). -/
def toQ : Dbl → ℚ
  | fin q => q
  | _ => 0

/-- The zero of the given sign. -/
def zero (neg : Bool) : Dbl := if neg then negZero else fin 0

/-- The infinity of the given sign. -/
def inf (neg : Bool) : Dbl := if neg then negInf else posInf

/-- The double nearest to a non-zero exact result `q`: an infinity on overflow, a zero of the
sign of `q` on underflow. -/
def round (q : ℚ) : Dbl :=
  if pow2 1024 ≤ |fl q| then inf (decide (q < 0))
  else if fl q = 0 then zero (decide (q < 0))
  else fin (fl q)

/-- A decimal constant of the source, or the conversion `(double)n` of an `int`. -/
def lit (q : ℚ) : Dbl := if q = 0 then fin 0 else round q

def ofInt (n : Int) : Dbl := lit (n : ℚ)

def neg : Dbl → Dbl
  | fin q => if q = 0 then negZero else fin (-q)
  | negZero => fin 0
  | posInf => negInf
  | negInf => posInf
  | nan => nan

def add (a b : Dbl) : Dbl :=
  if a.isNan || b.isNan then nan
  else if a.isInf then (if b.isInf && (a.isNeg != b.isNeg) then nan else a)
  else if b.isInf then b
  else if a.toQ + b.toQ = 0 then zero (a.isNeg && b.isNeg)
  else round (a.toQ + b.toQ)

def sub (a b : Dbl) : Dbl := add a (neg b)

def mul (a b : Dbl) : Dbl :=
  if a.isNan || b.isNan then nan
  else if a.isInf || b.isInf then
    (if (a.isFinite && a.toQ = 0) || (b.isFinite && b.toQ = 0) then nan
     else inf (a.isNeg != b.isNeg))
  else if a.toQ * b.toQ = 0 then zero (a.isNeg != b.isNeg)
  else round (a.toQ * b.toQ)

def div (a b : Dbl) : Dbl :=
  if a.isNan || b.isNan then nan
  else if a.isInf then (if b.isInf then nan else inf (a.isNeg != b.isNeg))
  else if b.isInf then zero (a.isNeg != b.isNeg)
  else if b.toQ = 0 then (if a.toQ = 0 then nan else inf (a.isNeg != b.isNeg))
  else if a.toQ = 0 then zero (a.isNeg != b.isNeg)
  else round (a.toQ / b.toQ)

/-- The comparison `a < b`. -/
def lt (a b : Dbl) : Bool :=
  if a.isNan || b.isNan then false
  else match a, b with
    | posInf, _ => false
    | _, negInf => false
    | negInf, _ => true
    | _, posInf => true
    | _, _ => decide (a.toQ < b.toQ)

/-- The comparison `a == b`. -/
def eq (a b : Dbl) : Bool :=
  if a.isNan || b.isNan then false
  else match a, b with
    | posInf, posInf => true
    | negInf, negInf => true
    | posInf, _ => false
    | negInf, _ => false
    | _, posInf => false
    | _, negInf => false
    | _, _ => decide (a.toQ = b.toQ)

def fabs : Dbl → Dbl
  | fin q => fin |q|
  | negZero => fin 0
  | posInf => posInf
  | negInf => posInf
  | nan => nan

/-- Function `fmax`: the other argument when one is a NaN. -/
def fmax (a b : Dbl) : Dbl :=
  if a.isNan then b else if b.isNan then a else if lt a b then b else a

/-- Function `floor`. -/
def floor : Dbl → Dbl
  | fin q => fin ((⌊q⌋ : Int) : ℚ)
  | d => d

/-- The cast `(int)d`: truncation toward zero of a finite value; the cast of an infinity or
a NaN, undefined in C, is given the value `0`. -/
def toInt (d : Dbl) : Int := c_int d.toQ

end Dbl

/-- The six `double` parameters of `render_frame`, as binary64 values. -/
structure Camera64 where
  posX : Dbl
  posY : Dbl
  dirX : Dbl
  dirY : Dbl
  planeX : Dbl
  planeY : Dbl

/-- Local `cameraX = 2.0 * x / (double)SCREEN_WIDTH - 1.0`. -/
def cameraX (x : Int) : Dbl :=
  Dbl.sub (Dbl.div (Dbl.mul (Dbl.lit 2) (Dbl.ofInt x)) (Dbl.ofInt SCREEN_WIDTH)) (Dbl.lit 1)

/-- Local `rayDirX = dirX + planeX * cameraX`. -/
def rayDirX (c : Camera64) (x : Int) : Dbl := Dbl.add c.dirX (Dbl.mul c.planeX (cameraX x))

/-- Local `rayDirY = dirY + planeY * cameraX`. -/
def rayDirY (c : Camera64) (x : Int) : Dbl := Dbl.add c.dirY (Dbl.mul c.planeY (cameraX x))

/-- Locals `deltaDistX`, `deltaDistY`: `(rayDir == 0) ? 1e30 : fabs(1.0 / rayDir)`. -/
def deltaDist (rayDir : Dbl) : Dbl :=
  if Dbl.eq rayDir (Dbl.lit 0) then Dbl.lit (10 ^ 30) else Dbl.fabs (Dbl.div (Dbl.lit 1) rayDir)

/-- Locals `stepX`, `stepY`: `-1` when `rayDir < 0`, else `1`. -/
def stepDir (rayDir : Dbl) : Int := if Dbl.lt rayDir (Dbl.lit 0) then -1 else 1

/-- Initial `sideDistX`, `sideDistY`: `(pos - map) * deltaDist` when `rayDir < 0`, else
`(map + 1.0 - pos) * deltaDist`. -/
def sideDistInit (pos : Dbl) (map : Int) (rayDir : Dbl) : Dbl :=
  if Dbl.lt rayDir (Dbl.lit 0) then Dbl.mul (Dbl.sub pos (Dbl.ofInt map)) (deltaDist rayDir)
  else Dbl.mul (Dbl.sub (Dbl.add (Dbl.ofInt map) (Dbl.lit 1)) pos) (deltaDist rayDir)

/-- The variables the `while (!hit)` loop reads and writes. -/
structure Dda64 where
  sideDistX : Dbl
  sideDistY : Dbl
  mapX : Int
  mapY : Int
  side : Int
  hit : Int

/-- One execution of the loop body. -/
def dda_body (deltaDistX deltaDistY : Dbl) (stepX stepY : Int) (s : Dda64) : Dda64 :=
  let s1 : Dda64 :=
    if Dbl.lt s.sideDistX s.sideDistY then
      { s with sideDistX := Dbl.add s.sideDistX deltaDistX, mapX := s.mapX + stepX, side := 0 }
    else
      { s with sideDistY := Dbl.add s.sideDistY deltaDistY, mapY := s.mapY + stepY, side := 1 }
  if outOfGrid s1.mapX s1.mapY then { s1 with hit := 1 }
  else if g_map s1.mapY s1.mapX > 0 then { s1 with hit := 1 }
  else s1

/-- The loop `while (!hit) { body }`, cut off after `fuel` iterations. -/
def dda_while (deltaDistX deltaDistY : Dbl) (stepX stepY : Int) : Nat → Dda64 → Dda64
  | 0, s => s
  | fuel + 1, s =>
    if s.hit = 0 then
      dda_while deltaDistX deltaDistY stepX stepY fuel (dda_body deltaDistX deltaDistY stepX stepY s)
    else s

/-- The loop variables on entry of the loop for column `x`. -/
def dda_init (c : Camera64) (x : Int) : Dda64 :=
  { sideDistX := sideDistInit c.posX (Dbl.toInt c.posX) (rayDirX c x)
    sideDistY := sideDistInit c.posY (Dbl.toInt c.posY) (rayDirY c x)
    mapX := Dbl.toInt c.posX
    mapY := Dbl.toInt c.posY
    side := 0
    hit := 0 }

/-- The loop variables when the loop of column `x` is left; `MAP_WIDTH + MAP_HEIGHT`
iterations are provided, which `Binary64.dda_cast_hit` shows to be enough. -/
def dda_cast (c : Camera64) (x : Int) : Dda64 :=
  dda_while (deltaDist (rayDirX c x)) (deltaDist (rayDirY c x))
    (stepDir (rayDirX c x)) (stepDir (rayDirY c x)) 20 (dda_init c x)

/-- Local `perpWallDist = (map - pos + (1 - step) / 2.0) / rayDir`. -/
def perpWallDistOf (pos : Dbl) (map step : Int) (rayDir : Dbl) : Dbl :=
  Dbl.div (Dbl.add (Dbl.sub (Dbl.ofInt map) pos) (Dbl.div (Dbl.ofInt (1 - step)) (Dbl.lit 2)))
    rayDir

/-- Local `perpWallDist` of column `x`: the X formula for `side == 0`, else the Y formula. -/
def perpWallDist (c : Camera64) (x : Int) : Dbl :=
  if (dda_cast c x).side = 0 then
    perpWallDistOf c.posX (dda_cast c x).mapX (stepDir (rayDirX c x)) (rayDirX c x)
  else
    perpWallDistOf c.posY (dda_cast c x).mapY (stepDir (rayDirY c x)) (rayDirY c x)

/-- Local `lineHeight = (int)(SCREEN_HEIGHT / fmax(perpWallDist, 1e-6))`. -/
def lineHeightOf (perp : Dbl) : Int :=
  Dbl.toInt (Dbl.div (Dbl.ofInt SCREEN_HEIGHT) (Dbl.fmax perp (Dbl.lit (1 / 1000000))))

def lineHeight (c : Camera64) (x : Int) : Int := lineHeightOf (perpWallDist c x)
def drawStart (c : Camera64) (x : Int) : Int := drawStartOf (lineHeight c x)
def drawEnd (c : Camera64) (x : Int) : Int := drawEndOf (lineHeight c x)

/-- Local `tile` of column `x`. -/
def tile (c : Camera64) (x : Int) : Int := tileOf (dda_cast c x).mapX (dda_cast c x).mapY

/-- Local `wallX`: the hit coordinate along the face, then `wallX -= floor(wallX)`. -/
def wallXOf (side : Int) (posX posY perp rayDirX rayDirY : Dbl) : Dbl :=
  Dbl.sub (if side = 0 then Dbl.add posY (Dbl.mul perp rayDirY) else Dbl.add posX (Dbl.mul perp rayDirX))
    (Dbl.floor
      (if side = 0 then Dbl.add posY (Dbl.mul perp rayDirY) else Dbl.add posX (Dbl.mul perp rayDirX)))

def wallX (c : Camera64) (x : Int) : Dbl :=
  wallXOf (dda_cast c x).side c.posX c.posY (perpWallDist c x) (rayDirX c x) (rayDirY c x)

/-- Local `texX` of the wall slice for a texture of the given width: `(int)(wallX * width)`,
then the two mirroring statements. -/
def wallTexX (width side : Int) (rayDirX rayDirY wallX : Dbl) : Int :=
  let texX := Dbl.toInt (Dbl.mul wallX (Dbl.ofInt width))
  let texX := if side = 0 ∧ Dbl.lt (Dbl.lit 0) rayDirX then width - texX - 1 else texX
  if side = 1 ∧ Dbl.lt rayDirY (Dbl.lit 0) then width - texX - 1 else texX

/-- Local `denom = 2.0 * y - SCREEN_HEIGHT` of the floor loop. -/
def floorDenom (y : Int) : Dbl :=
  Dbl.sub (Dbl.mul (Dbl.lit 2) (Dbl.ofInt y)) (Dbl.ofInt SCREEN_HEIGHT)

/-- Local `currentDist = SCREEN_HEIGHT / fmax(denom, 1e-6)` of row `y`. -/
def currentDist (y : Int) : Dbl :=
  Dbl.div (Dbl.ofInt SCREEN_HEIGHT) (Dbl.fmax (floorDenom y) (Dbl.lit (1 / 1000000)))

/-- Local `weight = (currentDist - distPlayer) / (distWall - distPlayer)`, `distPlayer = 0.0`. -/
def floorWeight (distWall : Dbl) (y : Int) : Dbl :=
  Dbl.div (Dbl.sub (currentDist y) (Dbl.lit 0)) (Dbl.sub distWall (Dbl.lit 0))

/-- The update of one vector by an arrow key, `cs` and `sn` being the doubles returned by
`cos` and `sin`: `(vX * cs - vY * sn, oldVX * sn + vY * cs)`. -/
def rotateVec (cs sn : Dbl) (v : Dbl × Dbl) : Dbl × Dbl :=
  (Dbl.sub (Dbl.mul v.1 cs) (Dbl.mul v.2 sn), Dbl.add (Dbl.mul v.1 sn) (Dbl.mul v.2 cs))

/-- Local `step = (double)tex->height / lineHeight`, for a texture of the given height. -/
def texStep (height lineHeight : Int) : Dbl := Dbl.div (Dbl.ofInt height) (Dbl.ofInt lineHeight)

/-- Initial `texPos = (drawStart - SCREEN_HEIGHT / 2.0 + lineHeight / 2.0) * step`. -/
def texPosInit (drawStart lineHeight : Int) (step : Dbl) : Dbl :=
  Dbl.mul
    (Dbl.add (Dbl.sub (Dbl.ofInt drawStart) (Dbl.div (Dbl.ofInt SCREEN_HEIGHT) (Dbl.lit 2)))
      (Dbl.div (Dbl.ofInt lineHeight) (Dbl.lit 2))) step

/-- Local `texY` of a wall row: `(int)texPos` clamped into `[0, tex->height - 1]`. -/
def wallTexY (height : Int) (texPos : Dbl) : Int :=
  let texY := Dbl.toInt texPos
  let texY := if texY < 0 then 0 else texY
  if texY ≥ height then height - 1 else texY

/-- Local `floorXWall`. -/
def floorXWallOf (side mapX : Int) (rayDirX rayDirY wallX : Dbl) : Dbl :=
  if side = 0 ∧ Dbl.lt (Dbl.lit 0) rayDirX then Dbl.ofInt mapX
  else if side = 0 ∧ Dbl.lt rayDirX (Dbl.lit 0) then Dbl.add (Dbl.ofInt mapX) (Dbl.lit 1)
  else if side = 1 ∧ Dbl.lt (Dbl.lit 0) rayDirY then Dbl.add (Dbl.ofInt mapX) wallX
  else Dbl.add (Dbl.ofInt mapX) wallX

/-- Local `floorYWall`. -/
def floorYWallOf (side mapY : Int) (rayDirX rayDirY wallX : Dbl) : Dbl :=
  if side = 0 ∧ Dbl.lt (Dbl.lit 0) rayDirX then Dbl.add (Dbl.ofInt mapY) wallX
  else if side = 0 ∧ Dbl.lt rayDirX (Dbl.lit 0) then Dbl.add (Dbl.ofInt mapY) wallX
  else if side = 1 ∧ Dbl.lt (Dbl.lit 0) rayDirY then Dbl.ofInt mapY
  else Dbl.add (Dbl.ofInt mapY) (Dbl.lit 1)

/-- Locals `currentFloorX`, `currentFloorY`: `weight * wall + (1.0 - weight) * pos`. -/
def currentFloor (weight floorWall pos : Dbl) : Dbl :=
  Dbl.add (Dbl.mul weight floorWall) (Dbl.mul (Dbl.sub (Dbl.lit 1) weight) pos)

/-- The double nearest to `1e-6`. -/
def epsilon : ℚ := 4722366482869645 / 4722366482869645213696

/-- The loop variables without the side distances, as a state of the exact model. -/
def cells (s : Dda64) : Dda :=
  { sideDistX := 0, sideDistY := 0, mapX := s.mapX, mapY := s.mapY, side := s.side, hit := s.hit }

/-- A camera at `(1.0, -2^-60)` with direction `(1, 0)` and plane `(0, 0.66)`. -/
def edgeCamera : Camera64 :=
  { posX := Dbl.lit 1, posY := Dbl.lit (-1 / 2 ^ 60), dirX := Dbl.lit 1, dirY := Dbl.lit 0,
    planeX := Dbl.lit 0, planeY := Dbl.lit (66 / 100) }

/-- A camera at `(2.5, 2.5)` with direction `(0.75, 0.5)` and plane `(-0.25, 0.375)`. -/
def tieCamera : Camera64 :=
  { posX := Dbl.lit (5 / 2), posY := Dbl.lit (5 / 2), dirX := Dbl.lit (3 / 4),
    dirY := Dbl.lit (1 / 2), planeX := Dbl.lit (-1 / 4), planeY := Dbl.lit (3 / 8) }

/-- The double `0x1.ffda40c9951d6p-1`, value of `cos(rotSpeed)` for `rotSpeed = 1.5 * 0.016`. -/
def cosStep : Dbl := Dbl.lit (4502302652934379 / 4503599627370496)

/-- The double `0x1.892da1f2329e6p-6`, value of `sin(rotSpeed)` for `rotSpeed = 1.5 * 0.016`. -/
def sinStep : Dbl := Dbl.lit (3458432481989875 / 144115188075855872)

end Binary64

/-! ## Auxiliary definitions used in statements and proofs -/

/-- Number of cells left in front of the ray inside the grid, summed over both axes. -/
def cellsAhead (stepX stepY : Int) (s : Dda) : Int :=
  (if stepX = 1 then 9 - s.mapX else s.mapX) + (if stepY = 1 then 9 - s.mapY else s.mapY)

/-- The camera of the scenario: position `(2.5, 2.5)`, direction `(1, 0)`, plane `(0, 0.66)`. -/
def scenarioCamera : Camera :=
  { posX := 5 / 2, posY := 5 / 2, dirX := 1, dirY := 0, planeX := 0, planeY := 66 / 100 }

/-- A camera outside the map, at `(10.5, 2.5)`, looking along `(1, 0)`. -/
def outsideCamera : Camera :=
  { posX := 21 / 2, posY := 5 / 2, dirX := 1, dirY := 0, planeX := 0, planeY := 66 / 100 }

/-- A camera at `(1.5, 1.5)` looking along `(0, 1)`, with plane `(-0.66, 0)`. -/
def southCamera : Camera :=
  { posX := 3 / 2, posY := 3 / 2, dirX := 0, dirY := 1, planeX := -66 / 100, planeY := 0 }

/-- A 64 by 64 texture whose texel `i` holds the value `i`. -/
def rampTexture : Texture := { width := 64, height := 64, pixels := fun i => i.toNat }

/-- A camera at `(1.5, 1.5)` looking along `(1, 0)` down the corridor of row `1`, with plane
`(0, 0.66)`. -/
def corridorCamera : Camera :=
  { posX := 3 / 2, posY := 3 / 2, dirX := 1, dirY := 0, planeX := 0, planeY := 66 / 100 }

/-! ## Termination of the DDA loop -/

theorem stepDir_cases (r : ℚ) : stepDir r = 1 ∨ stepDir r = -1 := by
  unfold stepDir
  split <;> simp

theorem outOfGrid_eq_false {mx my : Int} :
    outOfGrid mx my = false ↔ (0 ≤ mx ∧ mx ≤ 9 ∧ 0 ≤ my ∧ my ≤ 9) := by
  simp only [outOfGrid, MAP_WIDTH, MAP_HEIGHT, Bool.or_eq_false_iff, decide_eq_false_iff_not]
  omega

theorem outOfGrid_eq_true {mx my : Int} :
    outOfGrid mx my = true ↔ (mx < 0 ∨ 9 < mx ∨ my < 0 ∨ 9 < my) := by
  simp only [outOfGrid, MAP_WIDTH, MAP_HEIGHT, Bool.or_eq_true, decide_eq_true_eq]
  omega

theorem dda_advance_mapX (dX dY : ℚ) (sX sY : Int) (b : Bool) (s : Dda) :
    (dda_advance dX dY sX sY b s).mapX = if b then s.mapX + sX else s.mapX := by
  unfold dda_advance
  cases b <;> simp only [Bool.false_eq_true, if_false, if_true] <;> split <;> try split
  all_goals rfl

theorem dda_advance_mapY (dX dY : ℚ) (sX sY : Int) (b : Bool) (s : Dda) :
    (dda_advance dX dY sX sY b s).mapY = if b then s.mapY else s.mapY + sY := by
  unfold dda_advance
  cases b <;> simp only [Bool.false_eq_true, if_false, if_true] <;> split <;> try split
  all_goals rfl

theorem dda_advance_side (dX dY : ℚ) (sX sY : Int) (b : Bool) (s : Dda) :
    (dda_advance dX dY sX sY b s).side = if b then 0 else 1 := by
  unfold dda_advance
  cases b <;> simp only [Bool.false_eq_true, if_false, if_true] <;> split <;> try split
  all_goals rfl

/-- The flag after one execution of the body: set on leaving the grid or on a wall
cell, otherwise unchanged. -/
theorem dda_advance_hit (dX dY : ℚ) (sX sY : Int) (b : Bool) (s : Dda) :
    (dda_advance dX dY sX sY b s).hit =
      if outOfGrid (dda_advance dX dY sX sY b s).mapX (dda_advance dX dY sX sY b s).mapY then 1
      else if g_map (dda_advance dX dY sX sY b s).mapY (dda_advance dX dY sX sY b s).mapX > 0
        then 1 else s.hit := by
  rw [dda_advance_mapX, dda_advance_mapY]
  unfold dda_advance
  cases b <;> simp only [Bool.false_eq_true, if_false, if_true] <;> split <;> try split
  all_goals rfl

theorem dda_advance_hit_cases (dX dY : ℚ) (sX sY : Int) (b : Bool) (s : Dda) :
    (dda_advance dX dY sX sY b s).hit = 1 ∨ (dda_advance dX dY sX sY b s).hit = s.hit := by
  rw [dda_advance_hit]
  split
  · exact Or.inl rfl
  · split
    · exact Or.inl rfl
    · exact Or.inr rfl

theorem dda_advance_inGrid (dX dY : ℚ) (sX sY : Int) (b : Bool) (s : Dda)
    (h : (dda_advance dX dY sX sY b s).hit = 0) :
    outOfGrid (dda_advance dX dY sX sY b s).mapX (dda_advance dX dY sX sY b s).mapY = false := by
  rw [dda_advance_hit] at h
  split at h
  · exact absurd h (by decide)
  · rename_i hn
    exact (Bool.not_eq_true _).mp hn

theorem dda_advance_cellsAhead (dX dY : ℚ) (sX sY : Int) (b : Bool) (s : Dda)
    (hX : sX = 1 ∨ sX = -1) (hY : sY = 1 ∨ sY = -1) :
    cellsAhead sX sY (dda_advance dX dY sX sY b s) = cellsAhead sX sY s - 1 := by
  unfold cellsAhead
  rw [dda_advance_mapX, dda_advance_mapY]
  rcases hX with hX | hX <;> rcases hY with hY | hY <;> subst hX <;> subst hY <;>
    cases b <;> simp <;> omega

theorem dda_trace_cellsAhead (dX dY : ℚ) (sX sY : Int) (choice : Nat → Bool) (s : Dda)
    (hX : sX = 1 ∨ sX = -1) (hY : sY = 1 ∨ sY = -1) (n : Nat) :
    cellsAhead sX sY (dda_trace dX dY sX sY choice n s) = cellsAhead sX sY s - n := by
  induction n with
  | zero => simp [dda_trace]
  | succ k ih =>
    rw [dda_trace, dda_advance_cellsAhead dX dY sX sY _ _ hX hY, ih]
    push_cast
    ring

theorem dda_trace_inGrid (dX dY : ℚ) (sX sY : Int) (choice : Nat → Bool) (s : Dda) (n : Nat)
    (h : (dda_trace dX dY sX sY choice (n + 1) s).hit = 0) :
    0 ≤ cellsAhead sX sY (dda_trace dX dY sX sY choice (n + 1) s) ∧
      (sX = 1 ∨ sX = -1 → sY = 1 ∨ sY = -1 →
        cellsAhead sX sY (dda_trace dX dY sX sY choice (n + 1) s) ≤ 18) := by
  have hg := dda_advance_inGrid dX dY sX sY (choice n) (dda_trace dX dY sX sY choice n s) h
  rw [outOfGrid_eq_false] at hg
  show 0 ≤ cellsAhead sX sY (dda_advance dX dY sX sY (choice n) _) ∧ _
  unfold cellsAhead
  refine ⟨by split <;> split <;> omega, fun hX hY => ?_⟩
  show cellsAhead sX sY (dda_advance dX dY sX sY (choice n) _) ≤ 18
  unfold cellsAhead
  split <;> split <;> omega

/-- Whatever the axis choices, the flag cannot still be clear after both the first and
the twentieth iteration. -/
theorem dda_trace_hit_by_20 (dX dY : ℚ) (sX sY : Int) (choice : Nat → Bool) (s : Dda)
    (hX : sX = 1 ∨ sX = -1) (hY : sY = 1 ∨ sY = -1) :
    (dda_trace dX dY sX sY choice 1 s).hit ≠ 0 ∨ (dda_trace dX dY sX sY choice 20 s).hit ≠ 0 := by
  by_contra hcon
  push_neg at hcon
  obtain ⟨h1, h20⟩ := hcon
  have a1 := (dda_trace_inGrid dX dY sX sY choice s 0 h1).2 hX hY
  have a20 := (dda_trace_inGrid dX dY sX sY choice s 19 h20).1
  rw [dda_trace_cellsAhead dX dY sX sY choice s hX hY] at a1 a20
  push_cast at a1 a20
  omega

/-- Once set, the flag stays set along a trace. -/
theorem dda_trace_hit_mono (dX dY : ℚ) (sX sY : Int) (choice : Nat → Bool) (s : Dda) (n : Nat)
    (h : (dda_trace dX dY sX sY choice n s).hit = 1) :
    (dda_trace dX dY sX sY choice (n + 1) s).hit = 1 := by
  rcases dda_advance_hit_cases dX dY sX sY (choice n) (dda_trace dX dY sX sY choice n s) with h1 | h1
  · exact h1
  · exact h1.trans h

/-- First iteration at which the flag is set, for an arbitrary sequence of axis choices. -/
theorem dda_trace_first_hit (dX dY : ℚ) (sX sY : Int) (choice : Nat → Bool) (s : Dda)
    (hs : s.hit = 0) (hX : sX = 1 ∨ sX = -1) (hY : sY = 1 ∨ sY = -1) :
    ∃ n : Nat, 1 ≤ n ∧ n ≤ 20 ∧ (dda_trace dX dY sX sY choice n s).hit = 1 ∧
      ∀ m, m < n → (dda_trace dX dY sX sY choice m s).hit = 0 := by
  classical
  have hex : ∃ n : Nat, (dda_trace dX dY sX sY choice n s).hit ≠ 0 := by
    rcases dda_trace_hit_by_20 dX dY sX sY choice s hX hY with h | h
    · exact ⟨1, h⟩
    · exact ⟨20, h⟩
  have hle : Nat.find hex ≤ 20 := by
    rcases dda_trace_hit_by_20 dX dY sX sY choice s hX hY with h | h
    · exact (Nat.find_min' hex h).trans (by decide)
    · exact Nat.find_min' hex h
  have hmin : ∀ m, m < Nat.find hex → (dda_trace dX dY sX sY choice m s).hit = 0 := by
    intro m hm
    exact not_not.mp (Nat.find_min hex hm)
  have hpos : 1 ≤ Nat.find hex := by
    rcases Nat.eq_zero_or_pos (Nat.find hex) with h0 | h0
    · have := Nat.find_spec hex
      rw [h0] at this
      exact absurd hs this
    · exact h0
  refine ⟨Nat.find hex, hpos, hle, ?_, hmin⟩
  obtain ⟨k, hk⟩ := Nat.exists_eq_add_of_le hpos
  have hspec := Nat.find_spec hex
  rw [hk, Nat.add_comm] at hspec
  have hprev := hmin k (by omega)
  rw [hk, Nat.add_comm]
  rcases dda_advance_hit_cases dX dY sX sY (choice k) (dda_trace dX dY sX sY choice k s) with h1 | h1
  · exact h1
  · exact absurd (h1.trans hprev) hspec

/-- The iterated body is a trace whose choices are the outcomes of the test
`sideDistX < sideDistY` on the states met. -/
theorem dda_body_iterate_eq_trace (dX dY : ℚ) (sX sY : Int) (s : Dda) (n : Nat) :
    (dda_body dX dY sX sY)^[n] s =
      dda_trace dX dY sX sY
        (fun k => decide (((dda_body dX dY sX sY)^[k] s).sideDistX <
          ((dda_body dX dY sX sY)^[k] s).sideDistY)) n s := by
  induction n with
  | zero => rfl
  | succ k ih =>
    rw [Function.iterate_succ_apply', dda_trace, ← ih]
    rfl

/-- With enough fuel the loop returns the state of the first iteration that sets the flag. -/
theorem dda_while_eq_iterate (dX dY : ℚ) (sX sY : Int) (n : Nat) :
    ∀ (fuel : Nat) (s : Dda), n ≤ fuel →
      (∀ m, m < n → ((dda_body dX dY sX sY)^[m] s).hit = 0) →
      ((dda_body dX dY sX sY)^[n] s).hit ≠ 0 →
      dda_while dX dY sX sY fuel s = (dda_body dX dY sX sY)^[n] s := by
  induction n with
  | zero =>
    intro fuel s _ _ hn
    cases fuel with
    | zero => rfl
    | succ f =>
      rw [dda_while, if_neg]
      · rfl
      · exact hn
  | succ k ih =>
    intro fuel s hle hlt hn
    cases fuel with
    | zero => omega
    | succ f =>
      have h0 : s.hit = 0 := hlt 0 (Nat.succ_pos k)
      rw [dda_while, if_pos h0, Function.iterate_succ_apply]
      apply ih f _ (by omega)
      · intro m hm
        have := hlt (m + 1) (by omega)
        rwa [Function.iterate_succ_apply] at this
      · rwa [Function.iterate_succ_apply] at hn

/-- The walk of column `x` sets the flag at some iteration `n` between `1` and `20`, and
the loop of `dda_cast` returns the state of that iteration. -/
theorem dda_cast_eq_iterate (c : Camera) (x : Int) :
    ∃ n : Nat, 1 ≤ n ∧ n ≤ 20 ∧ ((dda_col_body c x)^[n] (dda_init c x)).hit = 1 ∧
      (∀ m, m < n → ((dda_col_body c x)^[m] (dda_init c x)).hit = 0) ∧
      ∀ fuel, 20 ≤ fuel →
        dda_while (deltaDist (rayDirX c x)) (deltaDist (rayDirY c x)) (stepDir (rayDirX c x))
          (stepDir (rayDirY c x)) fuel (dda_init c x) = (dda_col_body c x)^[n] (dda_init c x) := by
  obtain ⟨n, h1, h20, hn, hmin⟩ :=
    dda_trace_first_hit (deltaDist (rayDirX c x)) (deltaDist (rayDirY c x))
      (stepDir (rayDirX c x)) (stepDir (rayDirY c x))
      (fun k => decide (((dda_col_body c x)^[k] (dda_init c x)).sideDistX <
          ((dda_col_body c x)^[k] (dda_init c x)).sideDistY)) (dda_init c x) rfl
      (stepDir_cases _) (stepDir_cases _)
  have e : ∀ k, dda_trace (deltaDist (rayDirX c x)) (deltaDist (rayDirY c x))
      (stepDir (rayDirX c x)) (stepDir (rayDirY c x))
      (fun k => decide (((dda_col_body c x)^[k] (dda_init c x)).sideDistX <
          ((dda_col_body c x)^[k] (dda_init c x)).sideDistY)) k (dda_init c x) =
      (dda_col_body c x)^[k] (dda_init c x) := fun k =>
    (dda_body_iterate_eq_trace _ _ _ _ (dda_init c x) k).symm
  rw [e] at hn
  have hmin' : ∀ m, m < n → ((dda_col_body c x)^[m] (dda_init c x)).hit = 0 := by
    intro m hm
    have := hmin m hm
    rwa [e] at this
  refine ⟨n, h1, h20, hn, hmin', fun fuel hf => ?_⟩
  exact dda_while_eq_iterate _ _ _ _ n fuel (dda_init c x) (by omega) hmin'
    (by rw [show (dda_body _ _ _ _)^[n] (dda_init c x) = (dda_col_body c x)^[n] (dda_init c x)
          from rfl, hn]; decide)

/-- Claim C1. For every camera pose and every column, the DDA loop of `render_frame`
sets `hit = 1` at some iteration `n` with `1 ≤ n ≤ MAP_WIDTH + MAP_HEIGHT = 20` (the flag
being clear before), so the loop is left after `n` iterations; and the same bound holds
for any sequence of axis choices, not only the one made by `sideDistX < sideDistY`. -/
theorem dda_loop_terminates (c : Camera) (x : Int) :
    (∃ n : Nat, 1 ≤ n ∧ (n : Int) ≤ MAP_WIDTH + MAP_HEIGHT ∧
      ((dda_col_body c x)^[n] (dda_init c x)).hit = 1 ∧
      (∀ m, m < n → ((dda_col_body c x)^[m] (dda_init c x)).hit = 0) ∧
      dda_cast c x = (dda_col_body c x)^[n] (dda_init c x)) ∧
    ∀ choice : Nat → Bool, ∃ n : Nat, 1 ≤ n ∧ (n : Int) ≤ MAP_WIDTH + MAP_HEIGHT ∧
      (dda_trace (deltaDist (rayDirX c x)) (deltaDist (rayDirY c x)) (stepDir (rayDirX c x))
        (stepDir (rayDirY c x)) choice n (dda_init c x)).hit = 1 ∧
      ∀ m, m < n →
        (dda_trace (deltaDist (rayDirX c x)) (deltaDist (rayDirY c x)) (stepDir (rayDirX c x))
          (stepDir (rayDirY c x)) choice m (dda_init c x)).hit = 0 := by
  constructor
  · obtain ⟨n, h1, h20, hn, hmin, hw⟩ := dda_cast_eq_iterate c x
    refine ⟨n, h1, ?_, hn, hmin, hw 20 (le_refl _)⟩
    simp only [MAP_WIDTH, MAP_HEIGHT]
    omega
  · intro choice
    obtain ⟨n, h1, h20, hn, hmin⟩ :=
      dda_trace_first_hit (deltaDist (rayDirX c x)) (deltaDist (rayDirY c x))
        (stepDir (rayDirX c x)) (stepDir (rayDirY c x)) choice (dda_init c x) rfl
        (stepDir_cases _) (stepDir_cases _)
    refine ⟨n, h1, ?_, hn, hmin⟩
    simp only [MAP_WIDTH, MAP_HEIGHT]
    omega

/-! ## Position of the hit cell relative to the camera -/

theorem c_int_lt_add_one (d : ℚ) : d < (c_int d : ℚ) + 1 := by
  unfold c_int
  split
  · exact Int.lt_floor_add_one d
  · have := Int.le_ceil d
    linarith

theorem c_int_le_of_pos (d : ℚ) (h : 1 ≤ c_int d) : (c_int d : ℚ) ≤ d := by
  unfold c_int at h ⊢
  split
  · exact Int.floor_le d
  · rename_i hd
    rw [if_neg hd] at h
    have : ⌈d⌉ ≤ 0 := Int.ceil_le.mpr (by push_cast; linarith)
    omega

/-- Progress of one body execution: the cell never moves against the step direction, and
the axis recorded in `side` has been advanced at least once. -/
theorem dda_advance_progress (dX dY : ℚ) (sX sY : Int) (b : Bool) (s : Dda) (x0 y0 : Int)
    (hX : sX = 1 ∨ sX = -1) (hY : sY = 1 ∨ sY = -1)
    (h : 0 ≤ (s.mapX - x0) * sX ∧ 0 ≤ (s.mapY - y0) * sY) :
    (0 ≤ ((dda_advance dX dY sX sY b s).mapX - x0) * sX ∧
      0 ≤ ((dda_advance dX dY sX sY b s).mapY - y0) * sY) ∧
    ((dda_advance dX dY sX sY b s).side = 0 →
      1 ≤ ((dda_advance dX dY sX sY b s).mapX - x0) * sX) ∧
    ((dda_advance dX dY sX sY b s).side ≠ 0 →
      1 ≤ ((dda_advance dX dY sX sY b s).mapY - y0) * sY) := by
  rw [dda_advance_mapX, dda_advance_mapY, dda_advance_side]
  rcases hX with hX | hX <;> rcases hY with hY | hY <;> subst hX <;> subst hY <;>
    cases b <;> simp at h ⊢ <;> omega

theorem dda_iterate_progress (dX dY : ℚ) (sX sY : Int) (s : Dda)
    (hX : sX = 1 ∨ sX = -1) (hY : sY = 1 ∨ sY = -1) (n : Nat) :
    (0 ≤ (((dda_body dX dY sX sY)^[n] s).mapX - s.mapX) * sX ∧
      0 ≤ (((dda_body dX dY sX sY)^[n] s).mapY - s.mapY) * sY) ∧
    (1 ≤ n →
      (((dda_body dX dY sX sY)^[n] s).side = 0 →
        1 ≤ (((dda_body dX dY sX sY)^[n] s).mapX - s.mapX) * sX) ∧
      (((dda_body dX dY sX sY)^[n] s).side ≠ 0 →
        1 ≤ (((dda_body dX dY sX sY)^[n] s).mapY - s.mapY) * sY)) := by
  induction n with
  | zero => simp
  | succ k ih =>
    rw [Function.iterate_succ_apply']
    have := dda_advance_progress dX dY sX sY
      (decide (((dda_body dX dY sX sY)^[k] s).sideDistX < ((dda_body dX dY sX sY)^[k] s).sideDistY))
      ((dda_body dX dY sX sY)^[k] s) s.mapX s.mapY hX hY ih.1
    exact ⟨this.1, fun _ => this.2⟩

/-- Where the walk of column `x` stops: the flag is set, `side` is `0` or `1`, and the cell
lies at least one step from the camera cell along the axis of `side`. -/
theorem dda_cast_progress (c : Camera) (x : Int) :
    (dda_cast c x).hit = 1 ∧
    ((dda_cast c x).side = 0 ∨ (dda_cast c x).side = 1) ∧
    ((dda_cast c x).side = 0 →
      1 ≤ ((dda_cast c x).mapX - c_int c.posX) * stepDir (rayDirX c x)) ∧
    ((dda_cast c x).side ≠ 0 →
      1 ≤ ((dda_cast c x).mapY - c_int c.posY) * stepDir (rayDirY c x)) := by
  obtain ⟨n, h1, _, hn, _, hw⟩ := dda_cast_eq_iterate c x
  have hc : dda_cast c x = (dda_col_body c x)^[n] (dda_init c x) := hw 20 (le_refl _)
  have hp := (dda_iterate_progress (deltaDist (rayDirX c x)) (deltaDist (rayDirY c x))
    (stepDir (rayDirX c x)) (stepDir (rayDirY c x)) (dda_init c x)
    (stepDir_cases _) (stepDir_cases _) n).2 h1
  obtain ⟨k, hk⟩ := Nat.exists_eq_add_of_le h1
  have hside : (dda_cast c x).side = 0 ∨ (dda_cast c x).side = 1 := by
    rw [hc, hk, Nat.add_comm, Function.iterate_succ_apply']
    show (dda_advance _ _ _ _ _ _).side = 0 ∨ (dda_advance _ _ _ _ _ _).side = 1
    rw [dda_advance_side]
    split <;> simp
  rw [hc]
  exact ⟨hn, hc ▸ hside, hp.1, hp.2⟩

/-- Sign of the numerator of `perpWallDist` on an axis that was advanced toward a cell inside
the grid. -/
theorem perp_numerator_sign (pos rayDir : ℚ) (map : Int)
    (hprog : 1 ≤ (map - c_int pos) * stepDir rayDir) (hmap : 0 ≤ map) :
    (0 ≤ rayDir → 0 < (map : ℚ) - pos + (((1 - stepDir rayDir : Int) : ℚ)) / 2) ∧
    (rayDir < 0 → (map : ℚ) - pos + (((1 - stepDir rayDir : Int) : ℚ)) / 2 ≤ 0) := by
  constructor
  · intro hr
    have hs : stepDir rayDir = 1 := by
      unfold stepDir
      rw [if_neg (not_lt.mpr hr)]
    rw [hs] at hprog ⊢
    have h1 : c_int pos + 1 ≤ map := by omega
    have h2 : ((c_int pos : ℚ)) + 1 ≤ (map : ℚ) := by exact_mod_cast h1
    have h3 := c_int_lt_add_one pos
    norm_num
    linarith
  · intro hr
    have hs : stepDir rayDir = -1 := by
      unfold stepDir
      rw [if_pos hr]
    rw [hs] at hprog ⊢
    have h1 : map + 1 ≤ c_int pos := by omega
    have h2 : (map : ℚ) + 1 ≤ (c_int pos : ℚ) := by exact_mod_cast h1
    have h3 := c_int_le_of_pos pos (by omega)
    norm_num
    linarith

theorem perpWallDistOf_nonneg (pos rayDir : ℚ) (map : Int)
    (hprog : 1 ≤ (map - c_int pos) * stepDir rayDir) (hmap : 0 ≤ map) :
    0 ≤ perpWallDistOf pos map (stepDir rayDir) rayDir := by
  unfold perpWallDistOf
  have hs := perp_numerator_sign pos rayDir map hprog hmap
  rcases lt_or_le rayDir 0 with hr | hr
  · exact div_nonneg_of_nonpos (hs.2 hr) hr.le
  · exact div_nonneg (hs.1 hr).le hr

/-- Exact arithmetic only. For every camera pose and every column whose DDA walk stops on a
cell inside the grid, the exact quotient `perpWallDist` is `≥ 0`, and where the ray component
of the hit axis is not negative the numerator of the quotient is strictly positive. At a zero
ray component the exact quotient is `0` by convention, while the code divides by a signed
zero: that case is settled in the binary64 section. -/
theorem perpWallDist_nonneg (c : Camera) (x : Int)
    (hin : outOfGrid (dda_cast c x).mapX (dda_cast c x).mapY = false) :
    0 ≤ perpWallDist c x ∧
    ((dda_cast c x).side = 0 → 0 ≤ rayDirX c x →
      0 < ((dda_cast c x).mapX : ℚ) - c.posX + (((1 - stepDir (rayDirX c x) : Int) : ℚ)) / 2) ∧
    ((dda_cast c x).side ≠ 0 → 0 ≤ rayDirY c x →
      0 < ((dda_cast c x).mapY : ℚ) - c.posY + (((1 - stepDir (rayDirY c x) : Int) : ℚ)) / 2) := by
  obtain ⟨_, _, hX, hY⟩ := dda_cast_progress c x
  rw [outOfGrid_eq_false] at hin
  refine ⟨?_, ?_, ?_⟩
  · unfold perpWallDist
    split
    · rename_i hs
      exact perpWallDistOf_nonneg _ _ _ (hX hs) hin.1
    · rename_i hs
      exact perpWallDistOf_nonneg _ _ _ (hY hs) hin.2.2.1
  · intro hs hr
    exact (perp_numerator_sign _ _ _ (hX hs) hin.1).1 hr
  · intro hs hr
    exact (perp_numerator_sign _ _ _ (hY hs) hin.2.2.1).1 hr

theorem perpWallDist_nonneg_witness :
    outOfGrid (dda_cast scenarioCamera 400).mapX (dda_cast scenarioCamera 400).mapY = false ∧
    0 ≤ perpWallDist scenarioCamera 400 :=
  ⟨by decide!, (perpWallDist_nonneg scenarioCamera 400 (by decide!)).1⟩


/-! ## The scenario of the specification -/

/-- Claim C2 as stated fails: in the scenario the walk of column `400` does not stop on
cell `(3,2)` nor on cell `(3,3)`. -/
theorem scenario_hit_not_inner_block :
    ¬ ((dda_cast scenarioCamera 400).mapX = 3 ∧
        ((dda_cast scenarioCamera 400).mapY = 2 ∨ (dda_cast scenarioCamera 400).mapY = 3)) := by
  decide!

/-- Claim C2, amended. In the scenario, column `400` has `cameraX = 0` and ray direction
`(1, 0)`; cell `(3, 2)` is empty, and the walk stops at its seventh iteration on cell
`(9, 2)` of the east border wall with `side = 0` and `perpWallDist = 6.5 > 0`. -/
theorem scenario_hit_east_border :
    cameraX 400 = 0 ∧ rayDirX scenarioCamera 400 = 1 ∧ rayDirY scenarioCamera 400 = 0 ∧
    g_map 2 3 = 0 ∧
    dda_cast scenarioCamera 400 = (dda_col_body scenarioCamera 400)^[7] (dda_init scenarioCamera 400) ∧
    ((dda_col_body scenarioCamera 400)^[6] (dda_init scenarioCamera 400)).hit = 0 ∧
    (dda_cast scenarioCamera 400).hit = 1 ∧
    (dda_cast scenarioCamera 400).mapX = 9 ∧ (dda_cast scenarioCamera 400).mapY = 2 ∧
    g_map 2 9 = 1 ∧
    (dda_cast scenarioCamera 400).side = 0 ∧
    perpWallDist scenarioCamera 400 = 13 / 2 ∧ 0 < perpWallDist scenarioCamera 400 := by
  refine ⟨by decide!, by decide!, by decide!, by decide!, ?_, by decide!, by decide!, by decide!,
    by decide!, by decide!, by decide!, by decide!, by decide!⟩
  have h : ∀ a b : Dda, a.sideDistX = b.sideDistX → a.sideDistY = b.sideDistY →
      a.mapX = b.mapX → a.mapY = b.mapY → a.side = b.side → a.hit = b.hit → a = b := by
    intro a b h1 h2 h3 h4 h5 h6
    cases a; cases b; simp_all
  apply h <;> decide!

/-! ## The wall slice bounds -/

theorem lineHeightOf_nonneg (perp : ℚ) : 0 ≤ lineHeightOf perp := by
  unfold lineHeightOf c_int
  have hpos : (0 : ℚ) < max perp (1 / 1000000) := lt_max_of_lt_right (by norm_num)
  have hq : (0 : ℚ) ≤ (SCREEN_HEIGHT : ℚ) / max perp (1 / 1000000) :=
    div_nonneg (by simp [SCREEN_HEIGHT]) hpos.le
  rw [if_pos hq]
  exact Int.floor_nonneg.mpr hq

/-- The clamped bounds in terms of `k = lineHeight / 2`, for a non-negative `lineHeight`. -/
theorem draw_bounds_eq (h : Int) (hh : 0 ≤ h) :
    drawStartOf h = (if 300 < h / 2 then 0 else 300 - h / 2) ∧
    drawEndOf h = (if 300 ≤ h / 2 then 599 else 300 + h / 2) := by
  unfold drawStartOf drawEndOf
  rw [Int.neg_tdiv, Int.tdiv_eq_ediv hh (by decide)]
  have e : Int.tdiv SCREEN_HEIGHT 2 = 300 := by decide
  rw [e]
  simp only [SCREEN_HEIGHT]
  constructor <;> split <;> split <;> omega

theorem draw_bounds_of_nonneg (h : Int) (hh : 0 ≤ h) :
    0 ≤ drawStartOf h ∧ drawStartOf h ≤ drawEndOf h ∧ drawEndOf h ≤ SCREEN_HEIGHT - 1 := by
  obtain ⟨e1, e2⟩ := draw_bounds_eq h hh
  rw [e1, e2]
  simp only [SCREEN_HEIGHT]
  refine ⟨?_, ?_, ?_⟩ <;> split <;> try split
  all_goals omega

/-- Claim C6. For every value of `perpWallDist`, the clamped bounds of the wall slice satisfy
`0 ≤ drawStart ≤ drawEnd ≤ SCREEN_HEIGHT - 1`; in particular this holds for the slice of
every column of every camera pose. -/
theorem wall_slice_bounds (perp : ℚ) (c : Camera) (x : Int) :
    (0 ≤ drawStartOf (lineHeightOf perp) ∧
      drawStartOf (lineHeightOf perp) ≤ drawEndOf (lineHeightOf perp) ∧
      drawEndOf (lineHeightOf perp) ≤ SCREEN_HEIGHT - 1) ∧
    (0 ≤ drawStart c x ∧ drawStart c x ≤ drawEnd c x ∧ drawEnd c x ≤ SCREEN_HEIGHT - 1) :=
  ⟨draw_bounds_of_nonneg _ (lineHeightOf_nonneg perp),
    draw_bounds_of_nonneg _ (lineHeightOf_nonneg (perpWallDist c x))⟩

/-! ## Texel coordinates -/

theorem wallXOf_range (side : Int) (posX posY perp rdx rdy : ℚ) :
    0 ≤ wallXOf side posX posY perp rdx rdy ∧ wallXOf side posX posY perp rdx rdy < 1 := by
  unfold wallXOf
  constructor
  · have := Int.floor_le (if side = 0 then posY + perp * rdy else posX + perp * rdx)
    linarith
  · have := Int.lt_floor_add_one (if side = 0 then posY + perp * rdy else posX + perp * rdx)
    linarith

theorem c_int_of_nonneg (d : ℚ) (h : 0 ≤ d) : c_int d = ⌊d⌋ := by
  unfold c_int
  rw [if_pos h]

theorem mirrorTexX_range (width side : Int) (rdx rdy : ℚ) (texX : Int)
    (h : 0 ≤ texX ∧ texX < width) :
    0 ≤ mirrorTexX width side rdx rdy texX ∧ mirrorTexX width side rdx rdy texX < width := by
  unfold mirrorTexX
  dsimp only
  constructor <;> split <;> split <;> omega

theorem wallTexX_range (t : Texture) (side : Int) (rdx rdy w : ℚ) (hw : 0 < t.width)
    (h0 : 0 ≤ w) (h1 : w < 1) :
    0 ≤ wallTexX (some t) side rdx rdy w ∧ wallTexX (some t) side rdx rdy w < t.width := by
  have hwq : (0 : ℚ) < (t.width : ℚ) := by exact_mod_cast hw
  have hp : 0 ≤ w * (t.width : ℚ) := mul_nonneg h0 hwq.le
  apply mirrorTexX_range
  rw [c_int_of_nonneg _ hp]
  refine ⟨Int.floor_nonneg.mpr hp, Int.floor_lt.mpr ?_⟩
  nlinarith

theorem wallTexY_range (height : Int) (texPos : ℚ) (hh : 0 < height) :
    0 ≤ wallTexY height texPos ∧ wallTexY height texPos < height := by
  unfold wallTexY
  dsimp only
  constructor <;> split <;> split <;> omega

theorem tmod_gt_neg (a b : Int) (hb : 0 < b) : -b < Int.tmod a b := by
  rcases le_or_lt 0 a with ha | ha
  · have := Int.tmod_nonneg b ha
    omega
  · have h1 : Int.tmod a b = -Int.tmod (-a) b := by
      rw [Int.tmod_def, Int.tmod_def, Int.neg_tdiv]
      ring
    have h2 := Int.tmod_lt_of_pos (-a) hb
    omega

theorem floorTexCoord_range (coord : ℚ) (dim : Int) (hd : 0 < dim) :
    0 ≤ floorTexCoord coord dim ∧ floorTexCoord coord dim < dim := by
  unfold floorTexCoord
  have h1 := tmod_gt_neg (c_int (coord * (dim : ℚ))) dim hd
  have h2 := Int.tmod_lt_of_pos (c_int (coord * (dim : ℚ))) hd
  constructor <;> split <;> omega

/-- Exact arithmetic only (no rounding of `wallX -= floor(wallX)`; the code at an input where
that rounding decides is in the binary64 section). For every camera pose, column `x`, row
`y`, value of `texPos`, and every
texture `t` of positive width and height: the wall `texX` computed with `t` (after
mirroring) lies in `[0, t.width)`, the clamped wall `texY` lies in `[0, t.height)`, and the
floor and ceiling texel coordinates computed with `t` (after `%` and the negative fold) lie in
`[0, t.width)` and `[0, t.height)`. -/
theorem texel_coordinates_in_range (c : Camera) (x y : Int) (texPos : ℚ) (t : Texture)
    (hw : 0 < t.width) (hh : 0 < t.height) :
    (0 ≤ wallTexX (some t) (dda_cast c x).side (rayDirX c x) (rayDirY c x) (wallX c x) ∧
      wallTexX (some t) (dda_cast c x).side (rayDirX c x) (rayDirY c x) (wallX c x) < t.width) ∧
    (0 ≤ wallTexY t.height texPos ∧ wallTexY t.height texPos < t.height) ∧
    (0 ≤ floorTexCoord (currentFloor (floorWeight (perpWallDist c x) y)
        (floorXWallOf (dda_cast c x).side (dda_cast c x).mapX (rayDirX c x) (rayDirY c x)
          (wallX c x)) c.posX) t.width ∧
      floorTexCoord (currentFloor (floorWeight (perpWallDist c x) y)
        (floorXWallOf (dda_cast c x).side (dda_cast c x).mapX (rayDirX c x) (rayDirY c x)
          (wallX c x)) c.posX) t.width < t.width) ∧
    (0 ≤ floorTexCoord (currentFloor (floorWeight (perpWallDist c x) y)
        (floorYWallOf (dda_cast c x).side (dda_cast c x).mapY (rayDirX c x) (rayDirY c x)
          (wallX c x)) c.posY) t.height ∧
      floorTexCoord (currentFloor (floorWeight (perpWallDist c x) y)
        (floorYWallOf (dda_cast c x).side (dda_cast c x).mapY (rayDirX c x) (rayDirY c x)
          (wallX c x)) c.posY) t.height < t.height) :=
  ⟨wallTexX_range t _ _ _ _ hw (wallXOf_range _ _ _ _ _ _).1 (wallXOf_range _ _ _ _ _ _).2,
    wallTexY_range _ _ hh, floorTexCoord_range _ _ hw, floorTexCoord_range _ _ hh⟩

theorem texel_coordinates_in_range_witness :
    (0 ≤ wallTexX (some rampTexture) (dda_cast scenarioCamera 0).side (rayDirX scenarioCamera 0)
        (rayDirY scenarioCamera 0) (wallX scenarioCamera 0) ∧
      wallTexX (some rampTexture) (dda_cast scenarioCamera 0).side (rayDirX scenarioCamera 0)
        (rayDirY scenarioCamera 0) (wallX scenarioCamera 0) < rampTexture.width) ∧
    (0 ≤ wallTexY rampTexture.height (129 / 2) ∧
      wallTexY rampTexture.height (129 / 2) < rampTexture.height) :=
  ⟨(texel_coordinates_in_range scenarioCamera 0 500 (129 / 2) rampTexture (by decide)
      (by decide)).1,
    (texel_coordinates_in_range scenarioCamera 0 500 (129 / 2) rampTexture (by decide)
      (by decide)).2.1⟩


/-! ## Mirroring of the wall texel column -/

/-- Claim C10 as stated fails: for `southCamera`, column `400` is a `side = 1` hit on a
tile `1` wall with `rayDirY > 0`, and the wall `texX` computed with a 64-wide texture is the unmirrored
`floor(wallX * 64) = 32`, not `64 - 32 - 1`. -/
theorem texX_not_mirrored_on_positive_y :
    tile southCamera 400 = 1 ∧
    (dda_cast southCamera 400).side = 1 ∧ rayDirY southCamera 400 > 0 ∧
    ⌊wallX southCamera 400 * (rampTexture.width : ℚ)⌋ = 32 ∧
    wallTexX (some rampTexture) (dda_cast southCamera 400).side (rayDirX southCamera 400)
      (rayDirY southCamera 400) (wallX southCamera 400) = 32 ∧
    wallTexX (some rampTexture) (dda_cast southCamera 400).side (rayDirX southCamera 400)
      (rayDirY southCamera 400) (wallX southCamera 400) ≠
      rampTexture.width - ⌊wallX southCamera 400 * (rampTexture.width : ℚ)⌋ - 1 := by
  refine ⟨by decide!, by decide!, by decide!, by decide!, by decide!, by decide!⟩

/-- Claim C10, amended. For every wall hit and every texture `t` of positive width, `wallX`
is the fractional part of the hit position along the face (`posY + perpWallDist * rayDirY`
for `side = 0`, `posX + perpWallDist * rayDirX` otherwise), and the wall `texX` is
`floor(wallX * width)` mirrored to `width - texX - 1` exactly when `side = 0` and
`rayDirX > 0`, or `side = 1` and `rayDirY < 0`; otherwise it is left unmirrored. -/
theorem wall_texX_mirror_rule (c : Camera) (x : Int) (t : Texture) (hw : 0 < t.width) :
    wallX c x =
      Int.fract (if (dda_cast c x).side = 0 then c.posY + perpWallDist c x * rayDirY c x
        else c.posX + perpWallDist c x * rayDirX c x) ∧
    wallTexX (some t) (dda_cast c x).side (rayDirX c x) (rayDirY c x) (wallX c x) =
      if ((dda_cast c x).side = 0 ∧ rayDirX c x > 0) ∨ ((dda_cast c x).side = 1 ∧ rayDirY c x < 0)
      then t.width - ⌊wallX c x * (t.width : ℚ)⌋ - 1
      else ⌊wallX c x * (t.width : ℚ)⌋ := by
  constructor
  · rfl
  · have hwq : (0 : ℚ) < (t.width : ℚ) := by exact_mod_cast hw
    have hp : 0 ≤ wallX c x * (t.width : ℚ) := mul_nonneg (wallXOf_range _ _ _ _ _ _).1 hwq.le
    show mirrorTexX _ _ _ _ (c_int _) = _
    rw [c_int_of_nonneg _ hp]
    unfold mirrorTexX
    dsimp only
    by_cases h0 : (dda_cast c x).side = 0
    · have h1 : ¬ (dda_cast c x).side = 1 := by omega
      simp [h0]
    · by_cases h1 : (dda_cast c x).side = 1
      · simp [h1]
      · simp [h0, h1]

theorem wall_texX_mirror_rule_witness :
    (0 : Int) < rampTexture.width ∧
    wallTexX (some rampTexture) (dda_cast southCamera 400).side (rayDirX southCamera 400)
        (rayDirY southCamera 400) (wallX southCamera 400) =
      if ((dda_cast southCamera 400).side = 0 ∧ rayDirX southCamera 400 > 0) ∨
          ((dda_cast southCamera 400).side = 1 ∧ rayDirY southCamera 400 < 0)
      then rampTexture.width - ⌊wallX southCamera 400 * (rampTexture.width : ℚ)⌋ - 1
      else ⌊wallX southCamera 400 * (rampTexture.width : ℚ)⌋ :=
  ⟨by decide, (wall_texX_mirror_rule southCamera 400 rampTexture (by decide)).2⟩

/-! ## Camera rotation -/

/-- With exact real arithmetic the update of the main loop is the rotation by the angle `t`:
it sends the vector of length `r` at angle `a` to the vector of length `r` at angle `a + t`;
the right-arrow update (by `t`) followed by the left-arrow update (by `-t`) gives back `dir`
and `plane`; and one update leaves the lengths of `dir` and of `plane`, the dot product
`dir . plane` and the cross product `dir x plane` unchanged. -/
theorem rotation_exact (t : ℝ) (dir plane : ℝ × ℝ) :
    (∀ r a : ℝ, rotateVec (Real.cos t) (Real.sin t) (r * Real.cos a, r * Real.sin a) =
      (r * Real.cos (a + t), r * Real.sin (a + t))) ∧
    rotateCamera (Real.cos (-t)) (Real.sin (-t))
        (rotateCamera (Real.cos t) (Real.sin t) (dir, plane)) = (dir, plane) ∧
    Real.sqrt ((rotateCamera (Real.cos t) (Real.sin t) (dir, plane)).1.1 ^ 2 +
        (rotateCamera (Real.cos t) (Real.sin t) (dir, plane)).1.2 ^ 2) =
      Real.sqrt (dir.1 ^ 2 + dir.2 ^ 2) ∧
    Real.sqrt ((rotateCamera (Real.cos t) (Real.sin t) (dir, plane)).2.1 ^ 2 +
        (rotateCamera (Real.cos t) (Real.sin t) (dir, plane)).2.2 ^ 2) =
      Real.sqrt (plane.1 ^ 2 + plane.2 ^ 2) ∧
    (rotateCamera (Real.cos t) (Real.sin t) (dir, plane)).1.1 *
        (rotateCamera (Real.cos t) (Real.sin t) (dir, plane)).2.1 +
      (rotateCamera (Real.cos t) (Real.sin t) (dir, plane)).1.2 *
        (rotateCamera (Real.cos t) (Real.sin t) (dir, plane)).2.2 =
      dir.1 * plane.1 + dir.2 * plane.2 ∧
    (rotateCamera (Real.cos t) (Real.sin t) (dir, plane)).1.1 *
        (rotateCamera (Real.cos t) (Real.sin t) (dir, plane)).2.2 -
      (rotateCamera (Real.cos t) (Real.sin t) (dir, plane)).1.2 *
        (rotateCamera (Real.cos t) (Real.sin t) (dir, plane)).2.1 =
      dir.1 * plane.2 - dir.2 * plane.1 := by
  have h : Real.cos t ^ 2 + Real.sin t ^ 2 = 1 := Real.cos_sq_add_sin_sq t
  obtain ⟨d1, d2⟩ := dir
  obtain ⟨p1, p2⟩ := plane
  simp only [rotateCamera, rotateVec, Real.cos_neg, Real.sin_neg]
  refine ⟨?_, ?_, ?_, ?_, ?_, ?_⟩
  · intro r a
    rw [Real.cos_add, Real.sin_add]
    refine Prod.ext ?_ ?_
    · show r * Real.cos a * Real.cos t - r * Real.sin a * Real.sin t =
        r * (Real.cos a * Real.cos t - Real.sin a * Real.sin t)
      ring
    · show r * Real.cos a * Real.sin t + r * Real.sin a * Real.cos t =
        r * (Real.sin a * Real.cos t + Real.cos a * Real.sin t)
      ring
  · refine Prod.ext (Prod.ext ?_ ?_) (Prod.ext ?_ ?_)
    · show (d1 * Real.cos t - d2 * Real.sin t) * Real.cos t -
        (d1 * Real.sin t + d2 * Real.cos t) * -Real.sin t = d1
      linear_combination d1 * h
    · show (d1 * Real.cos t - d2 * Real.sin t) * -Real.sin t +
        (d1 * Real.sin t + d2 * Real.cos t) * Real.cos t = d2
      linear_combination d2 * h
    · show (p1 * Real.cos t - p2 * Real.sin t) * Real.cos t -
        (p1 * Real.sin t + p2 * Real.cos t) * -Real.sin t = p1
      linear_combination p1 * h
    · show (p1 * Real.cos t - p2 * Real.sin t) * -Real.sin t +
        (p1 * Real.sin t + p2 * Real.cos t) * Real.cos t = p2
      linear_combination p2 * h
  · congr 1
    linear_combination (d1 ^ 2 + d2 ^ 2) * h
  · congr 1
    linear_combination (p1 ^ 2 + p2 ^ 2) * h
  · linear_combination (d1 * p1 + d2 * p2) * h
  · linear_combination (d1 * p2 - d2 * p1) * h

/-! ## Rays that leave the grid -/

/-- In the textured renderer a walk that stops outside the grid resolves `tile` to `0`
through the guard, and selects no texture, whatever the texture set. -/
theorem textured_out_of_grid (c : Camera) (x : Int) (textures : Int → Texture)
    (texture_count : Int)
    (hout : outOfGrid (dda_cast c x).mapX (dda_cast c x).mapY = true) :
    tile c x = 0 ∧ texOf textures texture_count (tile c x) = none := by
  have ht : tile c x = 0 := by
    rw [outOfGrid_eq_true] at hout
    unfold tile tileOf
    rw [if_neg]
    simp only [MAP_WIDTH, MAP_HEIGHT]
    omega
  refine ⟨ht, ?_⟩
  rw [ht]
  unfold texOf
  rw [if_neg]
  omega

/-- Claim C4, the flat-colour renderer at a failing input. For `outsideCamera`, the walk of
column `400` stops outside the grid, `tile` is `0`, and the index `(tile - 1) % 4` used on
`wall_colors` is `-1`, outside `[0, 4)`: the read is out of range. -/
theorem flat_color_index_out_of_range :
    outOfGrid (dda_cast outsideCamera 400).mapX (dda_cast outsideCamera 400).mapY = true ∧
    tile outsideCamera 400 = 0 ∧
    Flat.colorIndex (tile outsideCamera 400) = -1 ∧
    Flat.wallColorAt (Flat.colorIndex (tile outsideCamera 400)) = none ∧
    (Flat.render_column outsideCamera 400 (fun _ => none)).isNone = true := by
  refine ⟨by decide!, by decide!, by decide!, by decide!, by decide!⟩


/-! ## Loops that store into the pixel buffer -/

theorem Pixels.set_same (p : Pixels) (i : Int) (color : Nat) : (p.set i color) i = some color := by
  simp [Pixels.set]

theorem Pixels.set_other (p : Pixels) (i j : Int) (color : Nat) (h : j ≠ i) :
    (p.set i color) j = p j := by
  simp [Pixels.set, h]

/-- A cell that no iteration stores into keeps its content. -/
theorem forLoopN_untouched {σ : Type} (pix : σ → Pixels) (body : Int → σ → σ) (j : Int) :
    ∀ (n : Nat) (lo : Int) (s : σ),
      (∀ i s, lo ≤ i → i < lo + (n : Int) → pix (body i s) j = pix s j) →
      pix (forLoopN body lo n s) j = pix s j := by
  intro n
  induction n with
  | zero => intro lo s _; rfl
  | succ k ih =>
    intro lo s h
    rw [forLoopN, ih (lo + 1) (body lo s) (fun i s h1 h2 => h i s (by omega) (by push_cast; omega))]
    exact h lo s (le_refl _) (by push_cast; omega)

/-- A cell stored into by iteration `i0` and by no later iteration holds the value stored
by `i0`. -/
theorem forLoopN_written {σ : Type} (pix : σ → Pixels) (body : Int → σ → σ) (j : Int)
    (val : Nat) (i0 : Int) (hval : ∀ s, pix (body i0 s) j = some val) :
    ∀ (n : Nat) (lo : Int) (s : σ), lo ≤ i0 → i0 < lo + (n : Int) →
      (∀ i s, i0 < i → i < lo + (n : Int) → pix (body i s) j = pix s j) →
      pix (forLoopN body lo n s) j = some val := by
  intro n
  induction n with
  | zero => intro lo s h1 h2 _; simp at h2; omega
  | succ k ih =>
    intro lo s h1 h2 h
    rw [forLoopN]
    rcases eq_or_lt_of_le h1 with e | hlt
    · subst e
      rw [forLoopN_untouched pix body j k (lo + 1) (body lo s)
        (fun i s h3 h4 => h i s (by omega) (by push_cast; omega))]
      exact hval s
    · exact ih (lo + 1) (body lo s) (by omega) (by push_cast at h2; omega)
        (fun i s h3 h4 => h i s h3 (by push_cast; omega))

/-- A cell that holds a value before the loop holds one after it, when no iteration
erases. -/
theorem forLoopN_some {σ : Type} (pix : σ → Pixels) (body : Int → σ → σ) (j : Int)
    (hbody : ∀ i s, pix s j ≠ none → pix (body i s) j ≠ none) :
    ∀ (n : Nat) (lo : Int) (s : σ), pix s j ≠ none → pix (forLoopN body lo n s) j ≠ none := by
  intro n
  induction n with
  | zero => intro lo s h; exact h
  | succ k ih =>
    intro lo s h
    rw [forLoopN]
    exact ih (lo + 1) (body lo s) (hbody lo s h)

theorem forLoop_untouched {σ : Type} (pix : σ → Pixels) (body : Int → σ → σ) (j lo hi : Int)
    (s : σ) (h : ∀ i s, lo ≤ i → i < hi → pix (body i s) j = pix s j) :
    pix (forLoop lo hi body s) j = pix s j :=
  forLoopN_untouched pix body j _ lo s (fun i s h1 h2 => h i s h1 (by omega))

theorem forLoop_written {σ : Type} (pix : σ → Pixels) (body : Int → σ → σ) (j lo hi : Int)
    (s : σ) (val : Nat) (i0 : Int) (h1 : lo ≤ i0) (h2 : i0 < hi)
    (hval : ∀ s, pix (body i0 s) j = some val)
    (h : ∀ i s, i0 < i → i < hi → pix (body i s) j = pix s j) :
    pix (forLoop lo hi body s) j = some val :=
  forLoopN_written pix body j val i0 hval _ lo s h1 (by omega)
    (fun i s h3 h4 => h i s h3 (by omega))

theorem forLoop_some {σ : Type} (pix : σ → Pixels) (body : Int → σ → σ) (j lo hi : Int)
    (s : σ) (hbody : ∀ i s, pix s j ≠ none → pix (body i s) j ≠ none) (h : pix s j ≠ none) :
    pix (forLoop lo hi body s) j ≠ none :=
  forLoopN_some pix body j hbody _ lo s h

theorem pixLoop_untouched (body : Int → Pixels → Pixels) (j lo hi : Int) (s : Pixels)
    (h : ∀ i s, lo ≤ i → i < hi → body i s j = s j) :
    forLoop lo hi body s j = s j :=
  forLoop_untouched id body j lo hi s h

theorem pixLoop_written (body : Int → Pixels → Pixels) (j lo hi : Int) (s : Pixels)
    (val : Nat) (i0 : Int) (h1 : lo ≤ i0) (h2 : i0 < hi)
    (hval : ∀ s, body i0 s j = some val)
    (h : ∀ i s, i0 < i → i < hi → body i s j = s j) :
    forLoop lo hi body s j = some val :=
  forLoop_written id body j lo hi s val i0 h1 h2 hval h

theorem pixLoop_some (body : Int → Pixels → Pixels) (j lo hi : Int) (s : Pixels)
    (hbody : ∀ i s, s j ≠ none → body i s j ≠ none) (h : s j ≠ none) :
    forLoop lo hi body s j ≠ none :=
  forLoop_some id body j lo hi s hbody h

theorem Pixels.set_some (p : Pixels) (i j : Int) (color : Nat) (h : p j ≠ none) :
    (p.set i color) j ≠ none := by
  unfold Pixels.set
  split
  · simp
  · exact h

/-! ## `fill_background` -/

/-- After `fill_background`, the pixel of row `y` and column `x` holds `sky` in the upper
half of the screen and `floor` in the lower half. -/
theorem fill_background_pixel (p : Pixels) (sky floor : Nat) (x y : Int)
    (hx : 0 ≤ x ∧ x < 800) (hy : 0 ≤ y ∧ y < 600) :
    fill_background p sky floor (y * SCREEN_WIDTH + x) = some (if y < 300 then sky else floor) := by
  unfold fill_background
  have e : Int.tdiv SCREEN_HEIGHT 2 = 300 := by decide
  rw [e]
  apply pixLoop_written _ _ 0 SCREEN_HEIGHT p _ y hy.1 (by simp only [SCREEN_HEIGHT]; omega)
  · intro s
    apply pixLoop_written _ _ 0 SCREEN_WIDTH s _ x hx.1 (by simp only [SCREEN_WIDTH]; omega)
    · intro s1
      exact Pixels.set_same _ _ _
    · intro i s1 h1 h2
      apply Pixels.set_other
      omega
  · intro i s h1 h2
    apply pixLoop_untouched _ _ 0 SCREEN_WIDTH s
    intro i1 s1 h3 h4
    apply Pixels.set_other
    simp only [SCREEN_WIDTH] at h4 ⊢
    omega

/-! ## The stores of one column -/

theorem wall_row_fst (x : Int) (tex : Option Texture) (texX side : Int) (step : ℚ) (y : Int)
    (st : Pixels × ℚ) :
    ∃ color, (wall_row x tex texX side step y st).1 = st.1.set (y * SCREEN_WIDTH + x) color := by
  unfold wall_row
  cases tex <;> exact ⟨_, rfl⟩

theorem floor_row_eq (x : Int) (floorTex ceilTex : Option Texture) (posX posY distWall fxw
    fyw : ℚ) (y : Int) (p : Pixels) (hy : y < 600) :
    ∃ floorColor ceilColor,
      floorColor = floorSample floorTex 0xFF444444
        (currentFloor (floorWeight distWall y) fxw posX)
        (currentFloor (floorWeight distWall y) fyw posY) ∧
      ceilColor = floorSample ceilTex 0xFF222222
        (currentFloor (floorWeight distWall y) fxw posX)
        (currentFloor (floorWeight distWall y) fyw posY) ∧
      floor_row x floorTex ceilTex posX posY distWall fxw fyw y p =
        (p.set (y * SCREEN_WIDTH + x) floorColor).set ((SCREEN_HEIGHT - y - 1) * SCREEN_WIDTH + x)
          ceilColor := by
  refine ⟨_, _, rfl, rfl, ?_⟩
  unfold floor_row
  dsimp only
  rw [if_pos]
  simp only [SCREEN_HEIGHT]
  omega

/-- The wall loop leaves alone every cell that is not a row of its range in column `x`. -/
theorem wall_loop_untouched (x ds de : Int) (tex : Option Texture) (texX side : Int)
    (step texPos : ℚ) (p : Pixels) (j : Int)
    (h : ∀ y, ds ≤ y → y ≤ de → j ≠ y * SCREEN_WIDTH + x) :
    wall_loop x ds de tex texX side step texPos p j = p j := by
  unfold wall_loop
  exact forLoop_untouched Prod.fst (wall_row x tex texX side step) j ds (de + 1) (p, texPos)
    (fun i s h1 h2 => by
      obtain ⟨color, e⟩ := wall_row_fst x tex texX side step i s
      rw [e]
      exact Pixels.set_other _ _ _ _ (h i h1 (by omega)))

/-- Without texture, the wall loop stores the shaded fallback colour in each row of its
range. -/
theorem wall_loop_flat (x ds de texX side : Int) (step texPos : ℚ) (p : Pixels) (y : Int)
    (h1 : ds ≤ y) (h2 : y ≤ de) :
    wall_loop x ds de none texX side step texPos p (y * SCREEN_WIDTH + x) =
      some (shade side 0xFFFFFFFF) := by
  unfold wall_loop
  exact forLoop_written Prod.fst (wall_row x none texX side step) _ ds (de + 1) (p, texPos) _ y
    h1 (by omega) (fun s => Pixels.set_same _ _ _)
    (fun i s h3 h4 => by
      obtain ⟨color, e⟩ := wall_row_fst x none texX side step i s
      rw [e]
      apply Pixels.set_other
      simp only [SCREEN_WIDTH]
      omega)

theorem wall_loop_some (x ds de : Int) (tex : Option Texture) (texX side : Int)
    (step texPos : ℚ) (p : Pixels) (j : Int) (h : p j ≠ none) :
    wall_loop x ds de tex texX side step texPos p j ≠ none := by
  unfold wall_loop
  exact forLoop_some Prod.fst (wall_row x tex texX side step) j ds (de + 1) (p, texPos)
    (fun i s hs => by
      obtain ⟨color, e⟩ := wall_row_fst x tex texX side step i s
      rw [e]
      exact Pixels.set_some _ _ _ _ hs) h

/-- The floor loop leaves alone every cell that is neither a floor row of its range nor the
mirror of one, in column `x`. -/
theorem floor_loop_untouched (x fs : Int) (floorTex ceilTex : Option Texture) (posX posY
    distWall fxw fyw : ℚ) (p : Pixels) (j : Int)
    (h : ∀ y, fs ≤ y → y < 600 →
      j ≠ y * SCREEN_WIDTH + x ∧ j ≠ (SCREEN_HEIGHT - y - 1) * SCREEN_WIDTH + x) :
    floor_loop x fs floorTex ceilTex posX posY distWall fxw fyw p j = p j := by
  unfold floor_loop
  apply pixLoop_untouched
  intro i s h1 h2
  have h2 : i < 600 := h2
  obtain ⟨fc, cc, _, _, e⟩ := floor_row_eq x floorTex ceilTex posX posY distWall fxw fyw i s h2
  rw [e, Pixels.set_other _ _ _ _ (h i h1 h2).2, Pixels.set_other _ _ _ _ (h i h1 h2).1]

/-- Without floor texture, the floor loop stores the flat floor colour in each row of its
range, provided the range lies in the lower half of the screen. -/
theorem floor_loop_flat_floor (x fs : Int) (ceilTex : Option Texture) (posX posY distWall fxw
    fyw : ℚ) (p : Pixels) (y : Int) (hfs : 300 ≤ fs) (h1 : fs ≤ y) (h2 : y < 600) :
    floor_loop x fs none ceilTex posX posY distWall fxw fyw p (y * SCREEN_WIDTH + x) =
      some 0xFF444444 := by
  unfold floor_loop
  apply pixLoop_written _ _ fs SCREEN_HEIGHT p _ y h1 h2
  · intro s
    obtain ⟨fc, cc, hfc, _, e⟩ := floor_row_eq x none ceilTex posX posY distWall fxw fyw y s h2
    rw [e, Pixels.set_other, Pixels.set_same, hfc]
    · rfl
    · simp only [SCREEN_WIDTH, SCREEN_HEIGHT]
      omega
  · intro i s h3 h4
    have h4 : i < 600 := h4
    obtain ⟨fc, cc, _, _, e⟩ := floor_row_eq x none ceilTex posX posY distWall fxw fyw i s h4
    rw [e, Pixels.set_other, Pixels.set_other]
    · simp only [SCREEN_WIDTH]
      omega
    · simp only [SCREEN_WIDTH, SCREEN_HEIGHT]
      omega

/-- Without ceiling texture, the floor loop stores the flat ceiling colour in the mirror of
each row of its range, provided the range lies in the lower half of the screen. -/
theorem floor_loop_flat_ceiling (x fs : Int) (floorTex : Option Texture) (posX posY distWall
    fxw fyw : ℚ) (p : Pixels) (y : Int) (hfs : 300 ≤ fs) (h1 : fs ≤ y) (h2 : y < 600) :
    floor_loop x fs floorTex none posX posY distWall fxw fyw p
        ((SCREEN_HEIGHT - y - 1) * SCREEN_WIDTH + x) = some 0xFF222222 := by
  unfold floor_loop
  apply pixLoop_written _ _ fs SCREEN_HEIGHT p _ y h1 h2
  · intro s
    obtain ⟨fc, cc, _, hcc, e⟩ := floor_row_eq x floorTex none posX posY distWall fxw fyw y s h2
    rw [e, Pixels.set_same, hcc]
    rfl
  · intro i s h3 h4
    have h4 : i < 600 := h4
    obtain ⟨fc, cc, _, _, e⟩ := floor_row_eq x floorTex none posX posY distWall fxw fyw i s h4
    rw [e, Pixels.set_other, Pixels.set_other]
    · simp only [SCREEN_WIDTH, SCREEN_HEIGHT]
      omega
    · simp only [SCREEN_WIDTH, SCREEN_HEIGHT]
      omega

theorem floor_loop_some (x fs : Int) (floorTex ceilTex : Option Texture) (posX posY
    distWall fxw fyw : ℚ) (p : Pixels) (j : Int) (h : p j ≠ none) :
    floor_loop x fs floorTex ceilTex posX posY distWall fxw fyw p j ≠ none := by
  unfold floor_loop
  apply pixLoop_some _ _ _ _ _ _ h
  intro i s hs
  unfold floor_row
  split
  · exact Pixels.set_some _ _ _ _ (Pixels.set_some _ _ _ _ hs)
  · exact Pixels.set_some _ _ _ _ hs

/-- Facts on the clamped slice bounds of a non-negative `lineHeight`. -/
theorem draw_bounds_facts (h : Int) (hh : 0 ≤ h) :
    0 ≤ drawStartOf h ∧ drawStartOf h ≤ 300 ∧ 300 ≤ drawEndOf h ∧ drawEndOf h ≤ 599 ∧
    599 ≤ drawStartOf h + drawEndOf h ∧ floorStartOf (drawEndOf h) = drawEndOf h + 1 ∧
    (h / 2 < 300 → drawStartOf h = 300 - h / 2 ∧ drawEndOf h = 300 + h / 2) := by
  obtain ⟨e1, e2⟩ := draw_bounds_eq h hh
  unfold floorStartOf
  rw [e1, e2]
  refine ⟨?_, ?_, ?_, ?_, ?_, ?_, ?_⟩
  · split <;> omega
  · split <;> omega
  · split <;> omega
  · split <;> omega
  · split <;> split <;> omega
  · split <;> split <;> omega
  · intro hk
    constructor <;> split <;> omega

theorem column_bounds_facts (c : Camera) (x : Int) :
    0 ≤ drawStart c x ∧ drawStart c x ≤ 300 ∧ 300 ≤ drawEnd c x ∧ drawEnd c x ≤ 599 ∧
    599 ≤ drawStart c x + drawEnd c x ∧ floorStartOf (drawEnd c x) = drawEnd c x + 1 ∧
    (lineHeight c x / 2 < 300 →
      drawStart c x = 300 - lineHeight c x / 2 ∧ drawEnd c x = 300 + lineHeight c x / 2) :=
  draw_bounds_facts _ (lineHeightOf_nonneg _)

/-- One column leaves alone the pixels of the other columns, and in its own column the rows
that are neither in the wall slice, nor below it, nor the mirror of a row below it. -/
theorem render_column_untouched (c : Camera) (textures : Int → Texture) (texture_count x : Int)
    (p : Pixels) (x0 y0 : Int) (hx : 0 ≤ x ∧ x < 800) (hx0 : 0 ≤ x0 ∧ x0 < 800)
    (h : x0 ≠ x ∨ ((y0 < drawStart c x ∨ drawEnd c x < y0) ∧ y0 ≤ drawEnd c x ∧
      SCREEN_HEIGHT - 1 - y0 ≤ drawEnd c x)) :
    render_column c textures texture_count x p (y0 * SCREEN_WIDTH + x0) =
      p (y0 * SCREEN_WIDTH + x0) := by
  obtain ⟨_, _, _, _, _, hfs, _⟩ := column_bounds_facts c x
  unfold render_column
  rw [floor_loop_untouched, wall_loop_untouched]
  · intro y h1 h2
    simp only [SCREEN_WIDTH, SCREEN_HEIGHT] at h ⊢
    omega
  · intro y h1 h2
    rw [hfs] at h1
    simp only [SCREEN_WIDTH, SCREEN_HEIGHT] at h ⊢
    omega

theorem render_column_some (c : Camera) (textures : Int → Texture) (texture_count x : Int)
    (p : Pixels) (j : Int) (h : p j ≠ none) :
    render_column c textures texture_count x p j ≠ none := by
  unfold render_column
  exact floor_loop_some _ _ _ _ _ _ _ _ _ _ _ (wall_loop_some _ _ _ _ _ _ _ _ _ _ h)

theorem texOf_zero (textures : Int → Texture) (tile : Int) : texOf textures 0 tile = none := by
  unfold texOf
  rw [if_neg]
  omega

theorem floorTexOf_zero (textures : Int → Texture) : floorTexOf textures 0 = none := by
  unfold floorTexOf
  rw [if_neg]
  omega

theorem ceilTexOf_zero (textures : Int → Texture) : ceilTexOf textures 0 = none := by
  unfold ceilTexOf
  rw [if_neg, floorTexOf_zero]
  omega

/-- With `texture_count = 0`, a column stores the shaded wall fallback in its wall slice. -/
theorem render_column_flat_wall (c : Camera) (textures : Int → Texture) (x : Int) (p : Pixels)
    (y : Int) (h1 : drawStart c x ≤ y) (h2 : y ≤ drawEnd c x) :
    render_column c textures 0 x p (y * SCREEN_WIDTH + x) =
      some (shade (dda_cast c x).side 0xFFFFFFFF) := by
  obtain ⟨_, _, _, _, _, hfs, _⟩ := column_bounds_facts c x
  unfold render_column
  rw [floor_loop_untouched, texOf_zero, wall_loop_flat _ _ _ _ _ _ _ _ _ h1 h2]
  intro i h3 h4
  rw [hfs] at h3
  simp only [SCREEN_WIDTH, SCREEN_HEIGHT]
  omega

/-- With `texture_count = 0`, a column stores the flat floor colour in the rows below its
wall slice and the flat ceiling colour in their mirrors. -/
theorem render_column_flat_floor (c : Camera) (textures : Int → Texture) (x : Int) (p : Pixels)
    (y : Int) (h1 : drawEnd c x < y) (h2 : y < 600) :
    render_column c textures 0 x p (y * SCREEN_WIDTH + x) = some 0xFF444444 ∧
    render_column c textures 0 x p ((SCREEN_HEIGHT - y - 1) * SCREEN_WIDTH + x) =
      some 0xFF222222 := by
  obtain ⟨_, _, _, _, _, hfs, _⟩ := column_bounds_facts c x
  unfold render_column
  rw [floorTexOf_zero, ceilTexOf_zero, hfs]
  exact ⟨floor_loop_flat_floor _ _ _ _ _ _ _ _ _ _ (by omega) (by omega) h2,
    floor_loop_flat_ceiling _ _ _ _ _ _ _ _ _ _ (by omega) (by omega) h2⟩

/-! ## The whole frame -/

/-- A pixel above the wall slice of its column whose mirror row is not below the slice is
stored into by no column: after `render_frame` it holds the colour of `fill_background`. -/
theorem render_frame_background (p : Pixels) (c : Camera) (textures : Int → Texture)
    (texture_count x y : Int) (hx : 0 ≤ x ∧ x < 800) (hy : 0 ≤ y)
    (h : y < drawStart c x ∧ SCREEN_HEIGHT - 1 - y ≤ drawEnd c x) :
    render_frame p c textures texture_count (y * SCREEN_WIDTH + x) =
      some (if y < 300 then 0xFF1C1F2B else 0xFF252D2A) := by
  obtain ⟨_, _, _, _, _, _, _⟩ := column_bounds_facts c x
  unfold render_frame
  rw [pixLoop_untouched, fill_background_pixel _ _ _ _ _ hx ⟨hy, by omega⟩]
  intro i s h1 h2
  have h2 : i < 800 := h2
  apply render_column_untouched c textures texture_count i s x y ⟨h1, h2⟩ hx
  by_cases e : x = i
  · subst e
    right
    omega
  · exact Or.inl e

/-- With `texture_count = 0`, after `render_frame` each pixel of a wall slice holds the
shaded wall fallback. -/
theorem render_frame_flat_wall (p : Pixels) (c : Camera) (textures : Int → Texture)
    (x y : Int) (hx : 0 ≤ x ∧ x < 800) (h1 : drawStart c x ≤ y) (h2 : y ≤ drawEnd c x) :
    render_frame p c textures 0 (y * SCREEN_WIDTH + x) =
      some (shade (dda_cast c x).side 0xFFFFFFFF) := by
  obtain ⟨_, _, _, _, _, _, _⟩ := column_bounds_facts c x
  unfold render_frame
  apply pixLoop_written _ _ 0 SCREEN_WIDTH _ _ x hx.1 hx.2
  · intro s
    exact render_column_flat_wall c textures x s y h1 h2
  · intro i s h3 h4
    have h4 : i < 800 := h4
    exact render_column_untouched c textures 0 i s x y ⟨by omega, h4⟩ hx (Or.inl (by omega))

/-- With `texture_count = 0`, after `render_frame` each row below a wall slice holds the flat
floor colour and its mirror row the flat ceiling colour. -/
theorem render_frame_flat_floor (p : Pixels) (c : Camera) (textures : Int → Texture)
    (x y : Int) (hx : 0 ≤ x ∧ x < 800) (h1 : drawEnd c x < y) (h2 : y < 600) :
    render_frame p c textures 0 (y * SCREEN_WIDTH + x) = some 0xFF444444 ∧
    render_frame p c textures 0 ((SCREEN_HEIGHT - y - 1) * SCREEN_WIDTH + x) =
      some 0xFF222222 := by
  obtain ⟨_, _, _, _, _, _, _⟩ := column_bounds_facts c x
  unfold render_frame
  constructor
  · apply pixLoop_written _ _ 0 SCREEN_WIDTH _ _ x hx.1 hx.2
    · intro s
      exact (render_column_flat_floor c textures x s y h1 h2).1
    · intro i s h3 h4
      have h4 : i < 800 := h4
      exact render_column_untouched c textures 0 i s x y ⟨by omega, h4⟩ hx (Or.inl (by omega))
  · apply pixLoop_written _ _ 0 SCREEN_WIDTH _ _ x hx.1 hx.2
    · intro s
      exact (render_column_flat_floor c textures x s y h1 h2).2
    · intro i s h3 h4
      have h4 : i < 800 := h4
      exact render_column_untouched c textures 0 i s x (SCREEN_HEIGHT - y - 1) ⟨by omega, h4⟩ hx
        (Or.inl (by omega))

/-- In every column whose `lineHeight / 2` is below `300`, the row just above the wall slice
is stored into by no column and holds the colour of `fill_background` after `render_frame`. -/
theorem render_frame_gap_row (p : Pixels) (c : Camera) (textures : Int → Texture)
    (texture_count x : Int) (hx : 0 ≤ x ∧ x < 800) (hk : lineHeight c x / 2 < 300) :
    0 ≤ drawStart c x - 1 ∧
    render_frame p c textures texture_count ((drawStart c x - 1) * SCREEN_WIDTH + x) =
      some 0xFF1C1F2B := by
  obtain ⟨_, _, _, _, _, _, hb⟩ := column_bounds_facts c x
  obtain ⟨e1, e2⟩ := hb hk
  have hl : 0 ≤ lineHeight c x := lineHeightOf_nonneg _
  have h0 : 0 ≤ drawStart c x - 1 := by omega
  refine ⟨h0, ?_⟩
  rw [render_frame_background p c textures texture_count x _ hx h0
    ⟨by omega, by simp only [SCREEN_HEIGHT]; omega⟩, if_pos (by omega)]

/-- After `render_frame` every pixel of the buffer has been stored into. -/
theorem render_frame_some (p : Pixels) (c : Camera) (textures : Int → Texture)
    (texture_count i : Int) (h0 : 0 ≤ i) (h1 : i < SCREEN_WIDTH * SCREEN_HEIGHT) :
    render_frame p c textures texture_count i ≠ none := by
  unfold render_frame
  apply pixLoop_some
  · intro x s hs
    exact render_column_some c textures texture_count x s i hs
  · have h1 : i < 480000 := h1
    have e : i = (i / 800) * SCREEN_WIDTH + i % 800 := by
      simp only [SCREEN_WIDTH]
      omega
    rw [e, fill_background_pixel _ _ _ _ _ (by omega) (by omega)]
    simp

theorem shade_fallback (side : Int) :
    shade side 0xFFFFFFFF = if side = 1 then 0xFF7F7F7F else 0xFFFFFFFF := by
  unfold shade
  split <;> rfl

/-- Claim C3, the code at a failing input. For `corridorCamera`, column `400` has
`perpWallDist = 7.5`, `lineHeight = 80`, wall slice `[260, 340]`, floor rows `341..599` and
mirrored ceiling rows `0..258`; row `259` is in none of them, no loop of the column stores
into it, and after `render_frame` it still holds the sky colour of `fill_background`,
whatever the textures. -/
theorem background_row_left_uncovered :
    perpWallDist corridorCamera 400 = 15 / 2 ∧ lineHeight corridorCamera 400 = 80 ∧
    drawStart corridorCamera 400 = 260 ∧ drawEnd corridorCamera 400 = 340 ∧
    floorStartOf (drawEnd corridorCamera 400) = 341 ∧
    (∀ y : Int, 341 ≤ y → y < 600 → SCREEN_HEIGHT - y - 1 ≠ 259) ∧
    (∀ (p : Pixels) (textures : Int → Texture) (texture_count : Int),
      render_column corridorCamera textures texture_count 400 p (259 * SCREEN_WIDTH + 400) =
        p (259 * SCREEN_WIDTH + 400)) ∧
    (∀ (p : Pixels) (textures : Int → Texture) (texture_count : Int),
      render_frame p corridorCamera textures texture_count (259 * SCREEN_WIDTH + 400) =
        some 0xFF1C1F2B) := by
  have hs : drawStart corridorCamera 400 = 260 := by decide!
  have he : drawEnd corridorCamera 400 = 340 := by decide!
  refine ⟨by decide!, by decide!, hs, he, by decide!, ?_, ?_, ?_⟩
  · intro y h1 h2
    simp only [SCREEN_HEIGHT]
    omega
  · intro p textures texture_count
    apply render_column_untouched _ _ _ _ _ _ _ (by omega) (by omega)
    right
    rw [hs, he]
    simp only [SCREEN_HEIGHT]
    omega
  · intro p textures texture_count
    have := render_frame_background p corridorCamera textures texture_count 400 259
      (by omega) (by omega) (by rw [hs, he]; simp only [SCREEN_HEIGHT]; omega)
    simpa using this

/-- Claim C8 as stated fails: with `texture_count = 0`, the pixel of row `300` in column
`400` lies in the wall slice for `southCamera` and holds `0xFF7F7F7F`, not `0xFFFFFFFF`. -/
theorem flat_wall_pixel_is_shaded :
    drawStart southCamera 400 ≤ 300 ∧ 300 ≤ drawEnd southCamera 400 ∧
    render_frame (fun _ => none) southCamera (fun _ => rampTexture) 0 (300 * SCREEN_WIDTH + 400) =
      some 0xFF7F7F7F ∧
    render_frame (fun _ => none) southCamera (fun _ => rampTexture) 0 (300 * SCREEN_WIDTH + 400) ≠
      some 0xFFFFFFFF := by
  have hs : drawStart southCamera 400 ≤ 300 := by decide!
  have he : 300 ≤ drawEnd southCamera 400 := by decide!
  have hside : (dda_cast southCamera 400).side = 1 := by decide!
  have h := render_frame_flat_wall (fun _ => none) southCamera (fun _ => rampTexture) 400 300
    (by omega) hs he
  rw [shade_fallback, if_pos hside] at h
  refine ⟨hs, he, h, ?_⟩
  rw [h]
  decide

/-- Claim C8, amended. When `render_frame` is called with `texture_count = 0`, for every
camera pose: no texture is selected for the wall, the floor or the ceiling; every pixel of
every wall slice holds the wall fallback `0xFFFFFFFF` for a `side = 0` hit and its shaded
value `0xFF7F7F7F` for a `side = 1` hit; every row below a wall slice holds the flat floor
colour `0xFF444444` and its mirror row the flat ceiling colour `0xFF222222`; and every one
of the `SCREEN_WIDTH * SCREEN_HEIGHT` pixels of the buffer has been written. -/
theorem zero_textures_frame (p : Pixels) (c : Camera) (textures : Int → Texture) :
    (∀ x, texOf textures 0 (tile c x) = none) ∧
    floorTexOf textures 0 = none ∧ ceilTexOf textures 0 = none ∧
    (∀ x y, 0 ≤ x → x < SCREEN_WIDTH → drawStart c x ≤ y → y ≤ drawEnd c x →
      ((dda_cast c x).side = 0 ∨ (dda_cast c x).side = 1) ∧
      render_frame p c textures 0 (y * SCREEN_WIDTH + x) =
        some (if (dda_cast c x).side = 1 then 0xFF7F7F7F else 0xFFFFFFFF)) ∧
    (∀ x y, 0 ≤ x → x < SCREEN_WIDTH → drawEnd c x < y → y < SCREEN_HEIGHT →
      render_frame p c textures 0 (y * SCREEN_WIDTH + x) = some 0xFF444444 ∧
      render_frame p c textures 0 ((SCREEN_HEIGHT - y - 1) * SCREEN_WIDTH + x) =
        some 0xFF222222) ∧
    (∀ i, 0 ≤ i → i < SCREEN_WIDTH * SCREEN_HEIGHT → render_frame p c textures 0 i ≠ none) := by
  refine ⟨fun x => texOf_zero _ _, floorTexOf_zero _, ceilTexOf_zero _, ?_, ?_, ?_⟩
  · intro x y h0 h1 h2 h3
    refine ⟨(dda_cast_progress c x).2.1, ?_⟩
    rw [← shade_fallback]
    exact render_frame_flat_wall p c textures x y ⟨h0, h1⟩ h2 h3
  · intro x y h0 h1 h2 h3
    exact render_frame_flat_floor p c textures x y ⟨h0, h1⟩ h2 h3
  · intro i h0 h1
    exact render_frame_some p c textures 0 i h0 h1

theorem zero_textures_frame_witness :
    (0 : Int) ≤ 400 ∧ (400 : Int) < SCREEN_WIDTH ∧
    drawStart scenarioCamera 400 ≤ 300 ∧ 300 ≤ drawEnd scenarioCamera 400 ∧
    render_frame (fun _ => none) scenarioCamera (fun _ => rampTexture) 0
        (300 * SCREEN_WIDTH + 400) =
      some (if (dda_cast scenarioCamera 400).side = 1 then 0xFF7F7F7F else 0xFFFFFFFF) :=
  ⟨by decide, by decide, by decide!, by decide!,
    ((zero_textures_frame (fun _ => none) scenarioCamera (fun _ => rampTexture)).2.2.2.1
      400 300 (by decide) (by decide) (by decide!) (by decide!)).2⟩

/-! ## Row distance and interpolation weight of the floor loop -/

/-- For a row below the wall slice of a slice height computed from `perp`: the row lies in
the lower half of the screen, `perp` exceeds `1` (so the clamp of `lineHeight` is idle), and
`SCREEN_HEIGHT` is below `(2y - SCREEN_HEIGHT) * perp`. -/
theorem floor_row_below_slice (perp : ℚ) (y : Int)
    (h1 : drawEndOf (lineHeightOf perp) + 1 ≤ y) (h2 : y < SCREEN_HEIGHT) :
    301 ≤ y ∧ 1 < perp ∧ (600 : ℚ) < (2 * (y : ℚ) - 600) * perp := by
  have h2 : y < 600 := h2
  have hpos : (0 : ℚ) < max perp (1 / 1000000) := lt_max_of_lt_right (by norm_num)
  have hq : (0 : ℚ) ≤ (SCREEN_HEIGHT : ℚ) / max perp (1 / 1000000) :=
    div_nonneg (by simp [SCREEN_HEIGHT]) hpos.le
  have hl : lineHeightOf perp = ⌊(SCREEN_HEIGHT : ℚ) / max perp (1 / 1000000)⌋ :=
    c_int_of_nonneg _ hq
  have hn := lineHeightOf_nonneg perp
  obtain ⟨_, e2⟩ := draw_bounds_eq _ hn
  rw [e2] at h1
  have hk : lineHeightOf perp / 2 < 300 := by
    by_contra hc
    rw [if_pos (by omega)] at h1
    omega
  rw [if_neg (by omega)] at h1
  have hy : 301 ≤ y := by omega
  have hd : lineHeightOf perp + 1 ≤ 2 * y - 600 := by omega
  have hdq : ((lineHeightOf perp : ℚ)) + 1 ≤ 2 * (y : ℚ) - 600 := by exact_mod_cast hd
  have hfl := Int.lt_floor_add_one ((SCREEN_HEIGHT : ℚ) / max perp (1 / 1000000))
  rw [← hl] at hfl
  have hS : (SCREEN_HEIGHT : ℚ) = 600 := by simp [SCREEN_HEIGHT]
  rw [hS] at hfl
  have hlt : (600 : ℚ) / max perp (1 / 1000000) < 2 * (y : ℚ) - 600 := lt_of_lt_of_le hfl hdq
  have hmul : (600 : ℚ) < (2 * (y : ℚ) - 600) * max perp (1 / 1000000) :=
    (div_lt_iff₀ hpos).mp hlt
  have hyq : (y : ℚ) < 600 := by exact_mod_cast h2
  have hone : 1 < max perp (1 / 1000000) := by
    by_contra hc
    push_neg at hc
    have hyq2 : (0 : ℚ) ≤ 2 * (y : ℚ) - 600 := by
      have : (301 : ℚ) ≤ (y : ℚ) := by exact_mod_cast hy
      linarith
    nlinarith
  have hperp : max perp (1 / 1000000) = perp := by
    rcases max_choice perp (1 / 1000000) with e | e
    · exact e
    · rw [e] at hone
      norm_num at hone
  rw [hperp] at hone hmul
  exact ⟨hy, hone, hmul⟩

/-- A convex combination with a weight strictly between `0` and `1` lies strictly between
its end points. -/
theorem currentFloor_between (weight floorWall pos : ℚ) (h0 : 0 < weight) (h1 : weight < 1) :
    (pos < floorWall →
      pos < currentFloor weight floorWall pos ∧ currentFloor weight floorWall pos < floorWall) ∧
    (floorWall < pos →
      floorWall < currentFloor weight floorWall pos ∧ currentFloor weight floorWall pos < pos) ∧
    (floorWall = pos → currentFloor weight floorWall pos = pos) := by
  unfold currentFloor
  refine ⟨fun h => ⟨?_, ?_⟩, fun h => ⟨?_, ?_⟩, fun h => ?_⟩
  · nlinarith
  · nlinarith
  · nlinarith
  · nlinarith
  · rw [h]
    ring

/-- Row distance and weight for a row below the wall slice computed from `perp`. -/
theorem floor_row_dist (perp : ℚ) (y : Int)
    (h1 : drawEndOf (lineHeightOf perp) + 1 ≤ y) (h2 : y < SCREEN_HEIGHT) :
    (2 : ℚ) ≤ 2 * (y : ℚ) - (SCREEN_HEIGHT : ℚ) ∧
    max (2 * (y : ℚ) - (SCREEN_HEIGHT : ℚ)) (1 / 1000000) = 2 * (y : ℚ) - (SCREEN_HEIGHT : ℚ) ∧
    0 < currentDist y ∧ currentDist y < perp ∧ perp - 0 ≠ 0 ∧
    0 < floorWeight perp y ∧ floorWeight perp y < 1 := by
  obtain ⟨hy, hone, hmul⟩ := floor_row_below_slice perp y h1 h2
  have hS : (SCREEN_HEIGHT : ℚ) = 600 := by simp [SCREEN_HEIGHT]
  have hyq : (301 : ℚ) ≤ (y : ℚ) := by exact_mod_cast hy
  have hden : (2 : ℚ) ≤ 2 * (y : ℚ) - 600 := by linarith
  have hmax : max (2 * (y : ℚ) - 600) (1 / 1000000) = 2 * (y : ℚ) - 600 :=
    max_eq_left (by linarith)
  have hdpos : (0 : ℚ) < 2 * (y : ℚ) - 600 := by linarith
  have hcd : currentDist y = 600 / (2 * (y : ℚ) - 600) := by
    unfold currentDist
    rw [hS, hmax]
  have hcpos : 0 < currentDist y := by
    rw [hcd]
    exact div_pos (by norm_num) hdpos
  have hclt : currentDist y < perp := by
    rw [hcd]
    exact (div_lt_iff₀' hdpos).mpr hmul
  have hp : (0 : ℚ) < perp := by linarith
  rw [hS]
  refine ⟨hden, hmax, hcpos, hclt, ?_, ?_, ?_⟩
  · rw [sub_zero]
    exact hp.ne'
  · unfold floorWeight
    rw [sub_zero, sub_zero]
    exact div_pos hcpos hp
  · unfold floorWeight
    rw [sub_zero, sub_zero]
    exact (div_lt_one hp).mpr hclt

/-- Exact arithmetic only (the quotients of `lineHeight`, `currentDist` and `weight` not
rounded; the binary64 section has the bounds that hold of the rounded quotients). In the
textured `render_frame`, for every camera pose, every column `x` and
every row `y` visited by the floor loop (`drawEnd + 1 ≤ y < SCREEN_HEIGHT`, the loop
starting at `floorStart = drawEnd + 1`): the denominator `2y - SCREEN_HEIGHT` is `≥ 2`, so
`fmax(denom, 1e-6)` is the denominator itself; the row distance satisfies
`0 < currentDist < perpWallDist`; the divisor `distWall - distPlayer` is not zero and the
weight lies strictly between `0` and `1`; and each coordinate of the sampled floor point
lies strictly between that of the camera position and that of the wall-hit floor point
(and equals them where the two coincide). -/
theorem floor_weight_strictly_inside (c : Camera) (x y : Int)
    (h1 : drawEnd c x + 1 ≤ y) (h2 : y < SCREEN_HEIGHT) :
    floorStartOf (drawEnd c x) = drawEnd c x + 1 ∧
    (2 : ℚ) ≤ 2 * (y : ℚ) - (SCREEN_HEIGHT : ℚ) ∧
    max (2 * (y : ℚ) - (SCREEN_HEIGHT : ℚ)) (1 / 1000000) = 2 * (y : ℚ) - (SCREEN_HEIGHT : ℚ) ∧
    0 < currentDist y ∧ currentDist y < perpWallDist c x ∧
    perpWallDist c x - 0 ≠ 0 ∧
    0 < floorWeight (perpWallDist c x) y ∧ floorWeight (perpWallDist c x) y < 1 ∧
    (∀ floorWall pos : ℚ,
      (pos < floorWall →
        pos < currentFloor (floorWeight (perpWallDist c x) y) floorWall pos ∧
        currentFloor (floorWeight (perpWallDist c x) y) floorWall pos < floorWall) ∧
      (floorWall < pos →
        floorWall < currentFloor (floorWeight (perpWallDist c x) y) floorWall pos ∧
        currentFloor (floorWeight (perpWallDist c x) y) floorWall pos < pos) ∧
      (floorWall = pos →
        currentFloor (floorWeight (perpWallDist c x) y) floorWall pos = pos)) := by
  obtain ⟨hden, hmax, hcpos, hclt, hne, hw0, hw1⟩ := floor_row_dist (perpWallDist c x) y h1 h2
  exact ⟨(column_bounds_facts c x).2.2.2.2.2.1, hden, hmax, hcpos, hclt, hne, hw0, hw1,
    fun floorWall pos => currentFloor_between _ floorWall pos hw0 hw1⟩

theorem floor_weight_strictly_inside_witness :
    drawEnd corridorCamera 400 + 1 ≤ 341 ∧ (341 : Int) < SCREEN_HEIGHT ∧
    0 < currentDist 341 ∧ currentDist 341 < perpWallDist corridorCamera 400 ∧
    0 < floorWeight (perpWallDist corridorCamera 400) 341 ∧
    floorWeight (perpWallDist corridorCamera 400) 341 < 1 :=
  ⟨by decide!, by decide,
    (floor_weight_strictly_inside corridorCamera 400 341 (by decide!) (by decide)).2.2.2.1,
    (floor_weight_strictly_inside corridorCamera 400 341 (by decide!) (by decide)).2.2.2.2.1,
    (floor_weight_strictly_inside corridorCamera 400 341 (by decide!) (by decide)).2.2.2.2.2.2.1,
    (floor_weight_strictly_inside corridorCamera 400 341 (by decide!) (by decide)).2.2.2.2.2.2.2.1⟩

/-! ## Binary64: rounding -/

namespace Binary64

theorem pow2_eq (e : Int) : pow2 e = (2 : ℚ) ^ e := by
  unfold pow2
  split
  · rename_i h
    obtain ⟨n, rfl⟩ := Int.eq_ofNat_of_zero_le h
    simp
  · rename_i h
    obtain ⟨n, hn⟩ := Int.exists_eq_neg_ofNat (le_of_lt (not_le.mp h))
    subst hn
    simp

theorem pow2_pos (e : Int) : 0 < pow2 e := by
  rw [pow2_eq]
  positivity

theorem log2Fuel_spec : ∀ (fuel n : Nat), n ≤ fuel → 0 < n →
    2 ^ log2Fuel fuel n ≤ n ∧ n < 2 ^ (log2Fuel fuel n + 1) := by
  intro fuel
  induction fuel with
  | zero => intro n h1 h2; omega
  | succ f ih =>
    intro n h1 h2
    rw [log2Fuel]
    split
    · rename_i h
      have : n = 1 := by omega
      subst this
      simp
    · rename_i h
      have hn : 2 ≤ n := by omega
      obtain ⟨a, b⟩ := ih (n / 2) (by omega) (by omega)
      constructor
      · rw [pow_succ]
        omega
      · rw [pow_succ]
        omega

theorem binade_spec (q : ℚ) (hq : q ≠ 0) :
    (2 : ℚ) ^ binade q ≤ |q| ∧ |q| < (2 : ℚ) ^ (binade q + 1) := by
  have hnum : 0 < q.num.natAbs := Int.natAbs_pos.mpr (Rat.num_ne_zero.mpr hq)
  have hden : 0 < q.den := q.den_pos
  obtain ⟨a1, a2⟩ := log2Fuel_spec _ _ (le_refl _) hnum
  obtain ⟨b1, b2⟩ := log2Fuel_spec _ _ (le_refl _) hden
  set a := log2Fuel q.num.natAbs q.num.natAbs with ha
  set b := log2Fuel q.den q.den with hb
  have habs : |q| = (q.num.natAbs : ℚ) / (q.den : ℚ) := by
    conv_lhs => rw [← Rat.num_div_den q]
    rw [abs_div, Nat.cast_natAbs, Int.cast_abs, abs_of_pos (by exact_mod_cast hden : (0 : ℚ) < (q.den : ℚ))]
  have hdq : (0 : ℚ) < (q.den : ℚ) := by exact_mod_cast hden
  have a1q : (2 : ℚ) ^ a ≤ (q.num.natAbs : ℚ) := by exact_mod_cast a1
  have a2q : (q.num.natAbs : ℚ) < (2 : ℚ) ^ (a + 1) := by exact_mod_cast a2
  have b1q : (2 : ℚ) ^ b ≤ (q.den : ℚ) := by exact_mod_cast b1
  have b2q : (q.den : ℚ) < (2 : ℚ) ^ (b + 1) := by exact_mod_cast b2
  have hpa : (0 : ℚ) < (2 : ℚ) ^ a := by positivity
  have hpb : (0 : ℚ) < (2 : ℚ) ^ b := by positivity
  -- bounds on |q|
  have lo : (2 : ℚ) ^ ((a : Int) - (b : Int) - 1) < |q| := by
    rw [habs, lt_div_iff₀ hdq]
    have e : (2 : ℚ) ^ ((a : Int) - (b : Int) - 1) * (2 : ℚ) ^ (b + 1) = (2 : ℚ) ^ a := by
      rw [← zpow_natCast (2 : ℚ) (b + 1), ← zpow_add₀ (by norm_num : (2 : ℚ) ≠ 0),
        ← zpow_natCast (2 : ℚ) a]
      congr 1
      push_cast
      ring
    have hp : (0 : ℚ) < (2 : ℚ) ^ ((a : Int) - (b : Int) - 1) := by positivity
    calc (2 : ℚ) ^ ((a : Int) - (b : Int) - 1) * (q.den : ℚ)
        < (2 : ℚ) ^ ((a : Int) - (b : Int) - 1) * (2 : ℚ) ^ (b + 1) :=
          mul_lt_mul_of_pos_left b2q hp
      _ = (2 : ℚ) ^ a := e
      _ ≤ _ := a1q
  have hi : |q| < (2 : ℚ) ^ ((a : Int) - (b : Int) + 1) := by
    rw [habs, div_lt_iff₀ hdq]
    have e : (2 : ℚ) ^ ((a : Int) - (b : Int) + 1) * (2 : ℚ) ^ b = (2 : ℚ) ^ (a + 1) := by
      rw [← zpow_natCast (2 : ℚ) b, ← zpow_add₀ (by norm_num : (2 : ℚ) ≠ 0),
        ← zpow_natCast (2 : ℚ) (a + 1)]
      congr 1
      push_cast
      ring
    have hp : (0 : ℚ) < (2 : ℚ) ^ ((a : Int) - (b : Int) + 1) := by positivity
    calc (q.num.natAbs : ℚ) < (2 : ℚ) ^ (a + 1) := a2q
      _ = (2 : ℚ) ^ ((a : Int) - (b : Int) + 1) * (2 : ℚ) ^ b := e.symm
      _ ≤ (2 : ℚ) ^ ((a : Int) - (b : Int) + 1) * (q.den : ℚ) :=
          mul_le_mul_of_nonneg_left b1q hp.le
  unfold binade
  rw [← ha, ← hb, pow2_eq]
  split
  · rename_i h
    exact ⟨h, hi⟩
  · rename_i h
    refine ⟨lo.le, ?_⟩
    have : (a : Int) - (b : Int) - 1 + 1 = (a : Int) - (b : Int) := by ring
    rw [this]
    exact not_le.mp h

/-! ### Rounding to the nearest integer -/

theorem roundEven_intCast (n : Int) : roundEven (n : ℚ) = n := by
  unfold roundEven
  rw [Int.floor_intCast]
  simp

theorem roundEven_bounds (x : ℚ) : ⌊x⌋ ≤ roundEven x ∧ roundEven x ≤ ⌊x⌋ + 1 := by
  unfold roundEven
  split_ifs <;> omega

theorem roundEven_err (x : ℚ) : |(roundEven x : ℚ) - x| ≤ 1 / 2 := by
  have h1 := Int.floor_le x
  have h2 := Int.lt_floor_add_one x
  unfold roundEven
  rw [abs_le]
  split_ifs <;> push_cast <;> constructor <;> linarith

theorem roundEven_mono {x y : ℚ} (h : x ≤ y) : roundEven x ≤ roundEven y := by
  rcases lt_or_eq_of_le (Int.floor_le_floor h) with hlt | heq
  · have := (roundEven_bounds x).2
    have := (roundEven_bounds y).1
    omega
  · unfold roundEven
    rw [heq]
    split_ifs <;> first | omega | (exfalso; linarith)

theorem roundEven_ge_of_le {x : ℚ} {n : Int} (h : (n : ℚ) ≤ x) : n ≤ roundEven x := by
  have := roundEven_mono h
  rwa [roundEven_intCast] at this

theorem roundEven_le_of_le {x : ℚ} {n : Int} (h : x ≤ (n : ℚ)) : roundEven x ≤ n := by
  have := roundEven_mono h
  rwa [roundEven_intCast] at this

/-! ### Binades -/

theorem two_zpow_pos (e : Int) : (0 : ℚ) < (2 : ℚ) ^ e := by positivity

theorem binade_eq_of_bounds (q : ℚ) (e : Int) (h1 : (2 : ℚ) ^ e ≤ |q|)
    (h2 : |q| < (2 : ℚ) ^ (e + 1)) : binade q = e := by
  have hq : q ≠ 0 := by
    intro h0
    rw [h0, abs_zero] at h1
    exact absurd h1 (not_le.mpr (two_zpow_pos e))
  obtain ⟨b1, b2⟩ := binade_spec q hq
  have l1 : binade q < e + 1 :=
    (zpow_lt_zpow_iff_right₀ (by norm_num : (1 : ℚ) < 2)).mp (lt_of_le_of_lt b1 h2)
  have l2 : e < binade q + 1 :=
    (zpow_lt_zpow_iff_right₀ (by norm_num : (1 : ℚ) < 2)).mp (lt_of_le_of_lt h1 b2)
  omega

theorem binade_mono {x y : ℚ} (hx : 0 < x) (h : x ≤ y) : binade x ≤ binade y := by
  obtain ⟨a1, _⟩ := binade_spec x hx.ne'
  obtain ⟨_, b2⟩ := binade_spec y (lt_of_lt_of_le hx h).ne'
  rw [abs_of_pos hx] at a1
  rw [abs_of_pos (lt_of_lt_of_le hx h)] at b2
  have : binade x < binade y + 1 :=
    (zpow_lt_zpow_iff_right₀ (by norm_num : (1 : ℚ) < 2)).mp
      (lt_of_le_of_lt (le_trans a1 h) b2)
  omega

/-! ### Rounding to binary64 -/

theorem fl_zero : fl 0 = 0 := by
  unfold fl
  rw [zero_div, show roundEven 0 = 0 from roundEven_intCast 0]
  simp

/-- A multiple of its own unit in the last place is a binary64 number: rounding leaves it
unchanged. -/
theorem fl_of_multiple (q : ℚ) (k : Int) (h : q = (k : ℚ) * pow2 (ulpExp q)) : fl q = q := by
  unfold fl
  have hp := pow2_pos (ulpExp q)
  have : q / pow2 (ulpExp q) = (k : ℚ) := by
    rw [div_eq_iff hp.ne']
    exact h
  rw [this, roundEven_intCast]
  exact h.symm

theorem ulpExp_eq (q : ℚ) : pow2 (ulpExp q) = (2 : ℚ) ^ (max (binade q) (-1022) - 52) := by
  rw [pow2_eq]
  rfl

theorem zpow_split_53 (e : Int) :
    (2 : ℚ) ^ (e + 1) = 9007199254740992 * (2 : ℚ) ^ (e - 52) := by
  have h : (9007199254740992 : ℚ) = (2 : ℚ) ^ (53 : Int) := by norm_num
  rw [h, ← zpow_add₀ (by norm_num : (2 : ℚ) ≠ 0)]
  congr 1
  ring

theorem zpow_split_52 (e : Int) :
    (2 : ℚ) ^ e = 4503599627370496 * (2 : ℚ) ^ (e - 52) := by
  have h : (4503599627370496 : ℚ) = (2 : ℚ) ^ (52 : Int) := by norm_num
  rw [h, ← zpow_add₀ (by norm_num : (2 : ℚ) ≠ 0)]
  congr 1
  ring

/-- Bounds of the rounded value of a positive rational by the powers of two around it. -/
theorem fl_bounds {q : ℚ} (hq : 0 < q) :
    0 ≤ fl q ∧ fl q ≤ (2 : ℚ) ^ (max (binade q) (-1022) + 1) ∧
    (-1022 ≤ binade q → (2 : ℚ) ^ binade q ≤ fl q) := by
  obtain ⟨b1, b2⟩ := binade_spec q hq.ne'
  rw [abs_of_pos hq] at b1 b2
  have hu : (0 : ℚ) < (2 : ℚ) ^ (max (binade q) (-1022) - 52) := two_zpow_pos _
  unfold fl
  rw [ulpExp_eq]
  refine ⟨?_, ?_, ?_⟩
  · apply mul_nonneg _ hu.le
    have : (0 : Int) ≤ roundEven (q / (2 : ℚ) ^ (max (binade q) (-1022) - 52)) :=
      roundEven_ge_of_le (by push_cast; exact (div_pos hq hu).le)
    exact_mod_cast this
  · have hlt : q ≤ (2 : ℚ) ^ (max (binade q) (-1022) + 1) :=
      le_trans b2.le (zpow_le_zpow_right₀ (by norm_num) (by omega))
    have hk : roundEven (q / (2 : ℚ) ^ (max (binade q) (-1022) - 52)) ≤ 9007199254740992 := by
      apply roundEven_le_of_le
      rw [div_le_iff₀ hu]
      push_cast
      rw [← zpow_split_53]
      exact hlt
    rw [zpow_split_53]
    exact mul_le_mul_of_nonneg_right (by exact_mod_cast hk) hu.le
  · intro hn
    rw [max_eq_left hn]
    have hu' : (0 : ℚ) < (2 : ℚ) ^ (binade q - 52) := two_zpow_pos _
    have hk : 4503599627370496 ≤ roundEven (q / (2 : ℚ) ^ (binade q - 52)) := by
      apply roundEven_ge_of_le
      rw [le_div_iff₀ hu']
      push_cast
      rw [← zpow_split_52]
      exact b1
    conv_lhs => rw [zpow_split_52]
    exact mul_le_mul_of_nonneg_right (by exact_mod_cast hk) hu'.le

/-- Rounding is monotone on the positive rationals. -/
theorem fl_mono_pos {x y : ℚ} (hx : 0 < x) (h : x ≤ y) : fl x ≤ fl y := by
  have hy : 0 < y := lt_of_lt_of_le hx h
  have hb := binade_mono hx h
  rcases lt_or_eq_of_le (max_le_max hb (le_refl (-1022 : Int))) with hlt | heq
  · have hny : -1022 ≤ binade y := by
      by_contra hc
      rw [max_eq_right (by omega : binade y ≤ -1022)] at hlt
      have := le_max_right (binade x) (-1022)
      omega
    have h1 := (fl_bounds hx).2.1
    have h2 := (fl_bounds hy).2.2 hny
    rw [max_eq_left hny] at hlt
    calc fl x ≤ (2 : ℚ) ^ (max (binade x) (-1022) + 1) := h1
      _ ≤ (2 : ℚ) ^ binade y := zpow_le_zpow_right₀ (by norm_num) (by omega)
      _ ≤ fl y := h2
  · unfold fl
    rw [ulpExp_eq, ulpExp_eq, heq]
    have hu : (0 : ℚ) < (2 : ℚ) ^ (max (binade y) (-1022) - 52) := two_zpow_pos _
    apply mul_le_mul_of_nonneg_right _ hu.le
    have : roundEven (x / (2 : ℚ) ^ (max (binade y) (-1022) - 52)) ≤
        roundEven (y / (2 : ℚ) ^ (max (binade y) (-1022) - 52)) :=
      roundEven_mono (div_le_div_of_nonneg_right h hu.le)
    exact_mod_cast this

/-- The integer significand chosen by the rounding of a positive rational. -/
theorem significand_bounds {q : ℚ} (hq : 0 < q) :
    0 ≤ roundEven (q / (2 : ℚ) ^ (max (binade q) (-1022) - 52)) ∧
    roundEven (q / (2 : ℚ) ^ (max (binade q) (-1022) - 52)) ≤ 9007199254740992 ∧
    (-1022 ≤ binade q →
      4503599627370496 ≤ roundEven (q / (2 : ℚ) ^ (max (binade q) (-1022) - 52))) := by
  obtain ⟨b1, b2⟩ := binade_spec q hq.ne'
  rw [abs_of_pos hq] at b1 b2
  have hu : (0 : ℚ) < (2 : ℚ) ^ (max (binade q) (-1022) - 52) := two_zpow_pos _
  refine ⟨roundEven_ge_of_le (by push_cast; exact (div_pos hq hu).le), ?_, ?_⟩
  · apply roundEven_le_of_le
    rw [div_le_iff₀ hu]
    push_cast
    rw [← zpow_split_53]
    exact le_trans b2.le (zpow_le_zpow_right₀ (by norm_num) (by omega))
  · intro hn
    apply roundEven_ge_of_le
    rw [le_div_iff₀ hu]
    push_cast
    rw [← zpow_split_52, max_eq_left hn]
    exact b1

theorem fl_eq_significand (q : ℚ) :
    fl q = (roundEven (q / (2 : ℚ) ^ (max (binade q) (-1022) - 52)) : ℚ) *
      (2 : ℚ) ^ (max (binade q) (-1022) - 52) := by
  unfold fl
  rw [ulpExp_eq]

/-- The rounded value of a positive rational is a binary64 number: rounding it again leaves
it unchanged. -/
theorem fl_fl {q : ℚ} (hq : 0 < q) : fl (fl q) = fl q := by
  obtain ⟨r0, r53, r52⟩ := significand_bounds hq
  have hE : -1022 ≤ max (binade q) (-1022) := le_max_right _ _
  have hu : (0 : ℚ) < (2 : ℚ) ^ (max (binade q) (-1022) - 52) := two_zpow_pos _
  have hv := fl_eq_significand q
  set E := max (binade q) (-1022) with hEdef
  set r := roundEven (q / (2 : ℚ) ^ (E - 52)) with hr
  rcases eq_or_lt_of_le r0 with h0 | hpos
  · rw [hv, ← h0]
    simp [fl_zero]
  have hrq : (0 : ℚ) < (r : ℚ) := by exact_mod_cast hpos
  have hvpos : 0 < fl q := by
    rw [hv]
    exact mul_pos hrq hu
  rcases eq_or_lt_of_le r53 with h53 | hlt
  · -- the significand overflowed to `2 ^ 53`: the value is the power `2 ^ (E + 1)`
    have hval : fl q = (2 : ℚ) ^ (E + 1) := by
      rw [hv, h53, zpow_split_53]
      norm_num
    have hb : binade (fl q) = E + 1 := by
      apply binade_eq_of_bounds
      · rw [abs_of_pos hvpos, hval]
      · rw [abs_of_pos hvpos, hval]
        exact zpow_lt_zpow_right₀ (by norm_num) (by omega)
    apply fl_of_multiple (fl q) 4503599627370496
    rw [ulpExp_eq, hb, max_eq_left (by omega), hval]
    have := zpow_split_52 (E + 1)
    push_cast
    exact this
  · have hvlt : fl q < (2 : ℚ) ^ (E + 1) := by
      rw [hv, zpow_split_53]
      exact mul_lt_mul_of_pos_right (by exact_mod_cast hlt) hu
    obtain ⟨c1, _⟩ := binade_spec (fl q) hvpos.ne'
    rw [abs_of_pos hvpos] at c1
    have hble : binade (fl q) ≤ E := by
      have : binade (fl q) < E + 1 :=
        (zpow_lt_zpow_iff_right₀ (by norm_num : (1 : ℚ) < 2)).mp (lt_of_le_of_lt c1 hvlt)
      omega
    have hmax : max (binade (fl q)) (-1022) = E := by
      rcases le_or_lt (binade q) (-1022) with hs | hn
      · have : E = -1022 := max_eq_right hs
        rw [this] at hble ⊢
        exact max_eq_right hble
      · have hEq : E = binade q := max_eq_left hn.le
        have h52 := r52 hn.le
        have hge : (2 : ℚ) ^ E ≤ fl q := by
          rw [hv]
          conv_lhs => rw [zpow_split_52]
          exact mul_le_mul_of_nonneg_right (by exact_mod_cast h52) hu.le
        obtain ⟨_, c2⟩ := binade_spec (fl q) hvpos.ne'
        rw [abs_of_pos hvpos] at c2
        have : E < binade (fl q) + 1 :=
          (zpow_lt_zpow_iff_right₀ (by norm_num : (1 : ℚ) < 2)).mp (lt_of_le_of_lt hge c2)
        rw [max_eq_left (by omega)]
        omega
    apply fl_of_multiple (fl q) r
    rw [ulpExp_eq, hmax]
    exact hv

/-- Integers from `1` to `2 ^ 53` are binary64 numbers. -/
theorem fl_intCast (n : Int) (h0 : 0 < n) (h : n ≤ 9007199254740992) : fl (n : ℚ) = n := by
  have hq : (0 : ℚ) < (n : ℚ) := by exact_mod_cast h0
  obtain ⟨b1, b2⟩ := binade_spec (n : ℚ) hq.ne'
  rw [abs_of_pos hq] at b1 b2
  have hb0 : 0 ≤ binade (n : ℚ) := by
    have h1 : (2 : ℚ) ^ (0 : Int) ≤ (n : ℚ) := by
      rw [zpow_zero]
      exact_mod_cast h0
    have : (0 : Int) < binade (n : ℚ) + 1 :=
      (zpow_lt_zpow_iff_right₀ (by norm_num : (1 : ℚ) < 2)).mp (lt_of_le_of_lt h1 b2)
    omega
  have hb53 : binade (n : ℚ) ≤ 53 := by
    have h1 : (n : ℚ) ≤ (2 : ℚ) ^ (53 : Int) := by
      have : (n : ℚ) ≤ 9007199254740992 := by exact_mod_cast h
      norm_num
      exact this
    exact (zpow_le_zpow_iff_right₀ (by norm_num : (1 : ℚ) < 2)).mp (le_trans b1 h1)
  rcases eq_or_lt_of_le hb53 with e53 | hlt
  · have hn : (n : ℚ) = (2 : ℚ) ^ (53 : Int) := by
      apply le_antisymm
      · have : (n : ℚ) ≤ 9007199254740992 := by exact_mod_cast h
        norm_num
        exact this
      · rw [← e53]
        exact b1
    apply fl_of_multiple (n : ℚ) 4503599627370496
    rw [ulpExp_eq, e53, hn]
    norm_num
  · obtain ⟨k, hk⟩ := Int.eq_ofNat_of_zero_le (show (0 : Int) ≤ 52 - binade (n : ℚ) by omega)
    apply fl_of_multiple (n : ℚ) (n * 2 ^ k)
    rw [ulpExp_eq, max_eq_left (by omega)]
    push_cast
    rw [mul_assoc, ← zpow_natCast (2 : ℚ) k, ← hk, ← zpow_add₀ (by norm_num : (2 : ℚ) ≠ 0)]
    have : (52 - binade (n : ℚ)) + (binade (n : ℚ) - 52) = 0 := by ring
    rw [this, zpow_zero, mul_one]

/-- Rounding error: half a unit in the last place, which is at most `2 ^ (-53)` times the
magnitude in the normal range and `2 ^ (-1075)` in the subnormal range. -/
theorem fl_err (q : ℚ) :
    |fl q - q| ≤ (2 : ℚ) ^ (-53 : Int) * |q| + (2 : ℚ) ^ (-1075 : Int) := by
  rcases eq_or_ne q 0 with h0 | hq
  · rw [h0, fl_zero]
    simp
    positivity
  obtain ⟨b1, _⟩ := binade_spec q hq
  have hu : (0 : ℚ) < (2 : ℚ) ^ (max (binade q) (-1022) - 52) := two_zpow_pos _
  have herr := roundEven_err (q / (2 : ℚ) ^ (max (binade q) (-1022) - 52))
  have e1 : fl q - q = ((roundEven (q / (2 : ℚ) ^ (max (binade q) (-1022) - 52)) : ℚ) -
      q / (2 : ℚ) ^ (max (binade q) (-1022) - 52)) * (2 : ℚ) ^ (max (binade q) (-1022) - 52) := by
    rw [fl_eq_significand, sub_mul, div_mul_cancel₀ _ hu.ne']
  have h1 : |fl q - q| ≤ 1 / 2 * (2 : ℚ) ^ (max (binade q) (-1022) - 52) := by
    rw [e1, abs_mul, abs_of_pos hu]
    exact mul_le_mul_of_nonneg_right herr hu.le
  have hhalf : ∀ e : Int, 1 / 2 * (2 : ℚ) ^ (e - 52) = (2 : ℚ) ^ (e - 53) := by
    intro e
    have : (1 / 2 : ℚ) = (2 : ℚ) ^ (-1 : Int) := by norm_num
    rw [this, ← zpow_add₀ (by norm_num : (2 : ℚ) ≠ 0)]
    congr 1
    ring
  rw [hhalf] at h1
  have hq0 : 0 ≤ (2 : ℚ) ^ (-53 : Int) * |q| := by positivity
  have hs0 : (0 : ℚ) ≤ (2 : ℚ) ^ (-1075 : Int) := by positivity
  rcases le_or_lt (binade q) (-1022) with hs | hn
  · rw [max_eq_right hs] at h1
    have : (-1022 : Int) - 53 = -1075 := by norm_num
    rw [this] at h1
    linarith
  · rw [max_eq_left hn.le] at h1
    have : (2 : ℚ) ^ (binade q - 53) = (2 : ℚ) ^ (-53 : Int) * (2 : ℚ) ^ binade q := by
      rw [← zpow_add₀ (by norm_num : (2 : ℚ) ≠ 0)]
      congr 1
      ring
    rw [this] at h1
    have : (2 : ℚ) ^ (-53 : Int) * (2 : ℚ) ^ binade q ≤ (2 : ℚ) ^ (-53 : Int) * |q| :=
      mul_le_mul_of_nonneg_left b1 (by positivity)
    linarith

/-! ## Binary64: the DDA loop -/

theorem stepDir64_cases (r : Dbl) : stepDir r = 1 ∨ stepDir r = -1 := by
  unfold stepDir
  split <;> simp

/-- On the cell, `side` and `hit`, the loop body acts as the body of the exact model with
the axis chosen by the binary64 comparison. -/
theorem cells_dda_body (dX dY : Dbl) (sX sY : Int) (s : Dda64) :
    cells (dda_body dX dY sX sY s) =
      dda_advance 0 0 sX sY (Dbl.lt s.sideDistX s.sideDistY) (cells s) := by
  unfold dda_body dda_advance cells
  cases Dbl.lt s.sideDistX s.sideDistY <;>
    simp only [Bool.false_eq_true, if_false, if_true] <;> split <;> try split
  all_goals simp

theorem cells_iterate (dX dY : Dbl) (sX sY : Int) (s : Dda64) (n : Nat) :
    cells ((dda_body dX dY sX sY)^[n] s) =
      dda_trace 0 0 sX sY
        (fun k => Dbl.lt ((dda_body dX dY sX sY)^[k] s).sideDistX
          ((dda_body dX dY sX sY)^[k] s).sideDistY) n (cells s) := by
  induction n with
  | zero => rfl
  | succ k ih =>
    rw [Function.iterate_succ_apply', cells_dda_body, dda_trace, ih]

theorem dda_while64_eq_iterate (dX dY : Dbl) (sX sY : Int) (n : Nat) :
    ∀ (fuel : Nat) (s : Dda64), n ≤ fuel →
      (∀ m, m < n → ((dda_body dX dY sX sY)^[m] s).hit = 0) →
      ((dda_body dX dY sX sY)^[n] s).hit ≠ 0 →
      dda_while dX dY sX sY fuel s = (dda_body dX dY sX sY)^[n] s := by
  induction n with
  | zero =>
    intro fuel s _ _ hn
    cases fuel with
    | zero => rfl
    | succ f =>
      rw [dda_while, if_neg]
      · rfl
      · exact hn
  | succ k ih =>
    intro fuel s hle hlt hn
    cases fuel with
    | zero => omega
    | succ f =>
      have h0 : s.hit = 0 := hlt 0 (Nat.succ_pos k)
      rw [dda_while, if_pos h0, Function.iterate_succ_apply]
      apply ih f _ (by omega)
      · intro m hm
        have := hlt (m + 1) (by omega)
        rwa [Function.iterate_succ_apply] at this
      · rwa [Function.iterate_succ_apply] at hn

/-- In binary64 too, the walk of column `x` sets the flag at some iteration `n` between `1`
and `20`, and the loop of `dda_cast` returns the state of that iteration, whatever the
camera. -/
theorem dda_cast_hit (c : Camera64) (x : Int) :
    ∃ n : Nat, 1 ≤ n ∧ n ≤ 20 ∧
      dda_cast c x =
        (dda_body (deltaDist (rayDirX c x)) (deltaDist (rayDirY c x)) (stepDir (rayDirX c x))
          (stepDir (rayDirY c x)))^[n] (dda_init c x) ∧
      (dda_cast c x).hit = 1 ∧
      ∀ m, m < n →
        ((dda_body (deltaDist (rayDirX c x)) (deltaDist (rayDirY c x)) (stepDir (rayDirX c x))
          (stepDir (rayDirY c x)))^[m] (dda_init c x)).hit = 0 := by
  obtain ⟨n, h1, h20, hn, hmin⟩ :=
    dda_trace_first_hit 0 0 (stepDir (rayDirX c x)) (stepDir (rayDirY c x))
      (fun k => Dbl.lt ((dda_body (deltaDist (rayDirX c x)) (deltaDist (rayDirY c x))
          (stepDir (rayDirX c x)) (stepDir (rayDirY c x)))^[k] (dda_init c x)).sideDistX
        ((dda_body (deltaDist (rayDirX c x)) (deltaDist (rayDirY c x))
          (stepDir (rayDirX c x)) (stepDir (rayDirY c x)))^[k] (dda_init c x)).sideDistY)
      (cells (dda_init c x)) rfl (stepDir64_cases _) (stepDir64_cases _)
  have e := fun k => cells_iterate (deltaDist (rayDirX c x)) (deltaDist (rayDirY c x))
    (stepDir (rayDirX c x)) (stepDir (rayDirY c x)) (dda_init c x) k
  have hn' : ((dda_body (deltaDist (rayDirX c x)) (deltaDist (rayDirY c x))
      (stepDir (rayDirX c x)) (stepDir (rayDirY c x)))^[n] (dda_init c x)).hit = 1 := by
    have := hn
    rw [← e n] at this
    exact this
  have hmin' : ∀ m, m < n → ((dda_body (deltaDist (rayDirX c x)) (deltaDist (rayDirY c x))
      (stepDir (rayDirX c x)) (stepDir (rayDirY c x)))^[m] (dda_init c x)).hit = 0 := by
    intro m hm
    have := hmin m hm
    rw [← e m] at this
    exact this
  have hw : dda_cast c x = (dda_body (deltaDist (rayDirX c x)) (deltaDist (rayDirY c x))
      (stepDir (rayDirX c x)) (stepDir (rayDirY c x)))^[n] (dda_init c x) :=
    dda_while64_eq_iterate _ _ _ _ n 20 (dda_init c x) h20 hmin' (by rw [hn']; decide)
  exact ⟨n, h1, h20, hw, hw ▸ hn', hmin'⟩

/-! ## Binary64: the code at the inputs where rounding or a signed zero decides -/

/-- Claim C7, the code at a failing input. For `edgeCamera` (position `(1.0, -2^-60)`),
column `400` hits the tile `1` wall at cell `(2, 0)` on `side = 0` with `rayDirX = 1 > 0` and
`perpWallDist = 1`; the hit coordinate is `-2^-60`, its `floor` is `-1`, and
`wallX -= floor(wallX)` rounds `1 - 2^-60` to `1.0`; with a texture 64 wide and high,
`(int)(wallX * 64)` is `64`, the mirror makes `texX = -1`, and the first row of the slice
reads `tex->pixels[0 * 64 + -1]`. -/
theorem wall_texX_out_of_range :
    (dda_cast edgeCamera 400).hit = 1 ∧
    (dda_cast edgeCamera 400).mapX = 2 ∧ (dda_cast edgeCamera 400).mapY = 0 ∧
    tile edgeCamera 400 = 1 ∧ (dda_cast edgeCamera 400).side = 0 ∧
    rayDirX edgeCamera 400 = Dbl.fin 1 ∧ perpWallDist edgeCamera 400 = Dbl.fin 1 ∧
    wallX edgeCamera 400 = Dbl.fin 1 ∧
    Dbl.toInt (Dbl.mul (wallX edgeCamera 400) (Dbl.ofInt 64)) = 64 ∧
    wallTexX 64 (dda_cast edgeCamera 400).side (rayDirX edgeCamera 400) (rayDirY edgeCamera 400)
      (wallX edgeCamera 400) = -1 ∧
    wallTexY 64 (texPosInit (drawStart edgeCamera 400) (lineHeight edgeCamera 400)
        (texStep 64 (lineHeight edgeCamera 400))) * 64 +
      wallTexX 64 (dda_cast edgeCamera 400).side (rayDirX edgeCamera 400)
        (rayDirY edgeCamera 400) (wallX edgeCamera 400) = -1 := by
  refine ⟨by decide!, by decide!, by decide!, by decide!, by decide!, by decide!, by decide!,
    by decide!, by decide!, by decide!, by decide!⟩

/-! ## Binary64: row distance and weight of the floor loop -/

theorem fl_nonpos {q : ℚ} (h : q ≤ 0) : fl q ≤ 0 := by
  rw [fl_eq_significand]
  have hu : (0 : ℚ) < (2 : ℚ) ^ (max (binade q) (-1022) - 52) := two_zpow_pos _
  have : roundEven (q / (2 : ℚ) ^ (max (binade q) (-1022) - 52)) ≤ 0 :=
    roundEven_le_of_le (by push_cast; exact div_nonpos_of_nonpos_of_nonneg h hu.le)
  exact mul_nonpos_of_nonpos_of_nonneg (by exact_mod_cast this) hu.le

theorem pow2_1024_gt : (9007199254740992 : ℚ) < pow2 1024 := by
  rw [pow2_eq]
  have h : (9007199254740992 : ℚ) = (2 : ℚ) ^ (53 : Int) := by norm_num
  rw [h]
  exact zpow_lt_zpow_right₀ (by norm_num) (by norm_num)

/-- An exact result between two positive integers not above `2 ^ 53` rounds to a finite
double between them. -/
theorem round_of_bounds {q : ℚ} {lo hi : Int} (hlo : 0 < lo) (hhi : hi ≤ 9007199254740992)
    (h1 : (lo : ℚ) ≤ q) (h2 : q ≤ (hi : ℚ)) :
    Dbl.round q = Dbl.fin (fl q) ∧ (lo : ℚ) ≤ fl q ∧ fl q ≤ (hi : ℚ) := by
  have hloq : (0 : ℚ) < (lo : ℚ) := by exact_mod_cast hlo
  have hq : 0 < q := lt_of_lt_of_le hloq h1
  have hhi0 : 0 < hi := by
    have : (lo : ℚ) ≤ (hi : ℚ) := le_trans h1 h2
    have : lo ≤ hi := by exact_mod_cast this
    omega
  have a1 : (lo : ℚ) ≤ fl q := by
    have := fl_mono_pos hloq h1
    rwa [fl_intCast lo hlo (by
      have : (lo : ℚ) ≤ (hi : ℚ) := le_trans h1 h2
      have : lo ≤ hi := by exact_mod_cast this
      omega)] at this
  have a2 : fl q ≤ (hi : ℚ) := by
    have := fl_mono_pos hq h2
    rwa [fl_intCast hi hhi0 hhi] at this
  refine ⟨?_, a1, a2⟩
  have hpos : 0 < fl q := lt_of_lt_of_le hloq a1
  unfold Dbl.round
  rw [if_neg, if_neg hpos.ne']
  rw [abs_of_pos hpos, not_le]
  have : (hi : ℚ) ≤ 9007199254740992 := by exact_mod_cast hhi
  linarith [pow2_1024_gt]

theorem round_intCast (n : Int) (h0 : 0 < n) (h : n ≤ 9007199254740992) :
    Dbl.round (n : ℚ) = Dbl.fin (n : ℚ) := by
  have := (round_of_bounds h0 h (le_refl _) (le_refl _)).1
  rwa [fl_intCast n h0 h] at this

theorem ofInt_pos (n : Int) (h0 : 0 < n) (h : n ≤ 9007199254740992) :
    Dbl.ofInt n = Dbl.fin (n : ℚ) := by
  unfold Dbl.ofInt Dbl.lit
  rw [if_neg (by exact_mod_cast h0.ne'), round_intCast n h0 h]

/-- The double nearest to `1e-6`. -/
theorem lit_eps : Dbl.lit (1 / 1000000) = Dbl.fin epsilon := by
  decide!

theorem fl_fl_of_round {q p : ℚ} (h : Dbl.round q = Dbl.fin p) (hp : 0 < p) :
    fl p = p ∧ p < pow2 1024 := by
  unfold Dbl.round at h
  split_ifs at h with h1 h2
  · unfold Dbl.inf at h
    split_ifs at h
  · unfold Dbl.zero at h
    split_ifs at h
    injection h with h
    linarith
  · injection h with h
    subst h
    have hq : 0 < q := by
      by_contra hc
      exact absurd (fl_nonpos (not_lt.mp hc)) (not_le.mpr hp)
    refine ⟨fl_fl hq, ?_⟩
    rw [abs_of_pos hp, not_le] at h1
    exact h1

/-- A positive finite quotient computed by the code is a binary64 number. -/
theorem div_fin_pos {a b : Dbl} {p : ℚ} (h : Dbl.div a b = Dbl.fin p) (hp : 0 < p) :
    fl p = p ∧ p < pow2 1024 := by
  unfold Dbl.div at h
  split_ifs at h
  · unfold Dbl.inf at h
    split_ifs at h
  · unfold Dbl.zero at h
    split_ifs at h
    injection h with h
    linarith
  · unfold Dbl.inf at h
    split_ifs at h
  · unfold Dbl.zero at h
    split_ifs at h
    injection h with h
    linarith
  · exact fl_fl_of_round h hp

theorem round_pos {q : ℚ} (hq : 0 < q) (h : fl q < pow2 1024) : Dbl.round q = Dbl.fin (fl q) := by
  have h0 := (fl_bounds hq).1
  unfold Dbl.round
  rw [if_neg (by rw [abs_of_nonneg h0]; exact not_le.mpr h)]
  split
  · rename_i hz
    unfold Dbl.zero
    rw [if_neg (by simpa using hq.le), hz]
  · rfl

theorem screen_height_lit : Dbl.ofInt SCREEN_HEIGHT = Dbl.fin 600 := by decide!

theorem fmax_fin_fin (a b : ℚ) :
    Dbl.fmax (Dbl.fin a) (Dbl.fin b) = if a < b then Dbl.fin b else Dbl.fin a := by
  simp [Dbl.fmax, Dbl.isNan, Dbl.lt, Dbl.toQ]

theorem div_fin_fin (a b : ℚ) (ha : a ≠ 0) (hb : b ≠ 0) :
    Dbl.div (Dbl.fin a) (Dbl.fin b) = Dbl.round (a / b) := by
  simp [Dbl.div, Dbl.isNan, Dbl.isInf, Dbl.toQ, ha, hb]

theorem sub_fin_zero (a : ℚ) (ha : a ≠ 0) :
    Dbl.sub (Dbl.fin a) (Dbl.lit 0) = Dbl.round a := by
  simp [Dbl.sub, Dbl.lit, Dbl.neg, Dbl.add, Dbl.isNan, Dbl.isInf, Dbl.toQ, ha]

/-- The slice height computed from any value of `perpWallDist`. -/
theorem lineHeightOf_cases (perp : Dbl) :
    lineHeightOf perp = 600000000 ∨ (perp = Dbl.posInf ∧ lineHeightOf perp = 0) ∨
    ∃ p, perp = Dbl.fin p ∧ epsilon ≤ p ∧ lineHeightOf perp = ⌊fl (600 / p)⌋ := by
  have hsmall : Dbl.toInt (Dbl.div (Dbl.fin 600) (Dbl.fin epsilon)) = 600000000 := by decide!
  unfold lineHeightOf
  rw [screen_height_lit, lit_eps]
  cases perp with
  | nan => left; simpa [Dbl.fmax, Dbl.isNan] using hsmall
  | negInf => left; simpa [Dbl.fmax, Dbl.isNan, Dbl.lt] using hsmall
  | negZero =>
    left
    have e : Dbl.fmax Dbl.negZero (Dbl.fin epsilon) = Dbl.fin epsilon := by decide!
    rw [e]
    exact hsmall
  | posInf =>
    right; left
    refine ⟨rfl, ?_⟩
    decide!
  | fin p =>
    rw [fmax_fin_fin]
    split
    · left; exact hsmall
    · rename_i hp
      right; right
      have hp : epsilon ≤ p := not_lt.mp hp
      have heps : (0 : ℚ) < epsilon := by unfold epsilon; norm_num
      have hp0 : 0 < p := lt_of_lt_of_le heps hp
      have hq : (0 : ℚ) < 600 / p := div_pos (by norm_num) hp0
      have hle : fl (600 / p) ≤ 600000000 := by
        have h1 : (600 : ℚ) / p ≤ 600 / epsilon :=
          div_le_div_of_nonneg_left (by norm_num) heps hp
        have h2 := fl_mono_pos hq h1
        have h3 : fl (600 / epsilon) = 600000000 := by decide!
        rwa [h3] at h2
      refine ⟨p, rfl, hp, ?_⟩
      rw [div_fin_fin _ _ (by norm_num) hp0.ne', round_pos hq (by linarith [pow2_1024_gt])]
      exact c_int_of_nonneg _ (fl_bounds hq).1

theorem mul_fin_fin (a b : ℚ) (h : a * b ≠ 0) :
    Dbl.mul (Dbl.fin a) (Dbl.fin b) = Dbl.round (a * b) := by
  unfold Dbl.mul
  simp only [Dbl.isNan, Dbl.isInf, Dbl.toQ, Bool.or_self, Bool.false_eq_true, if_false]
  rw [if_neg h]

theorem add_fin_fin (a b : ℚ) (h : a + b ≠ 0) :
    Dbl.add (Dbl.fin a) (Dbl.fin b) = Dbl.round (a + b) := by
  unfold Dbl.add
  simp only [Dbl.isNan, Dbl.isInf, Dbl.toQ, Bool.or_self, Bool.false_eq_true, if_false]
  rw [if_neg h]

theorem sub_fin_fin (a b : ℚ) (hb : b ≠ 0) (h : a - b ≠ 0) :
    Dbl.sub (Dbl.fin a) (Dbl.fin b) = Dbl.round (a - b) := by
  have hn : Dbl.neg (Dbl.fin b) = Dbl.fin (-b) := by
    simp only [Dbl.neg]
    rw [if_neg hb]
  unfold Dbl.sub
  rw [hn, add_fin_fin _ _ (by rwa [← sub_eq_add_neg]), sub_eq_add_neg]

/-- Denominator and row distance of a row of the lower half of the screen: the
denominator is the exact integer `2y - 600`, the clamp is idle, and the row distance is the
rounded quotient, between `1` and `300`. -/
theorem floor_row_currentDist (y : Int) (h1 : 301 ≤ y) (h2 : y < 600) :
    floorDenom y = Dbl.fin (2 * (y : ℚ) - 600) ∧
    Dbl.fmax (floorDenom y) (Dbl.lit (1 / 1000000)) = floorDenom y ∧
    currentDist y = Dbl.fin (fl (600 / (2 * (y : ℚ) - 600))) ∧
    1 ≤ fl (600 / (2 * (y : ℚ) - 600)) ∧ fl (600 / (2 * (y : ℚ) - 600)) ≤ 300 := by
  have hy1 : (301 : ℚ) ≤ (y : ℚ) := by exact_mod_cast h1
  have hy2 : (y : ℚ) ≤ 599 := by exact_mod_cast (by omega : y ≤ 599)
  have hd : floorDenom y = Dbl.fin (2 * (y : ℚ) - 600) := by
    unfold floorDenom
    have e2 : Dbl.lit 2 = Dbl.fin 2 := by decide!
    rw [screen_height_lit, ofInt_pos y (by omega) (by omega), e2,
      mul_fin_fin _ _ (by linarith)]
    have r1 := round_intCast (2 * y) (by omega) (by omega)
    push_cast at r1
    rw [r1, sub_fin_fin _ _ (by norm_num) (by linarith)]
    have r2 := round_intCast (2 * y - 600) (by omega) (by omega)
    push_cast at r2
    exact r2
  have heps : epsilon < 2 := by unfold epsilon; norm_num
  have hmax : Dbl.fmax (floorDenom y) (Dbl.lit (1 / 1000000)) = floorDenom y := by
    rw [hd, lit_eps, fmax_fin_fin, if_neg]
    linarith
  have hb := @round_of_bounds (600 / (2 * (y : ℚ) - 600)) 1 300
    (by norm_num) (by norm_num)
    (by rw [le_div_iff₀ (by linarith)]; push_cast; linarith)
    (by rw [div_le_iff₀ (by linarith)]; push_cast; linarith)
  refine ⟨hd, hmax, ?_, by simpa using hb.2.1, by simpa using hb.2.2⟩
  unfold currentDist
  rw [hmax, hd, screen_height_lit, div_fin_fin _ _ (by norm_num) (by linarith)]
  exact hb.1

theorem pow2_neg_1024 : fl (pow2 (-1024)) = pow2 (-1024) ∧ pow2 1024 * pow2 (-1024) = 1 := by
  constructor
  · apply fl_of_multiple (pow2 (-1024)) 1125899906842624
    decide!
  · rw [pow2_eq, pow2_eq, ← zpow_add₀ (by norm_num : (2 : ℚ) ≠ 0)]
    norm_num

/-- Row distance and weight of a row visited by the floor loop, for any value `perp` of
`perpWallDist` that is a binary64 number: the row is in the lower half of the screen, and
either `perp` is finite, above `1` and not below the row distance, the weight being a finite
double in `(0, 1]`, or `perp` is `+inf` and the weight is `0`. -/
theorem floor_row_weight (perp : Dbl)
    (hrep : ∀ p, perp = Dbl.fin p → 0 < p → fl p = p ∧ p < pow2 1024) (y : Int)
    (h1 : drawEndOf (lineHeightOf perp) + 1 ≤ y) (h2 : y < SCREEN_HEIGHT) :
    301 ≤ y ∧ 0 ≤ lineHeightOf perp ∧
    ((∃ p w, perp = Dbl.fin p ∧ 1 < p ∧ fl (600 / (2 * (y : ℚ) - 600)) ≤ p ∧
        floorWeight perp y = Dbl.fin w ∧ 0 < w ∧ w ≤ 1) ∨
      (perp = Dbl.posInf ∧ floorWeight perp y = Dbl.fin 0)) := by
  have h2 : y < 600 := h2
  rcases lineHeightOf_cases perp with h | ⟨hinf, h⟩ | ⟨p, hp, hpe, h⟩
  · exfalso
    rw [h] at h1
    have : drawEndOf 600000000 = 599 := by decide
    omega
  · have hde : drawEndOf 0 = 300 := by decide
    rw [h, hde] at h1
    have hy : 301 ≤ y := by omega
    refine ⟨hy, by omega, Or.inr ⟨hinf, ?_⟩⟩
    obtain ⟨_, _, hcd, hc1, hc300⟩ := floor_row_currentDist y hy h2
    have hcpos : 0 < fl (600 / (2 * (y : ℚ) - 600)) := by linarith
    unfold floorWeight
    rw [hcd, hinf, sub_fin_zero _ hcpos.ne', round_pos hcpos (by
      have hy1 : (301 : ℚ) ≤ (y : ℚ) := by exact_mod_cast hy
      rw [fl_fl (div_pos (by norm_num) (by linarith))]
      linarith [pow2_1024_gt])]
    have e : Dbl.sub Dbl.posInf (Dbl.lit 0) = Dbl.posInf := by decide!
    have hnn : ¬ fl (fl (600 / (2 * (y : ℚ) - 600))) < 0 := by
      rw [fl_fl (div_pos (by norm_num) (by
        have hy1 : (301 : ℚ) ≤ (y : ℚ) := by exact_mod_cast hy
        linarith))]
      exact not_lt.mpr hcpos.le
    rw [e]
    simp [Dbl.div, Dbl.isNan, Dbl.isInf, Dbl.isNeg, Dbl.zero, hnn]
  · have heps : (0 : ℚ) < epsilon := by unfold epsilon; norm_num
    have hp0 : 0 < p := lt_of_lt_of_le heps hpe
    have hq : (0 : ℚ) < 600 / p := div_pos (by norm_num) hp0
    have hfl0 : 0 ≤ fl (600 / p) := (fl_bounds hq).1
    have hh0 : 0 ≤ lineHeightOf perp := by
      rw [h]
      exact Int.floor_nonneg.mpr hfl0
    obtain ⟨_, e2⟩ := draw_bounds_eq _ hh0
    rw [e2] at h1
    have hk : lineHeightOf perp / 2 < 300 := by
      by_contra hc
      rw [if_pos (by omega)] at h1
      omega
    rw [if_neg (by omega)] at h1
    have hy : 301 ≤ y := by omega
    have hd : lineHeightOf perp + 1 ≤ 2 * y - 600 := by omega
    have hdq : ((lineHeightOf perp : ℚ)) + 1 ≤ 2 * (y : ℚ) - 600 := by exact_mod_cast hd
    have hy1 : (301 : ℚ) ≤ (y : ℚ) := by exact_mod_cast hy
    have hy2 : (y : ℚ) ≤ 599 := by exact_mod_cast (by omega : y ≤ 599)
    have hdpos : (0 : ℚ) < 2 * (y : ℚ) - 600 := by linarith
    have hlt : fl (600 / p) < 2 * (y : ℚ) - 600 := by
      have := Int.lt_floor_add_one (fl (600 / p))
      rw [← h] at this
      linarith
    -- the exact quotient is below the denominator too, the latter being a binary64 number
    have hex : 600 / p < 2 * (y : ℚ) - 600 := by
      by_contra hc
      have hm := fl_mono_pos hdpos (not_lt.mp hc)
      have hi := fl_intCast (2 * y - 600) (by omega) (by omega)
      push_cast at hi
      rw [hi] at hm
      linarith
    have hmul : 600 < (2 * (y : ℚ) - 600) * p := by
      rw [div_lt_iff₀ hp0] at hex
      exact hex
    have hp1 : 1 < p := by nlinarith
    obtain ⟨hpfl, hpmax⟩ := hrep p hp hp0
    have hcle : fl (600 / (2 * (y : ℚ) - 600)) ≤ p := by
      have hc : 600 / (2 * (y : ℚ) - 600) ≤ p := by
        rw [div_le_iff₀ hdpos]
        linarith
      have := fl_mono_pos (div_pos (by norm_num) hdpos) hc
      rwa [hpfl] at this
    obtain ⟨_, _, hcd, hc1, hc300⟩ := floor_row_currentDist y hy h2
    have hcpos : 0 < fl (600 / (2 * (y : ℚ) - 600)) := by linarith
    have hcfl : fl (fl (600 / (2 * (y : ℚ) - 600))) = fl (600 / (2 * (y : ℚ) - 600)) :=
      fl_fl (div_pos (by norm_num) hdpos)
    have hwpos : 0 < fl (600 / (2 * (y : ℚ) - 600)) / p := div_pos hcpos hp0
    have hwle : fl (600 / (2 * (y : ℚ) - 600)) / p ≤ 1 := (div_le_one hp0).mpr hcle
    have hw1 : fl (fl (600 / (2 * (y : ℚ) - 600)) / p) ≤ 1 := by
      have := fl_mono_pos hwpos hwle
      rwa [show fl 1 = 1 from fl_intCast 1 (by norm_num) (by norm_num)] at this
    have hw0 : 0 < fl (fl (600 / (2 * (y : ℚ) - 600)) / p) := by
      obtain ⟨t1, t2⟩ := pow2_neg_1024
      have hpp : 0 < pow2 (-1024) := pow2_pos _
      have hge : pow2 (-1024) ≤ fl (600 / (2 * (y : ℚ) - 600)) / p := by
        rw [le_div_iff₀ hp0]
        have : pow2 (-1024) * p ≤ pow2 (-1024) * pow2 1024 :=
          mul_le_mul_of_nonneg_left hpmax.le hpp.le
        rw [mul_comm (pow2 (-1024)) (pow2 1024), t2] at this
        linarith
      have := fl_mono_pos hpp hge
      rw [t1] at this
      linarith
    refine ⟨hy, hh0, Or.inl ⟨p, fl (fl (600 / (2 * (y : ℚ) - 600)) / p), hp, hp1, hcle, ?_,
      hw0, hw1⟩⟩
    unfold floorWeight
    rw [hcd, hp, sub_fin_zero _ hcpos.ne', sub_fin_zero _ hp0.ne',
      round_pos hcpos (by rw [hcfl]; linarith [pow2_1024_gt]),
      round_pos hp0 (by rw [hpfl]; exact hpmax), hcfl, hpfl,
      div_fin_fin _ _ hcpos.ne' hp0.ne', round_pos hwpos (by linarith [pow2_1024_gt])]

theorem perpWallDist_rep (c : Camera64) (x : Int) (p : ℚ)
    (h : perpWallDist c x = Dbl.fin p) (hp : 0 < p) : fl p = p ∧ p < pow2 1024 := by
  unfold perpWallDist perpWallDistOf at h
  split at h <;> exact div_fin_pos h hp

/-- Claim C11 as stated fails: for `tieCamera`, column `48` has `lineHeight = 203` and
`drawEnd = 401`; the floor loop visits row `402`, where `currentDist` is equal to
`perpWallDist` (both are the double `0x1.7878787878788p+1`), so that `currentDist <
perpWallDist` is false, the weight is exactly `1.0`, and the sampled floor point is the
wall-hit floor point itself. -/
theorem floor_weight_reaches_one :
    lineHeight tieCamera 48 = 203 ∧ drawEnd tieCamera 48 = 401 ∧
    floorStartOf (drawEnd tieCamera 48) ≤ 402 ∧ (402 : Int) < SCREEN_HEIGHT ∧
    perpWallDist tieCamera 48 = Dbl.fin (827867578560753 / 281474976710656) ∧
    currentDist 402 = perpWallDist tieCamera 48 ∧
    Dbl.lt (currentDist 402) (perpWallDist tieCamera 48) = false ∧
    floorWeight (perpWallDist tieCamera 48) 402 = Dbl.fin 1 ∧
    Dbl.lt (floorWeight (perpWallDist tieCamera 48) 402) (Dbl.lit 1) = false ∧
    currentFloor (floorWeight (perpWallDist tieCamera 48) 402)
        (floorXWallOf (dda_cast tieCamera 48).side (dda_cast tieCamera 48).mapX
          (rayDirX tieCamera 48) (rayDirY tieCamera 48) (wallX tieCamera 48)) tieCamera.posX =
      floorXWallOf (dda_cast tieCamera 48).side (dda_cast tieCamera 48).mapX
        (rayDirX tieCamera 48) (rayDirY tieCamera 48) (wallX tieCamera 48) ∧
    currentFloor (floorWeight (perpWallDist tieCamera 48) 402)
        (floorYWallOf (dda_cast tieCamera 48).side (dda_cast tieCamera 48).mapY
          (rayDirX tieCamera 48) (rayDirY tieCamera 48) (wallX tieCamera 48)) tieCamera.posY =
      floorYWallOf (dda_cast tieCamera 48).side (dda_cast tieCamera 48).mapY
        (rayDirX tieCamera 48) (rayDirY tieCamera 48) (wallX tieCamera 48) := by
  refine ⟨by decide!, by decide!, by decide!, by decide, by decide!, by decide!, by decide!,
    by decide!, by decide!, by decide!, by decide!⟩

/-- Claim C11, amended. In the textured `render_frame` evaluated in binary64, for every
camera pose, every column `x` and every row `y` visited by the floor loop
(`drawEnd + 1 ≤ y < SCREEN_HEIGHT`, the loop starting at `floorStart = drawEnd + 1`): the
denominator `2y - SCREEN_HEIGHT` is the exact integer, `≥ 2`, so `fmax(denom, 1e-6)` is the
denominator itself; the row distance is a finite double `> 0`; and either `perpWallDist` is
a finite double `> 1` with `currentDist ≤ perpWallDist`, the weight being a finite double with
`0 < weight ≤ 1` (no division by zero), or `perpWallDist` is `+inf` and the weight is `0`.
The bound `1` is reached: for `tieCamera`, column `48`, row `402`, the weight is `1.0` and
the sampled floor point is the wall-hit floor point. -/
theorem floor_weight_in_unit_interval :
    (∀ (c : Camera64) (x y : Int), drawEnd c x + 1 ≤ y → y < SCREEN_HEIGHT →
      floorStartOf (drawEnd c x) = drawEnd c x + 1 ∧
      floorDenom y = Dbl.fin (2 * (y : ℚ) - 600) ∧ (2 : ℚ) ≤ 2 * (y : ℚ) - 600 ∧
      Dbl.fmax (floorDenom y) (Dbl.lit (1 / 1000000)) = floorDenom y ∧
      ∃ cd, currentDist y = Dbl.fin cd ∧ 0 < cd ∧
        ((∃ p w, perpWallDist c x = Dbl.fin p ∧ 1 < p ∧ cd ≤ p ∧
            floorWeight (perpWallDist c x) y = Dbl.fin w ∧ 0 < w ∧ w ≤ 1) ∨
          (perpWallDist c x = Dbl.posInf ∧
            floorWeight (perpWallDist c x) y = Dbl.fin 0))) ∧
    (drawEnd tieCamera 48 + 1 ≤ 402 ∧ (402 : Int) < SCREEN_HEIGHT ∧
      floorWeight (perpWallDist tieCamera 48) 402 = Dbl.fin 1 ∧
      currentFloor (floorWeight (perpWallDist tieCamera 48) 402)
          (floorXWallOf (dda_cast tieCamera 48).side (dda_cast tieCamera 48).mapX
            (rayDirX tieCamera 48) (rayDirY tieCamera 48) (wallX tieCamera 48))
          tieCamera.posX =
        floorXWallOf (dda_cast tieCamera 48).side (dda_cast tieCamera 48).mapX
          (rayDirX tieCamera 48) (rayDirY tieCamera 48) (wallX tieCamera 48) ∧
      currentFloor (floorWeight (perpWallDist tieCamera 48) 402)
          (floorYWallOf (dda_cast tieCamera 48).side (dda_cast tieCamera 48).mapY
            (rayDirX tieCamera 48) (rayDirY tieCamera 48) (wallX tieCamera 48))
          tieCamera.posY =
        floorYWallOf (dda_cast tieCamera 48).side (dda_cast tieCamera 48).mapY
          (rayDirX tieCamera 48) (rayDirY tieCamera 48) (wallX tieCamera 48)) := by
  refine ⟨?_, by decide!, by decide, by decide!, by decide!, by decide!⟩
  intro c x y h1 h2
  obtain ⟨hy, hh0, hw⟩ := floor_row_weight (perpWallDist c x) (perpWallDist_rep c x) y h1 h2
  obtain ⟨hd, hmax, hcd, hc1, _⟩ := floor_row_currentDist y hy h2
  have hy1 : (301 : ℚ) ≤ (y : ℚ) := by exact_mod_cast hy
  refine ⟨(draw_bounds_facts _ hh0).2.2.2.2.2.1, hd, by linarith, hmax,
    fl (600 / (2 * (y : ℚ) - 600)), hcd, by linarith, ?_⟩
  rcases hw with ⟨p, w, e1, e2, e3, e4, e5, e6⟩ | ⟨e1, e2⟩
  · exact Or.inl ⟨p, w, e1, e2, e3, e4, e5, e6⟩
  · exact Or.inr ⟨e1, e2⟩

theorem floor_weight_in_unit_interval_witness :
    drawEnd tieCamera 48 + 1 ≤ 403 ∧ (403 : Int) < SCREEN_HEIGHT ∧
    floorDenom 403 = Dbl.fin (2 * ((403 : Int) : ℚ) - 600) ∧
    Dbl.fmax (floorDenom 403) (Dbl.lit (1 / 1000000)) = floorDenom 403 :=
  ⟨by decide!, by decide,
    (floor_weight_in_unit_interval.1 tieCamera 48 403 (by decide!) (by decide)).2.1,
    (floor_weight_in_unit_interval.1 tieCamera 48 403 (by decide!) (by decide)).2.2.2.1⟩

/-! ## Binary64: the rotation step -/

/-- The rounding error with the unit roundoff written as a numeral. -/
theorem fl_err_num (q : ℚ) :
    |fl q - q| ≤ |q| / 9007199254740992 + (2 : ℚ) ^ (-1075 : Int) := by
  have h := fl_err q
  have e : (2 : ℚ) ^ (-53 : Int) = 1 / 9007199254740992 := by norm_num
  rw [e] at h
  linarith

theorem pow2_facts :
    pow2 1024 = 2 * pow2 1023 ∧ pow2 1023 = 8388608 * pow2 1000 ∧ (1 : ℚ) ≤ pow2 1000 ∧
    (2 : ℚ) ^ (-1075 : Int) ≤ 1 ∧ (0 : ℚ) < (2 : ℚ) ^ (-1075 : Int) := by
  refine ⟨?_, ?_, ?_, ?_, by positivity⟩
  · rw [pow2_eq, pow2_eq, show (1024 : Int) = 1 + 1023 by norm_num,
      zpow_add₀ (by norm_num : (2 : ℚ) ≠ 0)]
    norm_num
  · rw [pow2_eq, pow2_eq, show (1023 : Int) = 23 + 1000 by norm_num,
      zpow_add₀ (by norm_num : (2 : ℚ) ≠ 0)]
    norm_num
  · rw [pow2_eq]
    exact one_le_zpow₀ (by norm_num) (by norm_num)
  · exact zpow_le_one_of_nonpos₀ (by norm_num) (by norm_num)

/-- An exact result of magnitude at most `2 ^ 1023` rounds to a finite double, whose value
is the rounded rational. -/
theorem round_val {q : ℚ} (h : |q| ≤ pow2 1023) :
    (Dbl.round q).isFinite = true ∧ (Dbl.round q).toQ = fl q := by
  obtain ⟨p1, p2, p3, p4, p5⟩ := pow2_facts
  have he := fl_err_num q
  have hb : |fl q| < pow2 1024 := by
    have h1 : |fl q| ≤ |q| + |fl q - q| := by
      have := abs_add q (fl q - q)
      rwa [add_sub_cancel] at this
    have hq0 := abs_nonneg q
    linarith
  unfold Dbl.round
  rw [if_neg (not_le.mpr hb)]
  split
  · rename_i hz
    rw [hz]
    unfold Dbl.zero
    split <;> exact ⟨rfl, rfl⟩
  · exact ⟨rfl, rfl⟩

theorem finite_cases {a : Dbl} (h : a.isFinite = true) : a.isNan = false ∧ a.isInf = false := by
  cases a <;> simp_all [Dbl.isFinite, Dbl.isNan, Dbl.isInf]

theorem zero_val (b : Bool) : (Dbl.zero b).isFinite = true ∧ (Dbl.zero b).toQ = 0 := by
  unfold Dbl.zero
  split <;> exact ⟨rfl, rfl⟩

theorem neg_val {a : Dbl} (h : a.isFinite = true) :
    (Dbl.neg a).isFinite = true ∧ (Dbl.neg a).toQ = -a.toQ := by
  cases a with
  | fin q =>
    simp only [Dbl.neg]
    split
    · rename_i hq
      simp [Dbl.isFinite, Dbl.toQ, hq]
    · simp [Dbl.isFinite, Dbl.toQ]
  | negZero => simp [Dbl.neg, Dbl.isFinite, Dbl.toQ]
  | posInf => simp [Dbl.isFinite] at h
  | negInf => simp [Dbl.isFinite] at h
  | nan => simp [Dbl.isFinite] at h

theorem mul_val {a b : Dbl} (ha : a.isFinite = true) (hb : b.isFinite = true)
    (h : |a.toQ * b.toQ| ≤ pow2 1023) :
    (Dbl.mul a b).isFinite = true ∧ (Dbl.mul a b).toQ = fl (a.toQ * b.toQ) := by
  obtain ⟨a1, a2⟩ := finite_cases ha
  obtain ⟨b1, b2⟩ := finite_cases hb
  unfold Dbl.mul
  simp only [a1, a2, b1, b2, Bool.or_self, Bool.false_eq_true, if_false]
  split
  · rename_i hz
    rw [hz, fl_zero]
    exact zero_val _
  · exact round_val h

theorem add_val {a b : Dbl} (ha : a.isFinite = true) (hb : b.isFinite = true)
    (h : |a.toQ + b.toQ| ≤ pow2 1023) :
    (Dbl.add a b).isFinite = true ∧ (Dbl.add a b).toQ = fl (a.toQ + b.toQ) := by
  obtain ⟨a1, a2⟩ := finite_cases ha
  obtain ⟨b1, b2⟩ := finite_cases hb
  unfold Dbl.add
  simp only [a1, a2, b1, b2, Bool.or_self, Bool.false_eq_true, if_false]
  split
  · rename_i hz
    rw [hz, fl_zero]
    exact zero_val _
  · exact round_val h

theorem sub_val {a b : Dbl} (ha : a.isFinite = true) (hb : b.isFinite = true)
    (h : |a.toQ - b.toQ| ≤ pow2 1023) :
    (Dbl.sub a b).isFinite = true ∧ (Dbl.sub a b).toQ = fl (a.toQ - b.toQ) := by
  obtain ⟨n1, n2⟩ := neg_val hb
  unfold Dbl.sub
  have := add_val ha n1 (by rw [n2, ← sub_eq_add_neg]; exact h)
  rw [n2, ← sub_eq_add_neg] at this
  exact this

theorem fl_abs_le (q : ℚ) : |fl q| ≤ 2 * |q| + 1 := by
  have p4 := pow2_facts.2.2.2.1
  have he := fl_err_num q
  have h1 : |fl q| ≤ |q| + |fl q - q| := by
    have := abs_add q (fl q - q)
    rwa [add_sub_cancel] at this
  have hq0 := abs_nonneg q
  linarith

/-- Error of a rounded sum of two rounded terms. -/
theorem fl_add_err (p q X Y : ℚ) (hp : |p| ≤ X) (hq : |q| ≤ Y) :
    |fl (fl p + fl q) - (p + q)| ≤
      3 * (X + Y) / 9007199254740992 + 4 * (2 : ℚ) ^ (-1075 : Int) := by
  have p5 := pow2_facts.2.2.2.2
  have A1 := fl_err_num p
  have A2 := fl_err_num q
  have A3 := fl_err_num (fl p + fl q)
  have T1 : |fl p + fl q| ≤ |p| + |q| + (|fl p - p| + |fl q - q|) := by
    have e : fl p + fl q = (p + q) + ((fl p - p) + (fl q - q)) := by ring
    rw [e]
    exact le_trans (abs_add _ _) (add_le_add (abs_add _ _) (abs_add _ _))
  have T2 : |fl (fl p + fl q) - (p + q)| ≤
      |fl (fl p + fl q) - (fl p + fl q)| + (|fl p - p| + |fl q - q|) := by
    have e : fl (fl p + fl q) - (p + q) =
        (fl (fl p + fl q) - (fl p + fl q)) + ((fl p - p) + (fl q - q)) := by ring
    rw [e]
    exact le_trans (abs_add _ _) (add_le_add (le_refl _) (abs_add _ _))
  have h0 := abs_nonneg p
  have h1 := abs_nonneg q
  linarith

/-- Error of a rounded difference of two rounded terms. -/
theorem fl_sub_err (p q X Y : ℚ) (hp : |p| ≤ X) (hq : |q| ≤ Y) :
    |fl (fl p - fl q) - (p - q)| ≤
      3 * (X + Y) / 9007199254740992 + 4 * (2 : ℚ) ^ (-1075 : Int) := by
  have p5 := pow2_facts.2.2.2.2
  have A1 := fl_err_num p
  have A2 := fl_err_num q
  have A3 := fl_err_num (fl p - fl q)
  have T1 : |fl p - fl q| ≤ |p| + |q| + (|fl p - p| + |fl q - q|) := by
    have e : fl p - fl q = (p + -q) + ((fl p - p) + -(fl q - q)) := by ring
    rw [e]
    refine le_trans (abs_add _ _) (add_le_add ?_ ?_)
    · have := abs_add p (-q)
      rwa [abs_neg] at this
    · have := abs_add (fl p - p) (-(fl q - q))
      rwa [abs_neg] at this
  have T2 : |fl (fl p - fl q) - (p - q)| ≤
      |fl (fl p - fl q) - (fl p - fl q)| + (|fl p - p| + |fl q - q|) := by
    have e : fl (fl p - fl q) - (p - q) =
        (fl (fl p - fl q) - (fl p - fl q)) + ((fl p - p) + -(fl q - q)) := by ring
    rw [e]
    refine le_trans (abs_add _ _) (add_le_add (le_refl _) ?_)
    have := abs_add (fl p - p) (-(fl q - q))
    rwa [abs_neg] at this
  have h0 := abs_nonneg p
  have h1 := abs_nonneg q
  linarith

theorem abs_mul_le_left (a b : ℚ) (hb : |b| ≤ 1) : |a * b| ≤ |a| := by
  rw [abs_mul]
  exact mul_le_of_le_one_right (abs_nonneg a) hb

/-- Rounded rotation by `(c, s)` followed by the rounded rotation by `(c, -s)`: each
component comes back within `(13 * 2^-53 + |c^2 + s^2 - 1|) * (|x| + |y|) + 13 * 2^-1075`. -/
theorem round_trip_err (c s x y : ℚ) (hc : |c| ≤ 1) (hs : |s| ≤ 1) :
    |fl (fl (fl (fl (x * c) - fl (y * s)) * c) - fl (fl (fl (x * s) + fl (y * c)) * -s)) - x| ≤
      (13 / 9007199254740992 + |c ^ 2 + s ^ 2 - 1|) * (|x| + |y|) +
        13 * (2 : ℚ) ^ (-1075 : Int) ∧
    |fl (fl (fl (fl (x * c) - fl (y * s)) * -s) + fl (fl (fl (x * s) + fl (y * c)) * c)) - y| ≤
      (13 / 9007199254740992 + |c ^ 2 + s ^ 2 - 1|) * (|x| + |y|) +
        13 * (2 : ℚ) ^ (-1075 : Int) := by
  have p5 := pow2_facts.2.2.2.2
  have hns : |-s| ≤ 1 := by rwa [abs_neg]
  have hx0 := abs_nonneg x
  have hy0 := abs_nonneg y
  have hd0 := abs_nonneg (c ^ 2 + s ^ 2 - 1)
  have E1 := fl_sub_err (x * c) (y * s) |x| |y| (abs_mul_le_left x c hc) (abs_mul_le_left y s hs)
  have E2 := fl_add_err (x * s) (y * c) |x| |y| (abs_mul_le_left x s hs) (abs_mul_le_left y c hc)
  set r1 := fl (fl (x * c) - fl (y * s)) with hr1
  set r2 := fl (fl (x * s) + fl (y * c)) with hr2
  have B1 : |x * c - y * s| ≤ |x| + |y| := by
    have := abs_add (x * c) (-(y * s))
    rw [abs_neg, ← sub_eq_add_neg] at this
    linarith [abs_mul_le_left x c hc, abs_mul_le_left y s hs]
  have B2 : |x * s + y * c| ≤ |x| + |y| := by
    have := abs_add (x * s) (y * c)
    linarith [abs_mul_le_left x s hs, abs_mul_le_left y c hc]
  have R1 : |r1| ≤ |x * c - y * s| + |r1 - (x * c - y * s)| := by
    have := abs_add (x * c - y * s) (r1 - (x * c - y * s))
    rwa [add_sub_cancel] at this
  have R2 : |r2| ≤ |x * s + y * c| + |r2 - (x * s + y * c)| := by
    have := abs_add (x * s + y * c) (r2 - (x * s + y * c))
    rwa [add_sub_cancel] at this
  have G1 := abs_mul_le_left (r1 - (x * c - y * s)) c hc
  have G2 := abs_mul_le_left (r2 - (x * s + y * c)) s hs
  have G3 := abs_mul_le_left (r1 - (x * c - y * s)) s hs
  have D1 : |x * (c ^ 2 + s ^ 2 - 1)| = |x| * |c ^ 2 + s ^ 2 - 1| := abs_mul _ _
  have D2 : |y * (c ^ 2 + s ^ 2 - 1)| = |y| * |c ^ 2 + s ^ 2 - 1| := abs_mul _ _
  have N1 : 0 ≤ |x| * |c ^ 2 + s ^ 2 - 1| := mul_nonneg hx0 hd0
  have N2 : 0 ≤ |y| * |c ^ 2 + s ^ 2 - 1| := mul_nonneg hy0 hd0
  constructor
  · have F := fl_sub_err (r1 * c) (r2 * -s) |r1| |r2| (abs_mul_le_left r1 c hc)
      (abs_mul_le_left r2 (-s) hns)
    have e : fl (fl (r1 * c) - fl (r2 * -s)) - x =
        (fl (fl (r1 * c) - fl (r2 * -s)) - (r1 * c - r2 * -s)) +
          (x * (c ^ 2 + s ^ 2 - 1) +
            ((r1 - (x * c - y * s)) * c + (r2 - (x * s + y * c)) * s)) := by ring
    have T : |fl (fl (r1 * c) - fl (r2 * -s)) - x| ≤
        |fl (fl (r1 * c) - fl (r2 * -s)) - (r1 * c - r2 * -s)| +
          (|x * (c ^ 2 + s ^ 2 - 1)| +
            (|(r1 - (x * c - y * s)) * c| + |(r2 - (x * s + y * c)) * s|)) := by
      rw [e]
      exact le_trans (abs_add _ _) (add_le_add (le_refl _)
        (le_trans (abs_add _ _) (add_le_add (le_refl _) (abs_add _ _))))
    rw [D1] at T
    linarith
  · have G4 := abs_mul_le_left (r2 - (x * s + y * c)) c hc
    have F := fl_add_err (r1 * -s) (r2 * c) |r1| |r2| (abs_mul_le_left r1 (-s) hns)
      (abs_mul_le_left r2 c hc)
    have e : fl (fl (r1 * -s) + fl (r2 * c)) - y =
        (fl (fl (r1 * -s) + fl (r2 * c)) - (r1 * -s + r2 * c)) +
          (y * (c ^ 2 + s ^ 2 - 1) +
            (-((r1 - (x * c - y * s)) * s) + (r2 - (x * s + y * c)) * c)) := by ring
    have T : |fl (fl (r1 * -s) + fl (r2 * c)) - y| ≤
        |fl (fl (r1 * -s) + fl (r2 * c)) - (r1 * -s + r2 * c)| +
          (|y * (c ^ 2 + s ^ 2 - 1)| +
            (|(r1 - (x * c - y * s)) * s| + |(r2 - (x * s + y * c)) * c|)) := by
      rw [e]
      refine le_trans (abs_add _ _) (add_le_add (le_refl _)
        (le_trans (abs_add _ _) (add_le_add (le_refl _) ?_)))
      have := abs_add (-((r1 - (x * c - y * s)) * s)) ((r2 - (x * s + y * c)) * c)
      rwa [abs_neg] at this
    rw [D2] at T
    linarith

theorem abs_sub_le_add (a b : ℚ) : |a - b| ≤ |a| + |b| := by
  have := abs_add a (-b)
  rwa [abs_neg, ← sub_eq_add_neg] at this

/-- One update of a finite vector by finite `cs`, `sn` of magnitude at most one does not
overflow when both components have magnitude at most `B` with `4 * B + 2 ≤ 2 ^ 1023`: the
new components are the rounded expressions of the code, of magnitude at most `8 * B + 5`. -/
theorem rotateVec_val {cs sn x y : Dbl} (hcs : cs.isFinite = true) (hsn : sn.isFinite = true)
    (hx : x.isFinite = true) (hy : y.isFinite = true) (hc : |cs.toQ| ≤ 1) (hs : |sn.toQ| ≤ 1)
    (B : ℚ) (hxB : |x.toQ| ≤ B) (hyB : |y.toQ| ≤ B) (hB : 4 * B + 2 ≤ pow2 1023) :
    (rotateVec cs sn (x, y)).1.isFinite = true ∧
    (rotateVec cs sn (x, y)).1.toQ = fl (fl (x.toQ * cs.toQ) - fl (y.toQ * sn.toQ)) ∧
    (rotateVec cs sn (x, y)).2.isFinite = true ∧
    (rotateVec cs sn (x, y)).2.toQ = fl (fl (x.toQ * sn.toQ) + fl (y.toQ * cs.toQ)) ∧
    |(rotateVec cs sn (x, y)).1.toQ| ≤ 8 * B + 5 ∧
    |(rotateVec cs sn (x, y)).2.toQ| ≤ 8 * B + 5 := by
  have hx0 := abs_nonneg x.toQ
  have hy0 := abs_nonneg y.toQ
  have q1 := abs_mul_le_left x.toQ cs.toQ hc
  have q2 := abs_mul_le_left y.toQ sn.toQ hs
  have q3 := abs_mul_le_left x.toQ sn.toQ hs
  have q4 := abs_mul_le_left y.toQ cs.toQ hc
  obtain ⟨f1, v1⟩ := mul_val hx hcs (by linarith)
  obtain ⟨f2, v2⟩ := mul_val hy hsn (by linarith)
  obtain ⟨f3, v3⟩ := mul_val hx hsn (by linarith)
  obtain ⟨f4, v4⟩ := mul_val hy hcs (by linarith)
  have b1 := fl_abs_le (x.toQ * cs.toQ)
  have b2 := fl_abs_le (y.toQ * sn.toQ)
  have b3 := fl_abs_le (x.toQ * sn.toQ)
  have b4 := fl_abs_le (y.toQ * cs.toQ)
  have d1 := abs_sub_le_add (fl (x.toQ * cs.toQ)) (fl (y.toQ * sn.toQ))
  have d2 := abs_add (fl (x.toQ * sn.toQ)) (fl (y.toQ * cs.toQ))
  obtain ⟨g1, w1⟩ := sub_val f1 f2 (by rw [v1, v2]; linarith)
  obtain ⟨g2, w2⟩ := add_val f3 f4 (by rw [v3, v4]; linarith)
  rw [v1, v2] at w1
  rw [v3, v4] at w2
  have e1 := fl_abs_le (fl (x.toQ * cs.toQ) - fl (y.toQ * sn.toQ))
  have e2 := fl_abs_le (fl (x.toQ * sn.toQ) + fl (y.toQ * cs.toQ))
  refine ⟨g1, w1, g2, w2, ?_, ?_⟩
  · show |(Dbl.sub (Dbl.mul x cs) (Dbl.mul y sn)).toQ| ≤ _
    rw [w1]
    linarith
  · show |(Dbl.add (Dbl.mul x sn) (Dbl.mul y cs)).toQ| ≤ _
    rw [w2]
    linarith

/-- One binary64 update of a vector with components of magnitude at most `2 ^ 1000` stays
finite and differs from the exact expression `(x * cs - y * sn, x * sn + y * cs)` by at most
`3 * 2^-53 * (|x| + |y|) + 4 * 2^-1075` in each component. -/
theorem rotateVec_step_err {cs sn x y : Dbl} (hcs : cs.isFinite = true)
    (hsn : sn.isFinite = true) (hx : x.isFinite = true) (hy : y.isFinite = true)
    (hc : |cs.toQ| ≤ 1) (hs : |sn.toQ| ≤ 1)
    (hxB : |x.toQ| ≤ pow2 1000) (hyB : |y.toQ| ≤ pow2 1000) :
    (rotateVec cs sn (x, y)).1.isFinite = true ∧ (rotateVec cs sn (x, y)).2.isFinite = true ∧
    |(rotateVec cs sn (x, y)).1.toQ - (x.toQ * cs.toQ - y.toQ * sn.toQ)| ≤
      3 * (|x.toQ| + |y.toQ|) / 9007199254740992 + 4 * (2 : ℚ) ^ (-1075 : Int) ∧
    |(rotateVec cs sn (x, y)).2.toQ - (x.toQ * sn.toQ + y.toQ * cs.toQ)| ≤
      3 * (|x.toQ| + |y.toQ|) / 9007199254740992 + 4 * (2 : ℚ) ^ (-1075 : Int) := by
  have p2 := pow2_facts.2.1
  have p3 := pow2_facts.2.2.1
  obtain ⟨g1, w1, g2, w2, _, _⟩ :=
    rotateVec_val hcs hsn hx hy hc hs (pow2 1000) hxB hyB (by linarith)
  refine ⟨g1, g2, ?_, ?_⟩
  · rw [w1]
    exact fl_sub_err _ _ _ _ (abs_mul_le_left _ _ hc) (abs_mul_le_left _ _ hs)
  · rw [w2]
    exact fl_add_err _ _ _ _ (abs_mul_le_left _ _ hs) (abs_mul_le_left _ _ hc)

/-- The right-arrow update by `(cs, sn)` followed by the left-arrow update by `(cs, -sn)`, in
binary64, on a vector with components of magnitude at most `2 ^ 1000`: the result is finite
and each component is within
`(13 * 2^-53 + |cs^2 + sn^2 - 1|) * (|x| + |y|) + 13 * 2^-1075` of the original. -/
theorem rotateVec_round_trip {cs sn x y : Dbl} (hcs : cs.isFinite = true)
    (hsn : sn.isFinite = true) (hx : x.isFinite = true) (hy : y.isFinite = true)
    (hc : |cs.toQ| ≤ 1) (hs : |sn.toQ| ≤ 1)
    (hxB : |x.toQ| ≤ pow2 1000) (hyB : |y.toQ| ≤ pow2 1000) :
    (rotateVec cs (Dbl.neg sn) (rotateVec cs sn (x, y))).1.isFinite = true ∧
    (rotateVec cs (Dbl.neg sn) (rotateVec cs sn (x, y))).2.isFinite = true ∧
    |(rotateVec cs (Dbl.neg sn) (rotateVec cs sn (x, y))).1.toQ - x.toQ| ≤
      (13 / 9007199254740992 + |cs.toQ ^ 2 + sn.toQ ^ 2 - 1|) * (|x.toQ| + |y.toQ|) +
        13 * (2 : ℚ) ^ (-1075 : Int) ∧
    |(rotateVec cs (Dbl.neg sn) (rotateVec cs sn (x, y))).2.toQ - y.toQ| ≤
      (13 / 9007199254740992 + |cs.toQ ^ 2 + sn.toQ ^ 2 - 1|) * (|x.toQ| + |y.toQ|) +
        13 * (2 : ℚ) ^ (-1075 : Int) := by
  have p2 := pow2_facts.2.1
  have p3 := pow2_facts.2.2.1
  obtain ⟨g1, w1, g2, w2, b1, b2⟩ :=
    rotateVec_val hcs hsn hx hy hc hs (pow2 1000) hxB hyB (by linarith)
  obtain ⟨n1, n2⟩ := neg_val hsn
  have hns : |(Dbl.neg sn).toQ| ≤ 1 := by rw [n2, abs_neg]; exact hs
  obtain ⟨k1, u1, k2, u2, _, _⟩ :=
    rotateVec_val hcs n1 g1 g2 hc hns (8 * pow2 1000 + 5) b1 b2 (by linarith)
  have R := round_trip_err cs.toQ sn.toQ x.toQ y.toQ hc hs
  refine ⟨k1, k2, ?_, ?_⟩
  · rw [u1, w1, w2, n2]
    exact R.1
  · rw [u2, w1, w2, n2]
    exact R.2

/-- The constants `cosStep` and `sinStep` are doubles, the round trip from the initial plane
`(0, 0.66)` returns `(2^-58, 0.66)` and from the initial direction `(1, 0)` a first component
`1 - 2^-53`, and one update of `(1, 0)` gives `(cosStep, sinStep)`, whose squared length is
not `1`. -/
theorem rotation_round_trip_inexact :
    cosStep = Dbl.fin (4502302652934379 / 4503599627370496) ∧
    sinStep = Dbl.fin (3458432481989875 / 144115188075855872) ∧
    rotateVec cosStep (Dbl.neg sinStep) (rotateVec cosStep sinStep
        (Dbl.lit 0, Dbl.lit (66 / 100))) =
      (Dbl.fin (1 / 288230376151711744), Dbl.lit (66 / 100)) ∧
    rotateVec cosStep (Dbl.neg sinStep) (rotateVec cosStep sinStep
        (Dbl.lit 0, Dbl.lit (66 / 100))) ≠ (Dbl.lit 0, Dbl.lit (66 / 100)) ∧
    (rotateVec cosStep (Dbl.neg sinStep) (rotateVec cosStep sinStep
        (Dbl.lit 1, Dbl.lit 0))).1 = Dbl.fin (9007199254740991 / 9007199254740992) ∧
    rotateVec cosStep (Dbl.neg sinStep) (rotateVec cosStep sinStep
        (Dbl.lit 1, Dbl.lit 0)) ≠ (Dbl.lit 1, Dbl.lit 0) ∧
    rotateVec cosStep sinStep (Dbl.lit 1, Dbl.lit 0) = (cosStep, sinStep) ∧
    cosStep.toQ ^ 2 + sinStep.toQ ^ 2 ≠ 1 := by
  decide!

end Binary64

/-! ## Camera rotation: exact and binary64 -/

/-- Claim C9 (amended). The rotation step applied to `(dir, plane)` is the rotation by `t`
when evaluated in exact real arithmetic: it sends the vector of length `r` at angle `a` to the
one at angle `a + t`, the right-arrow update followed by the left-arrow update gives back
`dir` and `plane`, and one update leaves `|dir|`, `|plane|`, `dir . plane` and `dir x plane`
unchanged. In binary64, with `cs` and `sn` the finite doubles returned by `cos` and `sin`, of
magnitude at most one, and a finite vector `(x, y)` with components of magnitude at most
`2 ^ 1000`, one update stays finite and is within `3 * 2^-53 * (|x| + |y|) + 4 * 2^-1075` of
the exact expression in each component, and the update by `(cs, sn)` followed by the update
by `(cs, -sn)` (the left-arrow update, `cos` being even and `sin` odd) stays finite and
returns each component within
`(13 * 2^-53 + |cs^2 + sn^2 - 1|) * (|x| + |y|) + 13 * 2^-1075` of the original. -/
theorem camera_rotation_exact_and_rounded (t : ℝ) (dir plane : ℝ × ℝ)
    (cs sn x y : Binary64.Dbl)
    (hcs : cs.isFinite = true) (hsn : sn.isFinite = true)
    (hx : x.isFinite = true) (hy : y.isFinite = true)
    (hc : |cs.toQ| ≤ 1) (hs : |sn.toQ| ≤ 1)
    (hxB : |x.toQ| ≤ Binary64.pow2 1000) (hyB : |y.toQ| ≤ Binary64.pow2 1000) :
    ((∀ r a : ℝ, rotateVec (Real.cos t) (Real.sin t) (r * Real.cos a, r * Real.sin a) =
        (r * Real.cos (a + t), r * Real.sin (a + t))) ∧
      rotateCamera (Real.cos (-t)) (Real.sin (-t))
          (rotateCamera (Real.cos t) (Real.sin t) (dir, plane)) = (dir, plane) ∧
      Real.sqrt ((rotateCamera (Real.cos t) (Real.sin t) (dir, plane)).1.1 ^ 2 +
          (rotateCamera (Real.cos t) (Real.sin t) (dir, plane)).1.2 ^ 2) =
        Real.sqrt (dir.1 ^ 2 + dir.2 ^ 2) ∧
      Real.sqrt ((rotateCamera (Real.cos t) (Real.sin t) (dir, plane)).2.1 ^ 2 +
          (rotateCamera (Real.cos t) (Real.sin t) (dir, plane)).2.2 ^ 2) =
        Real.sqrt (plane.1 ^ 2 + plane.2 ^ 2) ∧
      (rotateCamera (Real.cos t) (Real.sin t) (dir, plane)).1.1 *
          (rotateCamera (Real.cos t) (Real.sin t) (dir, plane)).2.1 +
        (rotateCamera (Real.cos t) (Real.sin t) (dir, plane)).1.2 *
          (rotateCamera (Real.cos t) (Real.sin t) (dir, plane)).2.2 =
        dir.1 * plane.1 + dir.2 * plane.2 ∧
      (rotateCamera (Real.cos t) (Real.sin t) (dir, plane)).1.1 *
          (rotateCamera (Real.cos t) (Real.sin t) (dir, plane)).2.2 -
        (rotateCamera (Real.cos t) (Real.sin t) (dir, plane)).1.2 *
          (rotateCamera (Real.cos t) (Real.sin t) (dir, plane)).2.1 =
        dir.1 * plane.2 - dir.2 * plane.1) ∧
    ((Binary64.rotateVec cs sn (x, y)).1.isFinite = true ∧
      (Binary64.rotateVec cs sn (x, y)).2.isFinite = true ∧
      |(Binary64.rotateVec cs sn (x, y)).1.toQ - (x.toQ * cs.toQ - y.toQ * sn.toQ)| ≤
        3 * (|x.toQ| + |y.toQ|) / 9007199254740992 + 4 * (2 : ℚ) ^ (-1075 : Int) ∧
      |(Binary64.rotateVec cs sn (x, y)).2.toQ - (x.toQ * sn.toQ + y.toQ * cs.toQ)| ≤
        3 * (|x.toQ| + |y.toQ|) / 9007199254740992 + 4 * (2 : ℚ) ^ (-1075 : Int)) ∧
    ((Binary64.rotateVec cs (Binary64.Dbl.neg sn)
        (Binary64.rotateVec cs sn (x, y))).1.isFinite = true ∧
      (Binary64.rotateVec cs (Binary64.Dbl.neg sn)
        (Binary64.rotateVec cs sn (x, y))).2.isFinite = true ∧
      |(Binary64.rotateVec cs (Binary64.Dbl.neg sn)
          (Binary64.rotateVec cs sn (x, y))).1.toQ - x.toQ| ≤
        (13 / 9007199254740992 + |cs.toQ ^ 2 + sn.toQ ^ 2 - 1|) * (|x.toQ| + |y.toQ|) +
          13 * (2 : ℚ) ^ (-1075 : Int) ∧
      |(Binary64.rotateVec cs (Binary64.Dbl.neg sn)
          (Binary64.rotateVec cs sn (x, y))).2.toQ - y.toQ| ≤
        (13 / 9007199254740992 + |cs.toQ ^ 2 + sn.toQ ^ 2 - 1|) * (|x.toQ| + |y.toQ|) +
          13 * (2 : ℚ) ^ (-1075 : Int)) :=
  ⟨rotation_exact t dir plane,
    Binary64.rotateVec_step_err hcs hsn hx hy hc hs hxB hyB,
    Binary64.rotateVec_round_trip hcs hsn hx hy hc hs hxB hyB⟩

theorem camera_rotation_exact_and_rounded_witness :
    (Binary64.cosStep.isFinite = true ∧ Binary64.sinStep.isFinite = true ∧
      (Binary64.Dbl.lit 0).isFinite = true ∧ (Binary64.Dbl.lit (66 / 100)).isFinite = true ∧
      |Binary64.cosStep.toQ| ≤ 1 ∧ |Binary64.sinStep.toQ| ≤ 1 ∧
      |(Binary64.Dbl.lit 0).toQ| ≤ Binary64.pow2 1000 ∧
      |(Binary64.Dbl.lit (66 / 100)).toQ| ≤ Binary64.pow2 1000) ∧
    |(Binary64.rotateVec Binary64.cosStep (Binary64.Dbl.neg Binary64.sinStep)
        (Binary64.rotateVec Binary64.cosStep Binary64.sinStep
          (Binary64.Dbl.lit 0, Binary64.Dbl.lit (66 / 100)))).1.toQ -
        (Binary64.Dbl.lit 0).toQ| ≤
      (13 / 9007199254740992 +
          |Binary64.cosStep.toQ ^ 2 + Binary64.sinStep.toQ ^ 2 - 1|) *
        (|(Binary64.Dbl.lit 0).toQ| + |(Binary64.Dbl.lit (66 / 100)).toQ|) +
          13 * (2 : ℚ) ^ (-1075 : Int) :=
  ⟨⟨by decide!, by decide!, by decide!, by decide!, by decide!, by decide!,
      le_trans (by decide!) Binary64.pow2_facts.2.2.1,
      le_trans (by decide!) Binary64.pow2_facts.2.2.1⟩,
    (camera_rotation_exact_and_rounded 0 (1, 0) (0, 66 / 100) Binary64.cosStep
      Binary64.sinStep (Binary64.Dbl.lit 0) (Binary64.Dbl.lit (66 / 100))
      (by decide!) (by decide!) (by decide!) (by decide!) (by decide!) (by decide!)
      (le_trans (by decide!) Binary64.pow2_facts.2.2.1)
      (le_trans (by decide!) Binary64.pow2_facts.2.2.1)).2.2.2.2.1⟩

end Raycast
